import Mathlib

/-!
# cbsh: the tokenizer, the chain evaluator and the built-in dispatcher

A shallow embedding of `src/cbsh.c`.

* A C string lives in a byte buffer, modelled as a `List Char` in which the
  character `NUL` (code 0) ends a string.  A `char *` into the buffer is the
  list from that position on, so `str[k]` is `peek str k` and `str[k] = c` is
  `poke str k c`.
* Everything outside the process (child processes, the file system, libc's
  `getopt`) is a field of `OS`; theorems quantify over it.
* `World` holds the program's global variables and its observable output.
-/

set_option autoImplicit false

namespace Cbsh

/-! ## Bytes and C strings -/

/-- The string terminator. -/
def NUL : Char := Char.ofNat 0

/-- The double quote character. -/
def DQUOTE : Char := Char.ofNat 34

/-- The single quote character. -/
def SQUOTE : Char := Char.ofNat 39

/-- The backslash character. -/
def BSLASH : Char := Char.ofNat 92

/-- Reads `m[i]`.  A read past the modelled buffer gives `NUL`. -/
def peek : List Char → Nat → Char
  | [], _ => NUL
  | c :: _, 0 => c
  | _ :: m, i + 1 => peek m i

/-- Writes `m[i] = c`. -/
def poke : List Char → Nat → Char → List Char
  | [], _, _ => []
  | _ :: m, 0, c => c :: m
  | d :: m, i + 1, c => d :: poke m i c

/-- The C string that starts at `m`: the bytes before the first `NUL`. -/
def cstr : List Char → List Char
  | [] => []
  | c :: m => if c = NUL then [] else c :: cstr m

/-- `strlen`. -/
def strlen (m : List Char) : Nat := (cstr m).length

/-- The C string at offset `off` of `m`, as a `String`. -/
def strAt (m : List Char) (off : Nat) : String := String.mk (cstr (m.drop off))

/-! ## dtmparse -/

/-- The local variables of `dtmparse` that its loop changes.  `res[0..i]` is
`done ++ [cur]`: `cur` is `res[i]`, an offset from `str`. -/
structure Parse where
  str : List Char
  done : List Nat
  cur : Nat
  in_quotes : Nat
deriving DecidableEq, Repr

/-- The loop `for (helper = k - 1; str + helper != res[i]; helper--)
str[helper + 1] = str[helper];`, entered with `helper`.  `none` when `helper`
would run below the start of the string without meeting `res[i]`. -/
def shift (r : Nat) : Nat → List Char → Option (List Char)
  | 0, str => if 0 = r then some str else none
  | h + 1, str =>
    if h + 1 = r then some str else shift r h (poke str (h + 2) (peek str (h + 1)))

/-- One pass of the body of the `for` loop of `dtmparse`, at index `k` (`k ≥ 1`). -/
def dtmparse_step (k : Nat) (p : Parse) : Option Parse :=
  let c := peek p.str k
  let b := peek p.str (k - 1)
  if c = ' ' then
    if b ≠ BSLASH then
      if p.in_quotes = 0 then
        let str1 := if b = DQUOTE ∨ b = SQUOTE then poke p.str (k - 1) NUL else poke p.str k NUL
        some { p with str := str1, done := p.done ++ [p.cur], cur := k + 1 }
      else some p
    else (shift p.cur (k - 1) p.str).map (fun s => { p with str := s })
  else if c = DQUOTE then
    if p.in_quotes = 2 then some p
    else if p.in_quotes = 1 ∧ b ≠ BSLASH then some { p with in_quotes := 0 }
    else if b ≠ BSLASH then some { p with in_quotes := 1, cur := k + 1 }
    else some p
  else if c = SQUOTE then
    if p.in_quotes = 1 then some p
    else if p.in_quotes = 2 ∧ b ≠ BSLASH then some { p with in_quotes := 0 }
    else if b ≠ BSLASH then some { p with in_quotes := 2, cur := k + 1 }
    else some p
  else some p

/-- The loop `for (; k < maxlen; k++)` of `dtmparse` with `n = maxlen - k` passes left. -/
def dtmparse_loop : Nat → Nat → Parse → Option Parse
  | 0, _, p => some p
  | n + 1, k, p => (dtmparse_step k p).bind (dtmparse_loop n (k + 1))

/-- The function `dtmparse`, on the memory `str` points to.  Returns the memory
afterwards and the offsets `res[0..length-1]`. -/
def dtmparse (str : List Char) : Option (List Char × List Nat) :=
  let maxlen := strlen str
  (dtmparse_loop (maxlen - 1) 1 { str := str, done := [], cur := 0, in_quotes := 0 }).map
    (fun p =>
      let k := if 1 < maxlen then maxlen else 1
      let b := peek p.str (k - 1)
      let str1 := if b = DQUOTE ∨ b = SQUOTE then poke p.str (k - 1) NUL else p.str
      (str1, p.done ++ [p.cur]))

/-- The argument strings `array[0..length-1]` that `dtmparse` leaves. -/
def argv_of (r : List Char × List Nat) : List String := r.2.map (strAt r.1)

/-- The arguments `dtmparse` produces for the C string with the bytes of `s`. -/
def tokenize (s : String) : Option (List String) :=
  (dtmparse (s.data ++ [NUL])).map argv_of

/-! ## The world outside the functions -/

/-- The program's global variables and what it has written. -/
structure World where
  /-- Bytes the shell itself has written to standard output. -/
  out : String
  /-- Bytes the shell itself has written to standard error. -/
  err : String
  /-- The working directory of the process, as `getcwd` reports it. -/
  cwd : String
  /-- The process environment. -/
  env : List (String × String)
  /-- The variable `optind` of libc. -/
  optind : Nat
  /-- The global `curdir`. -/
  curdir : String
  /-- The global `homedir`. -/
  homedir : String
  /-- The global `files`. -/
  files : List String
  /-- The state of everything outside the process (the file system, other
  processes), as a number that only the fields of `OS` interpret. -/
  ext : Nat
deriving DecidableEq, Repr

/-- What a call of `spawnwait` leaves behind. -/
structure Spawned where
  /-- The value `spawnwait` returns: the exit status of the child, or `-1`. -/
  status : Int
  /-- What `perror("fork")` wrote, if anything. -/
  err : String
  /-- The state outside the process after the child has ended. -/
  ext : Nat
deriving DecidableEq, Repr

/-- What `getopt(argc, argv, "pVv")` can return: `-1`, one of the three option
letters, or `?`. -/
inductive Getopt where
  | finished
  | p
  | v
  | V
  | unknown
deriving DecidableEq, Repr

/-- The operating system and libc, and the constant of `config.h` that is used. -/
structure OS where
  /-- The constant `MAXCURDIRLEN` of `config.h`. -/
  MAXCURDIRLEN : Nat
  /-- The calls `fork`, `execvp` and `wait` of `spawnwait`.  A child cannot
  change the variables of the shell, and what it prints is not part of
  `World.out`. -/
  spawn : List String → World → Spawned
  /-- The call `chdir(path)`: the text of the error, or the new working directory. -/
  chdir : String → World → Except String String
  /-- The call `getopt(argc, argv, "pVv")`: the result, `argv` as it leaves it,
  and the new `optind`. -/
  getopt : List String → World → Getopt × List String × Nat
  /-- The call `opendir(".")` and the names `readdir` then yields: `none` when
  `opendir` fails. -/
  readdir : World → Option (List String)

/-- The function `spawnwait`. -/
def spawnwait (os : OS) (argv : List String) (w : World) : Int × World :=
  ((os.spawn argv w).status,
    { w with err := w.err ++ (os.spawn argv w).err, ext := (os.spawn argv w).ext })

/-- The call `getenv(name)`. -/
def getenv (env : List (String × String)) (name : String) : Option String :=
  match env with
  | [] => none
  | (k, v) :: rest => if k = name then some v else getenv rest name

/-- The call `setenv(name, value, 1)`. -/
def setenv (env : List (String × String)) (name value : String) : List (String × String) :=
  match env with
  | [] => [(name, value)]
  | (k, v) :: rest => if k = name then (name, value) :: rest else (k, v) :: setenv rest name value

/-- The loop `while ((dent = readdir(dir)) != NULL)` of `buildhints` over the
names `readdir` yields: `files[dent_i++] = strdup(dent->d_name)`, and the array
grows by `alloc_step = 64` when then `dent_i > alloc_current`.  `acc` holds
`files[0..dent_i-1]`.  `none` when the store is past the `alloc_current`
pointers of the array. -/
def store_files : List String → List String → Nat → Option (List String × Nat)
  | [], acc, alloc_current => some (acc, alloc_current)
  | e :: es, acc, alloc_current =>
    if acc.length < alloc_current then
      store_files es (acc ++ [e])
        (if (acc ++ [e]).length > alloc_current then alloc_current + 64 else alloc_current)
    else none

/-- The function `buildhints(".")`, as far as the global `files` goes.  `none`
when `opendir` fails (the code prints with `perror` and goes on to call
`readdir(NULL)`), when a name is stored past the end of the array, or when the
final `files[dent_i] = NULL` is. -/
def buildhints (os : OS) (w : World) : Option World :=
  match os.readdir w with
  | none => none
  | some names =>
    match store_files names [] 128 with
    | none => none
    | some (acc, alloc_current) =>
      if acc.length < alloc_current then some { w with files := acc } else none

/-! ## sscanf with the format of `export` -/

/-- The function `isspace` in the C locale. -/
def isspace (c : Char) : Bool :=
  c = ' ' ∨ c = Char.ofNat 9 ∨ c = Char.ofNat 10 ∨ c = Char.ofNat 11 ∨ c = Char.ofNat 12
    ∨ c = Char.ofNat 13

/-- The longest run of at most `n` leading bytes that satisfy `q`, and what follows it. -/
def scan_run (q : Char → Bool) : Nat → List Char → List Char × List Char
  | 0, s => ([], s)
  | _ + 1, [] => ([], [])
  | n + 1, c :: s =>
    if q c then ((scan_run q n s).1.cons c, (scan_run q n s).2) else ([], c :: s)

/-- Drops leading white space, as `%s` does. -/
def skip_white : List Char → List Char
  | [] => []
  | c :: s => if isspace c then skip_white s else c :: s

/-- The call `sscanf(arg, "%63[^=]=%1023s", key, value)`: the value returned,
`key` and `value`. -/
def sscanf_export (arg : List Char) : Int × String × String :=
  match arg with
  | [] => (-1, "", "")
  | _ :: _ =>
    let k := scan_run (fun c => c ≠ '=') 63 arg
    if k.1 = [] then (0, "", "")
    else
      match k.2 with
      | c :: r =>
        if c = '=' then
          let v := scan_run (fun c => !isspace c) 1023 (skip_white r)
          if v.1 = [] then (1, String.mk k.1, "") else (2, String.mk k.1, String.mk v.1)
        else (1, String.mk k.1, "")
      | [] => (1, String.mk k.1, "")

/-! ## parse_builtin -/

/-- The loop of `echo` from `current` on: each argument, and a space after
each but the last. -/
def echo_loop : List String → String
  | [] => ""
  | [a] => a
  | a :: b :: rest => a ++ " " ++ echo_loop (b :: rest)

/-- The function `parse_builtin(argc, argv)` with `argc = argv.length`: the
value returned and the world afterwards.  `none` when the C code reads through
a null pointer (`argv[0]` of an empty vector, `strdup(getenv("PATH"))` with
`PATH` unset).  `getcwd(curdir, MAXCURDIRLEN)` leaves `curdir` as it was when
the name does not fit. -/
def parse_builtin (os : OS) : List String → World → Option (Int × World)
  | [], _ => none
  | a0 :: rest, w =>
    let argc := rest.length + 1
    if a0 = "exit" ∨ a0 = "logout" then
      if argc = 1 then some (0xDEAD, w) else some (0xAA, w)
    else if a0 = "cd" ∨ a0 = "chdir" then
      if argc = 1 then
        let cwd1 := match os.chdir w.homedir w with
          | .ok d => d
          | .error _ => w.cwd
        some (0x0, { w with cwd := cwd1, curdir := w.homedir })
      else if argc = 2 then
        match os.chdir (rest.headD "") w with
        | .error msg => some (0x1, { w with err := w.err ++ "chdir: " ++ msg ++ "\n" })
        | .ok d =>
          some (0x0, { w with cwd := d,
                              curdir := if d.length + 1 ≤ os.MAXCURDIRLEN then d else w.curdir })
      else some (0xAA, w)
    else if a0 = "export" ∨ a0 = "setenv" then
      if argc = 2 then
        let r := sscanf_export (rest.headD "").data
        if r.1 = 2 then some (0x0, { w with env := setenv w.env r.2.1 r.2.2 })
        else some (0xAA, w)
      else some (0xAA, w)
    else if a0 = "getenv" then
      if argc = 2 then
        match getenv w.env (rest.headD "") with
        | some envvar => some (0x0, { w with out := w.out ++ envvar ++ "\n" })
        | none => some (0x1, { w with out := w.out ++ "error: getenv: no such variable\n" })
      else some (0xAA, w)
    else if a0 = "builtin" then
      if argc ≥ 2 then parse_builtin os rest w else some (0xAA, w)
    else if a0 = "command" then
      if argc = 1 then some (0xAA, w)
      else
        match os.getopt (a0 :: rest) w with
        | (Getopt.p, argv1, oi) =>
          match getenv w.env "PATH" with
          | none => none
          | some pathold =>
            let w1 := { w with optind := oi,
                               env := setenv w.env "PATH" "/usr/local/bin:/usr/bin:/bin" }
            let w2 := (spawnwait os (argv1.drop 2) w1).2
            some (0x0, { w2 with env := setenv w2.env "PATH" pathold })
        | (Getopt.finished, argv1, oi) =>
          some (0x0, (spawnwait os (argv1.drop 1) { w with optind := oi }).2)
        | (_, _, oi) => some (0xAA, { w with optind := oi })
    else if a0 = "echo" then
      let dash_e := decide (1 < argc ∧ rest.headD "" = "-e")
      let args := if dash_e then rest.drop 1 else rest
      let text := echo_loop args ++ (if dash_e then "" else "\n")
      some (0x0, { w with out := w.out ++ text })
    else if a0 = ":" then some (0x0, w)
    else some (0x1337, w)

/-! ## shell_mainloop -/

/-- The variables of `shell_mainloop` that the scan for the next operator changes. -/
structure Scan where
  command : List Char
  parse_pos : Nat
  exit_expect : Int
  exit_expect_satisfy : Nat
  command_token : Nat
deriving DecidableEq, Repr

/-- The offset `parse_pos + (parse_pos != 0) - ((parse_pos == parse_pos_max) * 2)`. -/
def token_start (parse_pos parse_pos_max : Nat) : Nat :=
  parse_pos + (if parse_pos ≠ 0 then 1 else 0) - (if parse_pos = parse_pos_max then 2 else 0)

/-- What the `if` chain of the scan does at `parse_pos`: `none` is `continue`,
otherwise the state after the operator has been overwritten. -/
def scan_operator (s : Scan) : Option Scan :=
  let c := peek s.command s.parse_pos
  if c = ';' then
    some { s with command := poke s.command s.parse_pos NUL, exit_expect := -1 }
  else if s.parse_pos = 0 then none
  else if peek s.command (s.parse_pos - 1) = '&' ∧ c = '&' then
    some { s with command := poke s.command (s.parse_pos - 1) NUL, exit_expect := 0 }
  else if peek s.command (s.parse_pos - 1) = '|' ∧ c = '|' then
    some { s with command := poke s.command (s.parse_pos - 1) NUL, exit_expect := 1 }
  else none

/-- Whether `x & (1 << 1)` is not zero. -/
def bit_one : Nat → Bool
  | 0 => false
  | 1 => false
  | 2 => true
  | 3 => true
  | x + 4 => bit_one x

/-- The loop `for (; parse_pos < parse_pos_max; parse_pos++)` with
`n = parse_pos_max - parse_pos` passes left.  It returns at `break` without
the increment. -/
def scan_loop (parse_pos_max : Nat) : Nat → Scan → Scan
  | 0, s => s
  | n + 1, s =>
    match scan_operator s with
    | none => scan_loop parse_pos_max n { s with parse_pos := s.parse_pos + 1 }
    | some s1 =>
      if bit_one s1.exit_expect_satisfy then
        scan_loop parse_pos_max n
          { s1 with command_token := token_start s1.parse_pos parse_pos_max,
                    exit_expect_satisfy := 0,
                    parse_pos := s1.parse_pos + 1 }
      else s1

/-- The number of steps of `while (command_token[0] == ' ') command_token++`. -/
def skip_spaces : List Char → Nat
  | [] => 0
  | c :: m => if c = ' ' then skip_spaces m + 1 else 0

/-- The variables of `shell_mainloop` while one line is evaluated.  The field
`log` is not in the source: it records each `cmd_argv` passed to
`parse_builtin`, in order. -/
structure Loop where
  command : List Char
  parse_next : Bool
  parse_pos : Nat
  exit_expect : Int
  exit_expect_satisfy : Nat
  running : Bool
  world : World
  log : List (List String)
deriving DecidableEq, Repr

/-- The value of `exit_code` as `%hd` prints it. -/
def short_of (x : Int) : Int := (x + 32768) % 65536 - 32768

/-- The `switch` on the result of `parse_builtin`: the resulting `exit_code`,
`running` and world. -/
def run_action (os : OS) (argv : List String) (code : Int) (running : Bool) (w : World) :
    Int × Bool × World :=
  if code = 0x1337 then ((spawnwait os argv w).1, running, (spawnwait os argv w).2)
  else if code = 0xDEAD then (code, false, w)
  else if code = 0x1 ∨ code = 0x0 then (code, running, w)
  else if code = 0xAA then
    (code, running, { w with err := w.err ++ argv.headD "" ++ ": wrong number of arguments!\n" })
  else
    (code, running,
      { w with err := w.err ++ "error: parse_builtin returned an unknown action identifier ("
                        ++ toString (short_of code) ++ ")\n" })

/-- The new value of `exit_expect_satisfy` after a command. -/
def satisfy_of (exit_expect exit_code : Int) : Nat :=
  if exit_expect = 0 ∧ exit_code ≠ 0 then 2
  else if exit_expect = 1 ∧ exit_code = 0 then 3
  else 0

/-- What one pass of `while (parse_next)` does after the scan and before the
command runs: leading spaces are skipped, and unless the token is then empty
(`break`, second component `none`) `dtmparse` runs on it.  The result is the
scan state, its `command` being the buffer as `dtmparse` leaves it, and
`cmd_argv`.  `none` when `dtmparse` has no result. -/
def token_command (sc : Scan) : Option (Scan × Option (List String)) :=
  let tok := sc.command_token + skip_spaces (sc.command.drop sc.command_token)
  if peek sc.command tok = NUL then some (sc, none)
  else
    match dtmparse (sc.command.drop tok) with
    | none => none
    | some r => some ({ sc with command := sc.command.take tok ++ r.1 }, some (argv_of r))

/-- The first half of one pass of `while (parse_next)`, which does not touch
the world: `command_token` is set, the `for` loop scans for the next operator,
and the token is prepared. -/
def next_command (parse_pos_max : Nat) (command : List Char) (parse_pos : Nat)
    (exit_expect : Int) (exit_expect_satisfy : Nat) : Option (Scan × Option (List String)) :=
  token_command
    (scan_loop parse_pos_max (parse_pos_max - parse_pos)
      { command := command, parse_pos := parse_pos, exit_expect := exit_expect,
        exit_expect_satisfy := exit_expect_satisfy,
        command_token := token_start parse_pos parse_pos_max })

/-- The second half of one pass: `parse_builtin`, the `switch` on its result,
the new `exit_expect_satisfy`, and `buildhints(".")`.  `none` when
`parse_builtin` or `buildhints` has no result. -/
def run_command (os : OS) (argv : List String) (exit_expect : Int) (running : Bool)
    (w : World) : Option (Nat × Bool × World) :=
  match parse_builtin os argv w with
  | none => none
  | some (code, w1) =>
    let a := run_action os argv code running w1
    (buildhints os a.2.2).map (fun w2 => (satisfy_of exit_expect a.1, a.2.1, w2))

/-- The loop `while (parse_next)` of `shell_mainloop`, for at most `fuel`
passes; `none` when the passes do not suffice or a callee has no result. -/
def parse_loop (os : OS) (parse_pos_max : Nat) : Nat → Loop → Option Loop
  | 0, _ => none
  | fuel + 1, st =>
    if st.parse_next = false then some st
    else
      match next_command parse_pos_max st.command st.parse_pos st.exit_expect
          st.exit_expect_satisfy with
      | none => none
      | some (sc, none) =>
        some { st with command := sc.command,
                       parse_next := decide (st.parse_pos ≠ parse_pos_max),
                       parse_pos := sc.parse_pos, exit_expect := sc.exit_expect,
                       exit_expect_satisfy := sc.exit_expect_satisfy }
      | some (sc, some argv) =>
        match run_command os argv sc.exit_expect st.running st.world with
        | none => none
        | some (satisfy, running, w) =>
          parse_loop os parse_pos_max fuel
            { command := sc.command,
              parse_next := decide (st.parse_pos ≠ parse_pos_max),
              parse_pos := sc.parse_pos,
              exit_expect := sc.exit_expect,
              exit_expect_satisfy := satisfy,
              running := running,
              world := w,
              log := st.log ++ [argv] }

/-- One pass of the body of `while (running)` in `shell_mainloop`, for the
line `line` that `linenoise` returned. -/
def shell_mainloop_line (os : OS) (line : String) (w : World) : Option Loop :=
  let command := line.data ++ [NUL]
  parse_loop os (strlen command + 1) (strlen command + 3)
    { command := command, parse_next := true, parse_pos := 0, exit_expect := -1,
      exit_expect_satisfy := 0, running := true, world := w, log := [] }

/-! ## Words, sub-commands and the invariant of dtmparse

The predicates and functions in which the theorems are stated. -/

/-- The words, each with a space before it. -/
def spaced : List (List Char) → List Char
  | [] => []
  | w :: ws => ' ' :: (w ++ spaced ws)

/-- The words, each with a `NUL` before it. -/
def nulled : List (List Char) → List Char
  | [] => []
  | w :: ws => NUL :: (w ++ nulled ws)

/-- Where the words of `nulled ws` start when it is placed at offset `base`. -/
def word_offsets (base : Nat) : List (List Char) → List Nat
  | [] => []
  | w :: ws => (base + 1) :: word_offsets (base + 1 + w.length) ws

/-- A byte that `dtmparse` treats as part of a word wherever it stands. -/
def plain_char (c : Char) : Prop :=
  c ≠ ' ' ∧ c ≠ DQUOTE ∧ c ≠ SQUOTE ∧ c ≠ BSLASH ∧ c ≠ NUL

instance (c : Char) : Decidable (plain_char c) :=
  inferInstanceAs (Decidable (c ≠ ' ' ∧ c ≠ DQUOTE ∧ c ≠ SQUOTE ∧ c ≠ BSLASH ∧ c ≠ NUL))

/-- A non-empty word of plain bytes. -/
def plain_word (w : List Char) : Prop := w ≠ [] ∧ ∀ c ∈ w, plain_char c

instance (w : List Char) : Decidable (plain_word w) :=
  inferInstanceAs (Decidable (w ≠ [] ∧ ∀ c ∈ w, plain_char c))

/-- What holds of `res` at the head of the loop of `dtmparse`, at index `k`. -/
def parse_inv (k : Nat) (p : Parse) : Prop :=
  (∀ o ∈ p.done, o ≤ k) ∧ p.cur ≤ k ∧ (p.cur = k → peek p.str (k - 1) ≠ BSLASH)

/-- The bytes `s` contain `;`, `&&` or `||`. -/
def has_operator : List Char → Bool
  | [] => false
  | [c] => decide (c = ';')
  | c :: d :: m =>
    decide (c = ';') || decide (c = '&' ∧ d = '&') || decide (c = '|' ∧ d = '|')
      || has_operator (d :: m)

/-- The scan of `shell_mainloop` finds an operator at index `i` of `m`. -/
def is_boundary (m : List Char) (i : Nat) : Prop :=
  peek m i = ';' ∨
    (i ≠ 0 ∧ ((peek m (i - 1) = '&' ∧ peek m i = '&') ∨ (peek m (i - 1) = '|' ∧ peek m i = '|')))

/-- The arguments `dtmparse` yields for the bytes of one sub-command, once its
leading spaces are removed. -/
def subcommand_argv (s : List Char) : Option (List String) :=
  (dtmparse (s.drop (skip_spaces s) ++ [NUL])).map argv_of

/-- A stretch of a line that the scan passes over as a whole and that is not
empty once its leading spaces are removed: it has a byte other than a space,
no `NUL`, and none of `;`, `&&`, `||`. -/
def sub_command (s : List Char) : Prop :=
  (∃ c ∈ s, c ≠ ' ') ∧ (∀ c ∈ s, c ≠ NUL) ∧ has_operator s = false

instance (s : List Char) : Decidable (sub_command s) :=
  inferInstanceAs (Decidable ((∃ c ∈ s, c ≠ ' ') ∧ (∀ c ∈ s, c ≠ NUL) ∧ has_operator s = false))

/-! ## Worlds for the examples -/

/-- A world in which `PATH` is set and nothing has been written. -/
def example_world : World :=
  { out := "", err := "", cwd := "/home/emily", env := [("PATH", "/usr/bin:/bin")], optind := 1,
    curdir := "/home/emily", homedir := "/home/emily", files := [], ext := 0 }

/-- An operating system in which `true` exits with 0, `false` with 1 and every
other program with 127, and whose only directories are `/tmp` and `/home/emily`. -/
def example_os : OS :=
  { MAXCURDIRLEN := 4096,
    spawn := fun argv w =>
      { status := if argv.headD "" = "true" then 0 else if argv.headD "" = "false" then 1 else 127,
        err := "", ext := w.ext },
    chdir := fun dir _ =>
      if dir = "/tmp" ∨ dir = "/home/emily" then Except.ok dir
      else Except.error "No such file or directory",
    getopt := fun argv w => (Getopt.finished, argv, w.optind),
    readdir := fun _ => some [] }

/-! ## completion -/

/-- The function `startswith(str, pre)`, that is `strncmp(pre, str, strlen(pre)) == 0`. -/
def startswith : List Char → List Char → Bool
  | _, [] => true
  | [], _ :: _ => false
  | c :: s, d :: p => decide (d = c) && startswith s p

/-- The local variables `lastarg` (an offset from `firstbuf`) and `bufidx` of
`completion`. -/
structure LastWord where
  lastarg : Nat
  bufidx : Int
deriving DecidableEq, Repr

/-- The body of the loop `while ((lastbuf = strstr(lastbuf, " ")) != NULL)` of
`completion` when `strstr` has found the space at index `i` of `m`.  `none`
when `*(lastarg - 2)` lies before the buffer. -/
def last_word_step (m : List Char) (i : Nat) (st : LastWord) : Option LastWord :=
  let lastarg := i + 1
  let bufidx := st.bufidx + 1
  if strlen (m.drop lastarg) < 2 then some ⟨lastarg, bufidx⟩
  else if (peek m lastarg = '&' ∧ peek m (lastarg + 1) = '&' ∧ peek m (lastarg + 2) = ' ')
      ∨ (peek m lastarg = '|' ∧ peek m (lastarg + 1) = '|' ∧ peek m (lastarg + 2) = ' ') then
    some ⟨lastarg, -1⟩
  else if peek m lastarg = ';' then
    some ⟨lastarg + 1, if peek m (lastarg + 1) = ' ' then -1 else 0⟩
  else if lastarg < 2 then none
  else if peek m (lastarg - 2) = ';' then some ⟨lastarg, 0⟩
  else some ⟨lastarg, bufidx⟩

/-- The loop `while ((lastbuf = strstr(lastbuf, " ")) != NULL)` of `completion`:
`strstr` walks the string from the byte after the last space found, so the
spaces are met in order; here byte `i` is looked at, with `n` bytes left. -/
def last_word_loop (m : List Char) : Nat → Nat → LastWord → Option LastWord
  | 0, _, st => some st
  | n + 1, i, st =>
    if peek m i = ' ' then (last_word_step m i st).bind (last_word_loop m n (i + 1))
    else last_word_loop m n (i + 1) st

/-- What the body of `if (startswith(name, lastarg))` in `completion` does with
`tmp`: the number of bytes it asks of `malloc`, and the bytes that `strcpy` and
`strcat` then write, without the terminating `NUL` that follows them. -/
structure Attempt where
  size : Nat
  text : List Char
deriving DecidableEq, Repr

/-- One of the two loops of `completion` over a list of names: each name that
starts with `lastarg` yields `firstbuf` followed by the rest of the name, in a
`tmp` of `strlen(firstbuf) + strlen(name) - strlen(lastarg)` bytes. -/
def add_completions (firstbuf lastarg : List Char) : List String → List Attempt
  | [] => []
  | s :: rest =>
    if startswith s.data lastarg then
      { size := firstbuf.length + s.data.length - lastarg.length,
        text := firstbuf ++ s.data.drop lastarg.length }
        :: add_completions firstbuf lastarg rest
    else add_completions firstbuf lastarg rest

/-- The control flow of `completion(buf, lc)` with the globals `commands` and
`files`: for each name that the two loops find, in order, what is asked of
`malloc` and what is written to `tmp`.  `none` when `*(lastarg - 2)` lies
before the buffer. -/
def completion_attempts (commands files : List String) (buf : String) :
    Option (List Attempt) :=
  let m := buf.data ++ [NUL]
  (last_word_loop m (strlen m) 0 ⟨0, 0⟩).map (fun st =>
    if peek m st.lastarg = NUL then []
    else
      (if st.bufidx = 0 then add_completions (cstr m) (cstr (m.drop st.lastarg)) commands else [])
        ++ add_completions (cstr m) (cstr (m.drop st.lastarg)) files)

/-- The function `completion(buf, lc)`: the strings passed to
`linenoiseAddCompletion`, in order.  `none` when a write to `tmp` goes past the
bytes that `malloc` was asked for: `strcpy` and `strcat` write the text and a
terminating `NUL`. -/
def completion (commands files : List String) (buf : String) : Option (List String) :=
  (completion_attempts commands files buf).bind (fun attempts =>
    if ∀ a ∈ attempts, a.text.length + 1 ≤ a.size then
      some (attempts.map (fun a => String.mk a.text))
    else none)

/-! ## buildcommands -/

/-- The tokens that `strtok(str, delim)` and `strtok(NULL, delim)` yield for a
delimiter of one byte: the maximal runs of other bytes, in order.  `cur` is the
token being read. -/
def strtok_all (delim : Char) : List Char → List Char → List (List Char)
  | [], cur => if cur = [] then [] else [cur]
  | c :: s, cur =>
    if c = delim then
      if cur = [] then strtok_all delim s [] else cur :: strtok_all delim s []
    else strtok_all delim s (cur ++ [c])

/-- The function `dtmsplit(str, delim, &array, &length)` for a delimiter of one byte. -/
def dtmsplit (str : List Char) (delim : Char) : List String :=
  (strtok_all delim (cstr str) []).map String.mk

/-- The array `commands` as `buildcommands` leaves it: the names stored in
`commands[0..alloc_total-1]`, and whether `commands[alloc_total] = NULL` was
executed. -/
structure CommandList where
  names : List String
  terminated : Bool
deriving DecidableEq, Repr

/-- The fifteen names that `buildcommands` stores under "add builtins". -/
def builtin_names : List String :=
  ["cd", "chdir", "exit", "export", "setenv", "getenv", "builtin", "command", "echo", "logout",
    ":", ".", "source", "alias", "unalias"]

/-- The loop `while ((dent = readdir(dir)) != NULL)` of `buildcommands` over the
names `readdir` yields, with `acc` the names stored so far.  The second
component is true when the loop ends in `return` (`alloc_total > 32768`). -/
def read_directory : List String → List String → List String × Bool
  | [], acc => (acc, false)
  | e :: es, acc =>
    if (acc ++ [e]).length > 32768 then (acc ++ [e], true) else read_directory es (acc ++ [e])

/-- The loop `while (pathdirs[pathidx] != NULL)` of `buildcommands`.  `listdir`
gives for a directory the names `readdir` yields, or `none` when `opendir`
fails: the code then calls `readdir(NULL)`, and the model has no result. -/
def read_path (listdir : String → Option (List String)) :
    List String → List String → Option (List String × Bool)
  | [], acc => some (acc, false)
  | d :: ds, acc =>
    match listdir d with
    | none => none
    | some es =>
      if (read_directory es acc).2 then some (read_directory es acc)
      else read_path listdir ds (read_directory es acc).1

/-- The function `buildcommands`, given the value of `getenv("PATH")` (`none`
for `NULL`, which `strdup` is then called with) and the contents of the
directories.  The growth of the array by `realloc` is not modelled. -/
def buildcommands (path : Option String) (listdir : String → Option (List String)) :
    Option CommandList :=
  match path with
  | none => none
  | some p =>
    (read_path listdir (dtmsplit (p.data ++ [NUL]) ':') []).map (fun r =>
      if r.2 then { names := r.1, terminated := false }
      else { names := r.1 ++ builtin_names, terminated := true })

/-- A directory listing of 32769 names, one more than `buildcommands` reads. -/
def many_names : List String := List.replicate 32769 "x"

/-! ## Predicates for the chain evaluator -/

/-- The bytes `s` hold none of the operator characters `;`, `&`, `|`. -/
def operator_free (s : List Char) : Prop := ∀ c ∈ s, c ≠ ';' ∧ c ≠ '&' ∧ c ≠ '|'

instance (s : List Char) : Decidable (operator_free s) :=
  inferInstanceAs (Decidable (∀ c ∈ s, c ≠ ';' ∧ c ≠ '&' ∧ c ≠ '|'))

/-- In every state `opendir(".")` succeeds and `readdir` then yields fewer than
128 names, so that `buildhints(".")` stays inside its array of 128 pointers. -/
def listable (os : OS) : Prop :=
  ∀ w, ∃ names, os.readdir w = some names ∧ names.length < 128

/-- A sub-command that holds none of the operator characters. -/
def plain_command (s : List Char) : Prop := sub_command s ∧ operator_free s

instance (s : List Char) : Decidable (plain_command s) :=
  inferInstanceAs (Decidable (sub_command s ∧ operator_free s))

/-- The value of `exit_code` after the `switch` of `shell_mainloop`, when
`argv` is run in the world `w`. -/
def exit_code_of (os : OS) (argv : List String) (w : World) : Option Int :=
  (parse_builtin os argv w).map (fun r => (run_action os argv r.1 true r.2).1)

/-- The bytes `s` are all spaces (`s` may be empty). -/
def blank (s : List Char) : Prop := ∀ c ∈ s, c = ' '

instance (s : List Char) : Decidable (blank s) :=
  inferInstanceAs (Decidable (∀ c ∈ s, c = ' '))

/-- The sub-commands of a chain, each with `&&` before it. -/
def anded : List (List Char) → List Char
  | [] => []
  | a :: rest => '&' :: '&' :: (a ++ anded rest)

/-- The argument vectors are run one after the other as `shell_mainloop` runs a
command (`parse_builtin`, the `switch`, `buildhints(".")`), each in the world
the one before leaves, as long as each leaves `exit_code` 0: the value of
`running` and the world after the last one.  `none` when one of them leaves
another `exit_code` or has no result. -/
def run_chain (os : OS) : List (List String) → Bool → World → Option (Bool × World)
  | [], running, w => some (running, w)
  | argv :: rest, running, w =>
    match parse_builtin os argv w with
    | none => none
    | some (code, w1) =>
      if (run_action os argv code running w1).1 = 0 then
        (buildhints os (run_action os argv code running w1).2.2).bind
          (fun w2 => run_chain os rest (run_action os argv code running w1).2.1 w2)
      else none

/-! ## Reading and writing in a buffer -/

theorem peek_append_left (s t : List Char) (i : Nat) (h : i < s.length) :
    peek (s ++ t) i = peek s i := by
  induction s generalizing i with
  | nil => simp at h
  | cons c s ih =>
    cases i with
    | zero => rfl
    | succ i => exact ih i (by simpa using h)

theorem peek_append_right (s t : List Char) (i : Nat) :
    peek (s ++ t) (s.length + i) = peek t i := by
  induction s with
  | nil => simp
  | cons c s ih =>
    have : (c :: s).length + i = (s.length + i) + 1 := by simp; omega
    rw [this]
    exact ih

theorem peek_append_length (s t : List Char) : peek (s ++ t) s.length = peek t 0 := by
  simpa using peek_append_right s t 0

theorem poke_append_left (s t : List Char) (i : Nat) (c : Char) (h : i < s.length) :
    poke (s ++ t) i c = poke s i c ++ t := by
  induction s generalizing i with
  | nil => simp at h
  | cons d s ih =>
    cases i with
    | zero => rfl
    | succ i =>
      have := ih i (by simpa using h)
      simp [poke, this]

theorem poke_append_length (s t : List Char) (d c : Char) :
    poke (s ++ d :: t) s.length c = s ++ c :: t := by
  induction s with
  | nil => rfl
  | cons e s ih => simp [poke, ih]

theorem length_poke (s : List Char) (i : Nat) (c : Char) : (poke s i c).length = s.length := by
  induction s generalizing i with
  | nil => rfl
  | cons d s ih =>
    cases i with
    | zero => rfl
    | succ i => simp [poke, ih]

theorem cstr_append_nul (s t : List Char) (h : ∀ c ∈ s, c ≠ NUL) :
    cstr (s ++ NUL :: t) = s := by
  induction s with
  | nil => simp [cstr]
  | cons c s ih =>
    have hc : c ≠ NUL := h c (by simp)
    have hs : ∀ d ∈ s, d ≠ NUL := fun d hd => h d (by simp [hd])
    simp [cstr, hc, ih hs]

theorem strlen_append_nul (s t : List Char) (h : ∀ c ∈ s, c ≠ NUL) :
    strlen (s ++ NUL :: t) = s.length := by
  simp [strlen, cstr_append_nul s t h]

/-! ## dtmparse on words without quotes or backslashes -/

theorem dtmparse_step_other (k : Nat) (p : Parse)
    (h : peek p.str k ≠ ' ' ∧ peek p.str k ≠ DQUOTE ∧ peek p.str k ≠ SQUOTE) :
    dtmparse_step k p = some p := by
  simp [dtmparse_step, h.1, h.2.1, h.2.2]

theorem dtmparse_step_split (k : Nat) (p : Parse) (hc : peek p.str k = ' ')
    (hb : peek p.str (k - 1) ≠ BSLASH ∧ peek p.str (k - 1) ≠ DQUOTE ∧
      peek p.str (k - 1) ≠ SQUOTE) (hq : p.in_quotes = 0) :
    dtmparse_step k p
      = some { p with str := poke p.str k NUL, done := p.done ++ [p.cur], cur := k + 1 } := by
  simp [dtmparse_step, hc, hb.1, hb.2.1, hb.2.2, hq]

theorem dtmparse_loop_word (u : List Char) (hu : ∀ c ∈ u, plain_char c) :
    ∀ (pre tail : List Char) (k n : Nat) (d : List Nat) (c q : Nat), k = pre.length →
      dtmparse_loop (u.length + n) k ⟨pre ++ (u ++ tail), d, c, q⟩
        = dtmparse_loop n (k + u.length) ⟨pre ++ (u ++ tail), d, c, q⟩ := by
  induction u with
  | nil => intro pre tail k n d c q _; simp
  | cons x u ih =>
    intro pre tail k n d c q hk
    subst hk
    have hx : plain_char x := hu x (by simp)
    have hpeek : peek (pre ++ (x :: u ++ tail)) pre.length = x := by
      rw [peek_append_length]; rfl
    have hstep : dtmparse_step pre.length ⟨pre ++ (x :: u ++ tail), d, c, q⟩
        = some ⟨pre ++ (x :: u ++ tail), d, c, q⟩ :=
      dtmparse_step_other _ _ (by
        show peek (pre ++ (x :: u ++ tail)) pre.length ≠ ' ' ∧ _
        rw [hpeek]; exact ⟨hx.1, hx.2.1, hx.2.2.1⟩)
    have hlen : (x :: u).length + n = (u.length + n) + 1 := by simp; omega
    rw [hlen, dtmparse_loop, hstep, Option.some_bind]
    have := ih (fun c hc => hu c (by simp [hc])) (pre ++ [x]) tail (pre.length + 1) n d c q
      (by simp)
    simp only [List.append_assoc, List.singleton_append] at this
    simp only [List.cons_append, List.length_cons]
    rw [this]
    congr 1
    omega

theorem dtmparse_loop_words (ws : List (List Char)) (hws : ∀ w ∈ ws, plain_word w) :
    ∀ (pre : List Char) (b : Char) (_ : plain_char b) (d : List Nat) (c : Nat),
      ∃ dn cn,
        dtmparse_loop (spaced ws).length (pre.length + 1)
            ⟨pre ++ b :: (spaced ws ++ [NUL]), d, c, 0⟩
          = some ⟨pre ++ b :: (nulled ws ++ [NUL]), dn, cn, 0⟩ ∧
        dn ++ [cn] = d ++ c :: word_offsets (pre.length + 1) ws := by
  induction ws with
  | nil => intro pre b _ d c; exact ⟨d, c, rfl, by simp [word_offsets]⟩
  | cons w ws ih =>
    intro pre b hb d c
    have hw : plain_word w := hws w (by simp)
    obtain ⟨w0, b1, rfl⟩ : ∃ w0 b1, w = w0 ++ [b1] := by
      rcases List.eq_nil_or_concat w with h | ⟨w0, b1, h⟩
      · exact absurd h hw.1
      · exact ⟨w0, b1, by simpa using h⟩
    have hb1 : plain_char b1 := hw.2 b1 (by simp)
    -- the space after `b` splits
    have hstr : pre ++ b :: (spaced ((w0 ++ [b1]) :: ws) ++ [NUL])
        = (pre ++ [b]) ++ ' ' :: ((w0 ++ [b1]) ++ (spaced ws ++ [NUL])) := by
      simp [spaced]
    have hk : pre.length + 1 = (pre ++ [b]).length := by simp
    have hc : peek (pre ++ b :: (spaced ((w0 ++ [b1]) :: ws) ++ [NUL])) (pre.length + 1)
        = ' ' := by
      rw [hstr, hk, peek_append_length]; rfl
    have hprev : peek (pre ++ b :: (spaced ((w0 ++ [b1]) :: ws) ++ [NUL])) (pre.length + 1 - 1)
        = b := by
      rw [Nat.add_sub_cancel, peek_append_length]; rfl
    have hpoke : poke (pre ++ b :: (spaced ((w0 ++ [b1]) :: ws) ++ [NUL])) (pre.length + 1) NUL
        = (pre ++ [b, NUL]) ++ ((w0 ++ [b1]) ++ (spaced ws ++ [NUL])) := by
      rw [hstr, hk, poke_append_length]; simp
    have hstep := dtmparse_step_split (pre.length + 1)
      ⟨pre ++ b :: (spaced ((w0 ++ [b1]) :: ws) ++ [NUL]), d, c, 0⟩ hc
      (by rw [hprev]; exact ⟨hb.2.2.2.1, hb.2.1, hb.2.2.1⟩) rfl
    have hlen : (spaced ((w0 ++ [b1]) :: ws)).length
        = ((w0 ++ [b1]).length + (spaced ws).length) + 1 := by
      simp [spaced]; omega
    rw [hlen, dtmparse_loop, hstep, Option.some_bind]
    simp only [hpoke]
    -- the word is passed over
    rw [dtmparse_loop_word (w0 ++ [b1]) hw.2 _ _ _ _ _ _ _ (by simp)]
    -- the remaining words
    obtain ⟨dn, cn, hrun, hres⟩ := ih (fun v hv => hws v (by simp [hv]))
      (pre ++ [b, NUL] ++ w0) b1 hb1 (d ++ [c]) (pre.length + 1 + 1)
    refine ⟨dn, cn, ?_, ?_⟩
    · have e1 : pre.length + 1 + 1 + (w0 ++ [b1]).length
          = (pre ++ [b, NUL] ++ w0).length + 1 := by simp; omega
      have e2 : pre ++ [b, NUL] ++ ((w0 ++ [b1]) ++ (spaced ws ++ [NUL]))
          = pre ++ [b, NUL] ++ w0 ++ b1 :: (spaced ws ++ [NUL]) := by simp
      have e3 : pre ++ b :: (nulled ((w0 ++ [b1]) :: ws) ++ [NUL])
          = pre ++ [b, NUL] ++ w0 ++ b1 :: (nulled ws ++ [NUL]) := by simp [nulled]
      rw [e1, e2, e3]
      exact hrun
    · rw [hres]
      have e4 : (pre ++ [b, NUL] ++ w0).length + 1 = pre.length + 1 + 1 + (w0 ++ [b1]).length := by
        simp; omega
      rw [e4]
      simp [word_offsets]

theorem nulled_append_nul (ws : List (List Char)) : ∃ t, nulled ws ++ [NUL] = NUL :: t := by
  cases ws with
  | nil => exact ⟨[], rfl⟩
  | cons w ws => exact ⟨w ++ nulled ws ++ [NUL], by simp [nulled]⟩

theorem length_nulled (ws : List (List Char)) : (nulled ws).length = (spaced ws).length := by
  induction ws with
  | nil => rfl
  | cons w ws ih => simp [nulled, spaced, ih]

theorem strAt_word_offsets (ws : List (List Char)) (hws : ∀ w ∈ ws, plain_word w) :
    ∀ (pre : List Char) (base : Nat), base = pre.length →
      (word_offsets base ws).map (strAt (pre ++ (nulled ws ++ [NUL]))) = ws.map String.mk := by
  induction ws with
  | nil => intro pre base _; rfl
  | cons w ws ih =>
    intro pre base hbase
    subst hbase
    have hw : ∀ c ∈ w, c ≠ NUL := fun c hc => ((hws w (by simp)).2 c hc).2.2.2.2
    obtain ⟨t, ht⟩ := nulled_append_nul ws
    have hfirst : strAt (pre ++ (nulled (w :: ws) ++ [NUL])) (pre.length + 1) = String.mk w := by
      have e : pre ++ (nulled (w :: ws) ++ [NUL]) = (pre ++ [NUL]) ++ (w ++ NUL :: t) := by
        simp [nulled, ht]
      have e2 : pre.length + 1 = (pre ++ [NUL]).length := by simp
      rw [strAt, e, e2, List.drop_left, cstr_append_nul w t hw]
    have hrest := ih (fun v hv => hws v (by simp [hv])) (pre ++ NUL :: w)
      (pre.length + 1 + w.length) (by simp; omega)
    have e3 : pre ++ NUL :: w ++ (nulled ws ++ [NUL]) = pre ++ (nulled (w :: ws) ++ [NUL]) := by
      simp [nulled]
    rw [e3] at hrest
    simp only [word_offsets, List.map_cons, hfirst, hrest]

theorem peek_last_plain (ws : List (List Char)) (hws : ∀ w ∈ ws, plain_word w) :
    ∀ (pre : List Char) (b : Char), plain_char b →
      plain_char (peek (pre ++ b :: (nulled ws ++ [NUL])) (pre.length + (nulled ws).length)) := by
  induction ws with
  | nil =>
    intro pre b hb
    have : peek (pre ++ b :: (nulled [] ++ [NUL])) (pre.length + (nulled []).length) = b := by
      simp only [nulled, List.length_nil, Nat.add_zero, peek_append_length]; rfl
    rw [this]; exact hb
  | cons w ws ih =>
    intro pre b _
    have hw : plain_word w := hws w (by simp)
    obtain ⟨w0, b1, rfl⟩ : ∃ w0 b1, w = w0 ++ [b1] := by
      rcases List.eq_nil_or_concat w with h | ⟨w0, b1, h⟩
      · exact absurd h hw.1
      · exact ⟨w0, b1, by simpa using h⟩
    have hb1 : plain_char b1 := hw.2 b1 (by simp)
    have := ih (fun v hv => hws v (by simp [hv])) (pre ++ b :: NUL :: w0) b1 hb1
    have e1 : pre ++ b :: NUL :: w0 ++ b1 :: (nulled ws ++ [NUL])
        = pre ++ b :: (nulled ((w0 ++ [b1]) :: ws) ++ [NUL]) := by simp [nulled]
    have e2 : (pre ++ b :: NUL :: w0).length + (nulled ws).length
        = pre.length + (nulled ((w0 ++ [b1]) :: ws)).length := by simp [nulled]; omega
    rw [e1, e2] at this
    exact this

theorem spaced_no_nul (ws : List (List Char)) (hws : ∀ w ∈ ws, plain_word w) :
    ∀ c ∈ spaced ws, c ≠ NUL := by
  induction ws with
  | nil => simp [spaced]
  | cons w ws ih =>
    intro c hc
    simp only [spaced, List.mem_cons, List.mem_append] at hc
    rcases hc with h | h | h
    · subst h; decide
    · exact ((hws w (by simp)).2 c h).2.2.2.2
    · exact ih (fun v hv => hws v (by simp [hv])) c h

/-- What `dtmparse` does to a first word `v` followed by further words, each
after one space. -/
theorem dtmparse_plain_words (v : List Char) (ws : List (List Char)) (hv : plain_word v)
    (hws : ∀ w ∈ ws, plain_word w) :
    (dtmparse (v ++ (spaced ws ++ [NUL]))).map argv_of = some ((v :: ws).map String.mk) := by
  obtain ⟨pre, b, rfl⟩ : ∃ pre b, v = pre ++ [b] := by
    rcases List.eq_nil_or_concat v with h | ⟨pre, b, h⟩
    · exact absurd h hv.1
    · exact ⟨pre, b, by simpa using h⟩
  have hb : plain_char b := hv.2 b (by simp)
  have hnn : ∀ c ∈ pre ++ [b] ++ spaced ws, c ≠ NUL := by
    intro c hc
    rcases List.mem_append.1 hc with h | h
    · exact (hv.2 c h).2.2.2.2
    · exact spaced_no_nul ws hws c h
  have hlen : strlen (pre ++ [b] ++ (spaced ws ++ [NUL])) = pre.length + 1 + (spaced ws).length := by
    have := strlen_append_nul (pre ++ [b] ++ spaced ws) [] hnn
    simp only [List.append_assoc, List.length_append, List.length_singleton] at this ⊢
    rw [this]; omega
  -- the first word, from index 1 on
  obtain ⟨x, u, hxu⟩ : ∃ x u, pre ++ [b] = x :: u := by
    cases pre with
    | nil => exact ⟨b, [], rfl⟩
    | cons x pre => exact ⟨x, pre ++ [b], rfl⟩
  have hu : ∀ c ∈ u, plain_char c := fun c hc => hv.2 c (by rw [hxu]; simp [hc])
  have hulen : u.length = pre.length := by
    have := congrArg List.length hxu
    simp at this; omega
  have h1 := dtmparse_loop_word u hu [x] (spaced ws ++ [NUL]) 1 (spaced ws).length [] 0 0 rfl
  have e1 : [x] ++ (u ++ (spaced ws ++ [NUL])) = pre ++ b :: (spaced ws ++ [NUL]) := by
    have : [x] ++ (u ++ (spaced ws ++ [NUL])) = (x :: u) ++ (spaced ws ++ [NUL]) := by simp
    rw [this, ← hxu]; simp
  rw [e1] at h1
  obtain ⟨dn, cn, h2, hres⟩ := dtmparse_loop_words ws hws pre b hb [] 0
  have e2 : 1 + u.length = pre.length + 1 := by omega
  rw [e2] at h1
  have hloop : dtmparse_loop (strlen (pre ++ [b] ++ (spaced ws ++ [NUL])) - 1) 1
      ⟨pre ++ [b] ++ (spaced ws ++ [NUL]), [], 0, 0⟩
      = some ⟨pre ++ b :: (nulled ws ++ [NUL]), dn, cn, 0⟩ := by
    have e3 : strlen (pre ++ [b] ++ (spaced ws ++ [NUL])) - 1 = u.length + (spaced ws).length := by
      rw [hlen]; omega
    have e4 : pre ++ [b] ++ (spaced ws ++ [NUL]) = pre ++ b :: (spaced ws ++ [NUL]) := by simp
    rw [e3, e4, h1, h2]
  -- the last byte is not a quote
  have hlast := peek_last_plain ws hws pre b hb
  have hk : (if 1 < strlen (pre ++ [b] ++ (spaced ws ++ [NUL]))
      then strlen (pre ++ [b] ++ (spaced ws ++ [NUL])) else 1) - 1
      = pre.length + (nulled ws).length := by
    rw [hlen, length_nulled]
    split <;> omega
  simp only [dtmparse, hloop, Option.map_some', hk]
  have hq : ¬ (peek (pre ++ b :: (nulled ws ++ [NUL])) (pre.length + (nulled ws).length) = DQUOTE ∨
      peek (pre ++ b :: (nulled ws ++ [NUL])) (pre.length + (nulled ws).length) = SQUOTE) := by
    rintro (h | h)
    · exact hlast.2.1 h
    · exact hlast.2.2.1 h
  rw [if_neg hq, hres]
  -- the strings at the offsets
  have hfirst : strAt (pre ++ b :: (nulled ws ++ [NUL])) 0 = String.mk (pre ++ [b]) := by
    obtain ⟨t, ht⟩ := nulled_append_nul ws
    have e : pre ++ b :: (nulled ws ++ [NUL]) = (pre ++ [b]) ++ NUL :: t := by simp [ht]
    rw [strAt, e, List.drop_zero, cstr_append_nul _ _ (fun c hc => (hv.2 c hc).2.2.2.2)]
  have hrest := strAt_word_offsets ws hws (pre ++ [b]) (pre.length + 1) (by simp)
  have e5 : pre ++ [b] ++ (nulled ws ++ [NUL]) = pre ++ b :: (nulled ws ++ [NUL]) := by simp
  rw [e5] at hrest
  simp [argv_of, hfirst, hrest]

theorem intercalate_go_data (ws : List String) :
    ∀ acc : String, (String.intercalate.go acc " " ws).data
      = acc.data ++ spaced (ws.map String.data) := by
  induction ws with
  | nil => intro acc; simp [String.intercalate.go, spaced]
  | cons w ws ih =>
    intro acc
    rw [String.intercalate.go, ih]
    simp [spaced]

/-! ## dtmparse has a result, and stays inside the string -/

theorem peek_poke (s : List Char) (i j : Nat) (c : Char) :
    peek (poke s i c) j = if i = j ∧ i < s.length then c else peek s j := by
  induction s generalizing i j with
  | nil => simp [poke, peek]
  | cons d s ih =>
    cases i with
    | zero =>
      cases j with
      | zero => simp [poke, peek]
      | succ j => simp [poke, peek]
    | succ i =>
      cases j with
      | zero => simp [poke, peek]
      | succ j => simp [poke, peek, ih]

theorem peek_ge (s : List Char) (i : Nat) (h : s.length ≤ i) : peek s i = NUL := by
  induction s generalizing i with
  | nil => rfl
  | cons d s ih =>
    cases i with
    | zero => simp at h
    | succ i => exact ih i (by simpa using h)

theorem shift_some (r : Nat) : ∀ (h : Nat) (s : List Char), r ≤ h →
    ∃ s1, shift r h s = some s1 ∧ s1.length = s.length := by
  intro h
  induction h with
  | zero =>
    intro s hr
    have : r = 0 := by omega
    subst this
    exact ⟨s, by simp [shift], rfl⟩
  | succ h ih =>
    intro s hr
    by_cases e : h + 1 = r
    · exact ⟨s, by simp [shift, e], rfl⟩
    · obtain ⟨s1, h1, h2⟩ := ih (poke s (h + 2) (peek s (h + 1))) (by omega)
      exact ⟨s1, by simp [shift, e, h1], by simp [h2, length_poke]⟩

theorem shift_append (r : Nat) : ∀ (h : Nat) (s t : List Char), h + 1 < s.length →
    shift r h (s ++ t) = (shift r h s).map (fun s1 => s1 ++ t) := by
  intro h
  induction h with
  | zero => intro s t _; by_cases e : 0 = r <;> simp [shift, e]
  | succ h ih =>
    intro s t hlen
    by_cases e : h + 1 = r
    · simp [shift, e]
    · have h1 : peek (s ++ t) (h + 1) = peek s (h + 1) := peek_append_left s t _ (by omega)
      have h2 : poke (s ++ t) (h + 2) (peek s (h + 1)) = poke s (h + 2) (peek s (h + 1)) ++ t :=
        poke_append_left s t _ _ (by omega)
      simp only [shift, e, if_false, h1, h2]
      exact ih _ t (by simp [length_poke]; omega)

theorem dtmparse_step_inv (k : Nat) (p : Parse) (hk : 1 ≤ k) (hinv : parse_inv k p) :
    ∃ p1, dtmparse_step k p = some p1 ∧ parse_inv (k + 1) p1 ∧ p1.str.length = p.str.length := by
  obtain ⟨hd, hc, hb⟩ := hinv
  have hd1 : ∀ o ∈ p.done, o ≤ k + 1 := fun o ho => Nat.le_succ_of_le (hd o ho)
  have keep : parse_inv (k + 1) p := ⟨hd1, by omega, fun h => by omega⟩
  unfold dtmparse_step
  simp only []
  split
  · rename_i hsp
    split
    · split
      · refine ⟨_, rfl, ⟨?_, ?_, ?_⟩, ?_⟩
        · intro o ho
          rcases List.mem_append.1 ho with h | h
          · exact hd1 o h
          · simp at h; omega
        · exact Nat.le_refl _
        · intro _
          simp only [Nat.add_sub_cancel]
          split
          · rw [peek_poke]
            have : ¬ (k - 1 = k ∧ k - 1 < p.str.length) := by omega
            rw [if_neg this, hsp]; decide
          · rw [peek_poke]
            split
            · decide
            · rw [hsp]; decide
        · simp only []
          split <;> simp [length_poke]
      · exact ⟨p, rfl, keep, rfl⟩
    · rename_i hbs
      have hbs1 : peek p.str (k - 1) = BSLASH := by simpa using hbs
      have hlt : p.cur ≤ k - 1 := by
        by_cases e : p.cur = k
        · exact absurd hbs1 (hb e)
        · omega
      obtain ⟨s1, h1, h2⟩ := shift_some p.cur (k - 1) p.str hlt
      refine ⟨{ p with str := s1 }, by simp [h1], ⟨hd1, ?_, ?_⟩, h2⟩
      · show p.cur ≤ k + 1
        omega
      · intro h
        have : p.cur = k + 1 := h
        omega
  · split
    · rename_i hq
      split
      · exact ⟨p, rfl, keep, rfl⟩
      · split
        · exact ⟨_, rfl, ⟨hd1, by show p.cur ≤ k + 1; omega,
            fun h => by have : p.cur = k + 1 := h; omega⟩, rfl⟩
        · split
          · refine ⟨_, rfl, ⟨hd1, Nat.le_refl _, ?_⟩, rfl⟩
            intro _
            simp only [Nat.add_sub_cancel]
            rw [hq]; decide
          · exact ⟨p, rfl, keep, rfl⟩
    · split
      · rename_i hq
        split
        · exact ⟨p, rfl, keep, rfl⟩
        · split
          · exact ⟨_, rfl, ⟨hd1, by show p.cur ≤ k + 1; omega,
              fun h => by have : p.cur = k + 1 := h; omega⟩, rfl⟩
          · split
            · refine ⟨_, rfl, ⟨hd1, Nat.le_refl _, ?_⟩, rfl⟩
              intro _
              simp only [Nat.add_sub_cancel]
              rw [hq]; decide
            · exact ⟨p, rfl, keep, rfl⟩
      · exact ⟨p, rfl, keep, rfl⟩

theorem dtmparse_step_append (k : Nat) (p : Parse) (t : List Char) (hk : 1 ≤ k)
    (hlen : k < p.str.length) :
    dtmparse_step k { p with str := p.str ++ t }
      = (dtmparse_step k p).map (fun p1 => { p1 with str := p1.str ++ t }) := by
  have h1 : peek (p.str ++ t) k = peek p.str k := peek_append_left _ _ _ hlen
  have h2 : peek (p.str ++ t) (k - 1) = peek p.str (k - 1) :=
    peek_append_left _ _ _ (by omega)
  have h3 : poke (p.str ++ t) k NUL = poke p.str k NUL ++ t := poke_append_left _ _ _ _ hlen
  have h4 : poke (p.str ++ t) (k - 1) NUL = poke p.str (k - 1) NUL ++ t :=
    poke_append_left _ _ _ _ (by omega)
  have h5 : shift p.cur (k - 1) (p.str ++ t) = (shift p.cur (k - 1) p.str).map (fun s1 => s1 ++ t) :=
    shift_append _ _ _ _ (by omega)
  simp only [dtmparse_step, h1, h2, h3, h4, h5]
  split_ifs <;> simp [Function.comp_def]

theorem dtmparse_loop_inv : ∀ (n k : Nat) (p : Parse), 1 ≤ k → k + n ≤ p.str.length →
    parse_inv k p →
    ∃ p1, dtmparse_loop n k p = some p1 ∧ parse_inv (k + n) p1 ∧
      p1.str.length = p.str.length ∧
      ∀ t, dtmparse_loop n k { p with str := p.str ++ t }
        = some { p1 with str := p1.str ++ t } := by
  intro n
  induction n with
  | zero => intro k p _ _ hinv; exact ⟨p, rfl, hinv, rfl, fun t => rfl⟩
  | succ n ih =>
    intro k p hk hlen hinv
    obtain ⟨p1, h1, hinv1, hl1⟩ := dtmparse_step_inv k p hk hinv
    obtain ⟨p2, h2, hinv2, hl2, happ⟩ := ih (k + 1) p1 (by omega) (by omega) hinv1
    refine ⟨p2, by simp [dtmparse_loop, h1, h2], ?_, by omega, ?_⟩
    · have : k + (n + 1) = k + 1 + n := by omega
      rw [this]; exact hinv2
    · intro t
      rw [dtmparse_loop, dtmparse_step_append k p t hk (by omega), h1]
      exact happ t

theorem cstr_append_nul_any (y t : List Char) : cstr (y ++ NUL :: t) = cstr (y ++ [NUL]) := by
  induction y with
  | nil => simp [cstr]
  | cons c y ih => simp [cstr, ih]

theorem strAt_append_nul (s t : List Char) (o : Nat) (h : o ≤ s.length) :
    strAt (s ++ NUL :: t) o = strAt (s ++ [NUL]) o := by
  simp only [strAt]
  rw [List.drop_append_of_le_length h, List.drop_append_of_le_length h, cstr_append_nul_any]

/-- For a non-empty string `s` without `NUL`, `dtmparse` has a result; it
changes only the bytes of the string, and neither the result nor the arguments
depend on what lies behind the terminator. -/
theorem dtmparse_local (s : List Char) (hne : s ≠ []) (hs : ∀ c ∈ s, c ≠ NUL) :
    ∃ s1 offs, s1.length = s.length ∧ offs ≠ [] ∧
      ∀ t, dtmparse (s ++ NUL :: t) = some (s1 ++ NUL :: t, offs) ∧
        argv_of (s1 ++ NUL :: t, offs) = argv_of (s1 ++ [NUL], offs) := by
  have hpos : 1 ≤ s.length := by
    cases s with
    | nil => exact absurd rfl hne
    | cons c s => simp
  obtain ⟨p1, _, hinv, hl, happ⟩ := dtmparse_loop_inv (s.length - 1) 1 ⟨s, [], 0, 0⟩
    (Nat.le_refl 1) (by simp; omega) ⟨by simp, by simp, by simp⟩
  have hend : 1 + (s.length - 1) = s.length := by omega
  rw [hend] at hinv
  have hl1 : p1.str.length = s.length := hl
  -- the last step
  have hk : (if 1 < s.length then s.length else 1) - 1 = s.length - 1 := by split <;> omega
  refine ⟨if peek p1.str (s.length - 1) = DQUOTE ∨ peek p1.str (s.length - 1) = SQUOTE
      then poke p1.str (s.length - 1) NUL else p1.str, p1.done ++ [p1.cur], ?_, by simp, ?_⟩
  · split <;> simp [length_poke, hl1]
  · intro t
    have hoffs : ∀ o ∈ p1.done ++ [p1.cur], o ≤ s.length := by
      intro o ho
      rcases List.mem_append.1 ho with h | h
      · exact hinv.1 o h
      · simp at h; rw [h]; exact hinv.2.1
    constructor
    · have hrun := happ (NUL :: t)
      simp only [] at hrun
      simp only [dtmparse, strlen_append_nul s t hs, hrun, Option.map_some', hk]
      have hp : peek (p1.str ++ NUL :: t) (s.length - 1) = peek p1.str (s.length - 1) :=
        peek_append_left _ _ _ (by omega)
      have hq : poke (p1.str ++ NUL :: t) (s.length - 1) NUL
          = poke p1.str (s.length - 1) NUL ++ NUL :: t :=
        poke_append_left _ _ _ _ (by omega)
      rw [hp, hq]
      split <;> rfl
    · simp only [argv_of]
      apply List.map_congr_left
      intro o ho
      apply strAt_append_nul
      have := hoffs o ho
      split <;> simp [length_poke, hl1] <;> omega

/-! ## The scan for the next operator -/

theorem scan_operator_none (s : Scan) (h : ¬ is_boundary s.command s.parse_pos) :
    scan_operator s = none := by
  unfold is_boundary at h
  have h1 : ¬ peek s.command s.parse_pos = ';' := fun e => h (Or.inl e)
  unfold scan_operator
  simp only [h1, if_false]
  by_cases h0 : s.parse_pos = 0
  · simp [h0]
  · have h2 : ¬ (peek s.command (s.parse_pos - 1) = '&' ∧ peek s.command s.parse_pos = '&') :=
      fun e => h (Or.inr ⟨h0, Or.inl e⟩)
    have h3 : ¬ (peek s.command (s.parse_pos - 1) = '|' ∧ peek s.command s.parse_pos = '|') :=
      fun e => h (Or.inr ⟨h0, Or.inr e⟩)
    simp only [h0, h2, h3, if_false]

theorem scan_loop_free (pmax : Nat) : ∀ (n : Nat) (s : Scan),
    (∀ i, s.parse_pos ≤ i → i < s.parse_pos + n → ¬ is_boundary s.command i) →
    scan_loop pmax n s = { s with parse_pos := s.parse_pos + n } := by
  intro n
  induction n with
  | zero => intro s _; rfl
  | succ n ih =>
    intro s h
    have h0 := scan_operator_none s (h s.parse_pos (Nat.le_refl _) (by omega))
    rw [scan_loop, h0]
    simp only []
    rw [ih]
    · simp only []
      congr 1
      omega
    · intro i hi1 hi2
      exact h i (by simp only [] at hi1; omega) (by simp only [] at hi2; omega)

theorem scan_loop_semicolon (pmax : Nat) : ∀ (j n : Nat) (s : Scan),
    (∀ i, s.parse_pos ≤ i → i < s.parse_pos + j → ¬ is_boundary s.command i) →
    peek s.command (s.parse_pos + j) = ';' → j < n → bit_one s.exit_expect_satisfy = false →
    scan_loop pmax n s
      = { s with command := poke s.command (s.parse_pos + j) NUL, exit_expect := -1,
                 parse_pos := s.parse_pos + j } := by
  intro j
  induction j with
  | zero =>
    intro n s _ hsemi hn hbit
    obtain ⟨n, rfl⟩ : ∃ m, n = m + 1 := ⟨n - 1, by omega⟩
    have hsemi0 : peek s.command s.parse_pos = ';' := by simpa using hsemi
    rw [scan_loop]
    simp [scan_operator, hsemi0, hbit]
  | succ j ih =>
    intro n s h hsemi hn hbit
    obtain ⟨n, rfl⟩ : ∃ m, n = m + 1 := ⟨n - 1, by omega⟩
    have h0 := scan_operator_none s (h s.parse_pos (Nat.le_refl _) (by omega))
    rw [scan_loop, h0]
    simp only []
    rw [ih n { s with parse_pos := s.parse_pos + 1 }]
    · simp only []
      have e : s.parse_pos + 1 + j = s.parse_pos + (j + 1) := by omega
      rw [e]
    · intro i hi1 hi2
      exact h i (by simp only [] at hi1; omega) (by simp only [] at hi2; omega)
    · simp only []
      have e : s.parse_pos + 1 + j = s.parse_pos + (j + 1) := by omega
      rw [e]; exact hsemi
    · omega
    · exact hbit

theorem has_operator_cons (c : Char) (s : List Char) (h : has_operator (c :: s) = false) :
    c ≠ ';' ∧ has_operator s = false ∧ ¬ (c = '&' ∧ peek s 0 = '&') ∧
      ¬ (c = '|' ∧ peek s 0 = '|') := by
  cases s with
  | nil =>
    simp only [has_operator, decide_eq_false_iff_not] at h
    refine ⟨h, rfl, ?_, ?_⟩ <;> (rintro ⟨_, h2⟩; revert h2; simp [peek]; decide)
  | cons d m =>
    simp only [has_operator, Bool.or_eq_false_iff, decide_eq_false_iff_not] at h
    exact ⟨h.1.1.1, h.2, by simpa [peek] using h.1.1.2, by simpa [peek] using h.1.2⟩

theorem no_operator_at (s : List Char) (h : has_operator s = false) :
    ∀ i, i < s.length → peek s i ≠ ';' ∧
      (i ≠ 0 → ¬ (peek s (i - 1) = '&' ∧ peek s i = '&') ∧
        ¬ (peek s (i - 1) = '|' ∧ peek s i = '|')) := by
  induction s with
  | nil => intro i hi; simp at hi
  | cons c s ih =>
    intro i hi
    obtain ⟨h1, h2, h3, h4⟩ := has_operator_cons c s h
    cases i with
    | zero => exact ⟨by simpa [peek] using h1, fun e => absurd rfl e⟩
    | succ i =>
      have hi2 : i < s.length := by simpa using hi
      obtain ⟨ih1, ih2⟩ := ih h2 i hi2
      refine ⟨by simpa [peek] using ih1, fun _ => ?_⟩
      cases i with
      | zero => exact ⟨by simpa [peek] using h3, by simpa [peek] using h4⟩
      | succ i => simpa [peek] using ih2 (by omega)

theorem has_operator_cons_iff (c : Char) (s : List Char) :
    has_operator (c :: s) = false ↔
      (c ≠ ';' ∧ has_operator s = false ∧ ¬ (c = '&' ∧ peek s 0 = '&') ∧
        ¬ (c = '|' ∧ peek s 0 = '|')) := by
  constructor
  · exact has_operator_cons c s
  · rintro ⟨h1, h2, h3, h4⟩
    cases s with
    | nil => simp [has_operator, h1]
    | cons d m =>
      simp only [has_operator, Bool.or_eq_false_iff, decide_eq_false_iff_not]
      exact ⟨⟨⟨h1, by simpa [peek] using h3⟩, by simpa [peek] using h4⟩, h2⟩

theorem peek_zero_append_nul (s : List Char) : peek (s ++ [NUL]) 0 = peek s 0 := by
  cases s <;> rfl

theorem has_operator_append_nul (s : List Char) (h : has_operator s = false) :
    has_operator (s ++ [NUL]) = false := by
  induction s with
  | nil => decide
  | cons c s ih =>
    obtain ⟨h1, h2, h3, h4⟩ := has_operator_cons c s h
    rw [List.cons_append, has_operator_cons_iff, peek_zero_append_nul]
    exact ⟨h1, ih h2, h3, h4⟩

theorem has_operator_nul_cons (s : List Char) (h : has_operator s = false) :
    has_operator (NUL :: s) = false := by
  rw [has_operator_cons_iff]
  exact ⟨by decide, h, fun e => absurd e.1 (by decide), fun e => absurd e.1 (by decide)⟩

theorem no_boundary_left (a y : List Char) (h : has_operator a = false) (i : Nat)
    (hi : i < a.length) : ¬ is_boundary (a ++ y) i := by
  obtain ⟨h1, h2⟩ := no_operator_at a h i hi
  unfold is_boundary
  rw [peek_append_left a y i hi]
  rintro (e | ⟨e0, e⟩)
  · exact h1 e
  · rw [peek_append_left a y (i - 1) (by omega)] at e
    rcases e with e | e
    · exact (h2 e0).1 e
    · exact (h2 e0).2 e

theorem no_boundary_right (x t : List Char) (h : has_operator t = false)
    (h0 : peek t 0 ≠ '&' ∧ peek t 0 ≠ '|') (j : Nat) (hj : j < t.length) :
    ¬ is_boundary (x ++ t) (x.length + j) := by
  obtain ⟨h1, h2⟩ := no_operator_at t h j hj
  unfold is_boundary
  rw [peek_append_right]
  rintro (e | ⟨_, e⟩)
  · exact h1 e
  · cases j with
    | zero =>
      rcases e with e | e
      · exact h0.1 e.2
      · exact h0.2 e.2
    | succ j =>
      have e1 : x.length + (j + 1) - 1 = x.length + j := by omega
      rw [e1, peek_append_right] at e
      have := h2 (by omega)
      simp only [Nat.add_sub_cancel] at this
      rcases e with e | e
      · exact this.1 e
      · exact this.2 e

/-! ## Leading spaces -/

theorem skip_spaces_append (s t : List Char) (h : ∃ c ∈ s, c ≠ ' ') :
    skip_spaces (s ++ t) = skip_spaces s := by
  induction s with
  | nil => simp at h
  | cons c s ih =>
    by_cases hc : c = ' '
    · have : ∃ d ∈ s, d ≠ ' ' := by
        obtain ⟨d, hd, hne⟩ := h
        rcases List.mem_cons.1 hd with e | e
        · exact absurd (e ▸ hc) hne
        · exact ⟨d, e, hne⟩
      simp [skip_spaces, hc, ih this]
    · simp [skip_spaces, hc]

theorem skip_spaces_lt (s : List Char) (h : ∃ c ∈ s, c ≠ ' ') : skip_spaces s < s.length := by
  induction s with
  | nil => simp at h
  | cons c s ih =>
    by_cases hc : c = ' '
    · have : ∃ d ∈ s, d ≠ ' ' := by
        obtain ⟨d, hd, hne⟩ := h
        rcases List.mem_cons.1 hd with e | e
        · exact absurd (e ▸ hc) hne
        · exact ⟨d, e, hne⟩
      simp [skip_spaces, hc, ih this]
    · simp [skip_spaces, hc]

theorem peek_mem (s : List Char) (i : Nat) (h : i < s.length) : peek s i ∈ s := by
  induction s generalizing i with
  | nil => simp at h
  | cons c s ih =>
    cases i with
    | zero => simp [peek]
    | succ i => simp [peek, ih i (by simpa using h)]

/-- What the second half of the pure part of a pass does when the token starts
at a sub-command that a `NUL` ends. -/
theorem token_command_sub (sc : Scan) (pre s rest : List Char)
    (hcmd : sc.command = pre ++ (s ++ NUL :: rest)) (htok : sc.command_token = pre.length)
    (hsp : ∃ c ∈ s, c ≠ ' ') (hnul : ∀ c ∈ s, c ≠ NUL) :
    ∃ s2 argv, s2.length = s.length ∧ argv ≠ [] ∧ subcommand_argv s = some argv ∧
      token_command sc
        = some ({ sc with command := pre ++ (s2 ++ NUL :: rest) }, some argv) := by
  have hk := skip_spaces_lt s hsp
  have hdrop : sc.command.drop sc.command_token = s ++ NUL :: rest := by
    rw [hcmd, htok, List.drop_left]
  have htokv : sc.command_token + skip_spaces (sc.command.drop sc.command_token)
      = pre.length + skip_spaces s := by
    rw [hdrop, htok, skip_spaces_append s _ hsp]
  have hpeek : peek sc.command (pre.length + skip_spaces s) = peek s (skip_spaces s) := by
    rw [hcmd, peek_append_right, peek_append_left _ _ _ hk]
  have hne : peek s (skip_spaces s) ≠ NUL := hnul _ (peek_mem s _ hk)
  have hsplit : s = s.take (skip_spaces s) ++ s.drop (skip_spaces s) :=
    (List.take_append_drop _ _).symm
  have hdne : s.drop (skip_spaces s) ≠ [] := by
    intro e
    have := congrArg List.length e
    simp at this; omega
  obtain ⟨s1, offs, hl, hoffs, hloc⟩ := dtmparse_local (s.drop (skip_spaces s)) hdne
    (fun c hc => hnul c (List.mem_of_mem_drop hc))
  have hdrop2 : sc.command.drop (pre.length + skip_spaces s)
      = s.drop (skip_spaces s) ++ NUL :: rest := by
    rw [hcmd, List.drop_append, List.drop_append_of_le_length (Nat.le_of_lt hk)]
  have htake : sc.command.take (pre.length + skip_spaces s) = pre ++ s.take (skip_spaces s) := by
    rw [hcmd, List.take_append, List.take_append_of_le_length (Nat.le_of_lt hk)]
  refine ⟨s.take (skip_spaces s) ++ s1, argv_of (s1 ++ [NUL], offs), ?_, ?_, ?_, ?_⟩
  · rw [List.length_append, hl, ← List.length_append, ← hsplit]
  · simp only [argv_of]
    intro e
    exact hoffs (List.map_eq_nil_iff.1 e)
  · have := (hloc []).1
    simp only [subcommand_argv, this, Option.map_some']
  · simp only [token_command, htokv, hpeek, hne, if_false, hdrop2, (hloc rest).1, htake,
      (hloc rest).2, List.append_assoc]

/-! ## The dispatcher has a result while `PATH` is set -/

theorem getenv_setenv_self (env : List (String × String)) (k v : String) :
    getenv (setenv env k v) k = some v := by
  induction env with
  | nil => simp [setenv, getenv]
  | cons e env ih =>
    obtain ⟨a, b⟩ := e
    by_cases h : a = k
    · simp [setenv, getenv, h]
    · simp [setenv, getenv, h, ih]

theorem getenv_setenv_keep (env : List (String × String)) (k v n : String)
    (h : getenv env n ≠ none) : getenv (setenv env k v) n ≠ none := by
  induction env with
  | nil => simp [getenv] at h
  | cons e env ih =>
    obtain ⟨a, b⟩ := e
    by_cases hk : a = k
    · subst hk
      by_cases hn : a = n
      · simp [setenv, getenv, hn]
      · have h2 : getenv env n ≠ none := by simpa [getenv, hn] using h
        simpa [setenv, getenv, hn] using h2
    · by_cases hn : a = n
      · subst hn
        simp [setenv, getenv, hk]
      · have h2 : getenv env n ≠ none := by simpa [getenv, hn] using h
        simpa [setenv, getenv, hk, hn] using ih h2

theorem parse_builtin_some (os : OS) : ∀ (argv : List String) (w : World), argv ≠ [] →
    getenv w.env "PATH" ≠ none →
    ∃ code w1, parse_builtin os argv w = some (code, w1) ∧ getenv w1.env "PATH" ≠ none := by
  intro argv
  induction argv with
  | nil => intro w h; exact absurd rfl h
  | cons a0 rest ih =>
    intro w _ hp
    rw [parse_builtin]
    by_cases h1 : a0 = "exit" ∨ a0 = "logout"
    · rw [if_pos h1]
      by_cases h : rest.length + 1 = 1
      · rw [if_pos h]; exact ⟨_, _, rfl, hp⟩
      · rw [if_neg h]; exact ⟨_, _, rfl, hp⟩
    rw [if_neg h1]
    by_cases h2 : a0 = "cd" ∨ a0 = "chdir"
    · rw [if_pos h2]
      by_cases h : rest.length + 1 = 1
      · rw [if_pos h]; exact ⟨_, _, rfl, hp⟩
      rw [if_neg h]
      by_cases h' : rest.length + 1 = 2
      · rw [if_pos h']
        cases os.chdir (rest.headD "") w with
        | error msg => exact ⟨_, _, rfl, hp⟩
        | ok d => exact ⟨_, _, rfl, hp⟩
      · rw [if_neg h']; exact ⟨_, _, rfl, hp⟩
    rw [if_neg h2]
    by_cases h3 : a0 = "export" ∨ a0 = "setenv"
    · rw [if_pos h3]
      by_cases h : rest.length + 1 = 2
      · rw [if_pos h]
        by_cases h' : (sscanf_export (rest.headD "").data).1 = 2
        · rw [if_pos h']; exact ⟨_, _, rfl, getenv_setenv_keep _ _ _ _ hp⟩
        · rw [if_neg h']; exact ⟨_, _, rfl, hp⟩
      · rw [if_neg h]; exact ⟨_, _, rfl, hp⟩
    rw [if_neg h3]
    by_cases h4 : a0 = "getenv"
    · rw [if_pos h4]
      by_cases h : rest.length + 1 = 2
      · rw [if_pos h]
        cases getenv w.env (rest.headD "") with
        | none => exact ⟨_, _, rfl, hp⟩
        | some envvar => exact ⟨_, _, rfl, hp⟩
      · rw [if_neg h]; exact ⟨_, _, rfl, hp⟩
    rw [if_neg h4]
    by_cases h5 : a0 = "builtin"
    · rw [if_pos h5]
      by_cases h : rest.length + 1 ≥ 2
      · rw [if_pos h]
        have hr : rest ≠ [] := by
          intro e; rw [e] at h; simp at h
        exact ih w hr hp
      · rw [if_neg h]; exact ⟨_, _, rfl, hp⟩
    rw [if_neg h5]
    by_cases h6 : a0 = "command"
    · rw [if_pos h6]
      by_cases h : rest.length + 1 = 1
      · rw [if_pos h]; exact ⟨_, _, rfl, hp⟩
      rw [if_neg h]
      rcases os.getopt (a0 :: rest) w with ⟨g, argv1, oi⟩
      cases g with
      | p =>
        cases hpth : getenv w.env "PATH" with
        | none => exact absurd hpth hp
        | some pathold =>
          refine ⟨_, _, rfl, ?_⟩
          simp only [spawnwait]
          rw [getenv_setenv_self]
          exact Option.some_ne_none _
      | finished => exact ⟨_, _, rfl, hp⟩
      | v => exact ⟨_, _, rfl, hp⟩
      | V => exact ⟨_, _, rfl, hp⟩
      | unknown => exact ⟨_, _, rfl, hp⟩
    rw [if_neg h6]
    by_cases h7 : a0 = "echo"
    · rw [if_pos h7]; exact ⟨_, _, rfl, hp⟩
    rw [if_neg h7]
    by_cases h8 : a0 = ":"
    · rw [if_pos h8]; exact ⟨_, _, rfl, hp⟩
    · rw [if_neg h8]; exact ⟨_, _, rfl, hp⟩

theorem run_action_env (os : OS) (argv : List String) (code : Int) (run : Bool) (w : World) :
    (run_action os argv code run w).2.2.env = w.env := by
  unfold run_action
  split_ifs <;> rfl

theorem satisfy_of_sequence (x : Int) : satisfy_of (-1) x = 0 := by
  simp [satisfy_of]

theorem store_files_under : ∀ (es acc : List String), (acc ++ es).length < 128 →
    store_files es acc 128 = some (acc ++ es, 128) := by
  intro es
  induction es with
  | nil => intro acc _; simp [store_files]
  | cons e es ih =>
    intro acc h
    have h1 : acc.length < 128 := by
      simp only [List.length_append, List.length_cons] at h; omega
    have h2 : ¬ (acc ++ [e]).length > 128 := by
      simp only [List.length_append, List.length_cons, List.length_nil] at h ⊢; omega
    rw [store_files, if_pos h1, if_neg h2, ih (acc ++ [e]) (by simpa using h)]
    simp

theorem buildhints_some (os : OS) (w : World) (names : List String)
    (h : os.readdir w = some names) (hl : names.length < 128) :
    buildhints os w = some { w with files := names } := by
  have hs := store_files_under names [] (by simpa using hl)
  rw [List.nil_append] at hs
  simp only [buildhints, h, hs]
  rw [if_pos hl]

theorem buildhints_listable (os : OS) (hd : listable os) (w : World) :
    ∃ names, buildhints os w = some { w with files := names } := by
  obtain ⟨names, h, hl⟩ := hd w
  exact ⟨names, buildhints_some os w names h hl⟩

theorem run_command_listable (os : OS) (hd : listable os) (argv : List String) (ee : Int)
    (run : Bool) (w : World) (code : Int) (w1 : World)
    (hpb : parse_builtin os argv w = some (code, w1)) :
    ∃ names, run_command os argv ee run w
      = some (satisfy_of ee (run_action os argv code run w1).1,
          (run_action os argv code run w1).2.1,
          { (run_action os argv code run w1).2.2 with files := names }) := by
  obtain ⟨names, hb⟩ := buildhints_listable os hd (run_action os argv code run w1).2.2
  exact ⟨names, by simp only [run_command, hpb, hb, Option.map_some']⟩

theorem run_command_some (os : OS) (argv : List String) (ee : Int) (run : Bool) (w : World)
    (hd : listable os) (hne : argv ≠ []) (hp : getenv w.env "PATH" ≠ none) :
    ∃ sat run1 w1, run_command os argv ee run w = some (sat, run1, w1) ∧
      getenv w1.env "PATH" ≠ none ∧ (ee = -1 → sat = 0) := by
  obtain ⟨code, w1, h1, hp1⟩ := parse_builtin_some os argv w hne hp
  obtain ⟨names, hb⟩ := buildhints_listable os hd (run_action os argv code run w1).2.2
  refine ⟨satisfy_of ee (run_action os argv code run w1).1,
    (run_action os argv code run w1).2.1,
    { (run_action os argv code run w1).2.2 with files := names },
    by simp only [run_command, h1, hb, Option.map_some'], ?_, ?_⟩
  · show getenv (run_action os argv code run w1).2.2.env "PATH" ≠ none
    rw [run_action_env]
    exact hp1
  · intro e
    rw [e]; exact satisfy_of_sequence _

/-! ## A line of two sub-commands with `;` between them -/

theorem scan_to_semicolon (a y : List Char) (pmax : Nat) (ee : Int)
    (ha : has_operator a = false) (hlt : a.length < pmax) :
    scan_loop pmax pmax ⟨a ++ ';' :: y, 0, ee, 0, 0⟩ = ⟨a ++ NUL :: y, a.length, -1, 0, 0⟩ := by
  have h := scan_loop_semicolon pmax a.length pmax ⟨a ++ ';' :: y, 0, ee, 0, 0⟩
    (fun i _ hi => no_boundary_left a _ ha i (by simpa using hi))
    (by simp only [Nat.zero_add]; rw [peek_append_length]; rfl) hlt rfl
  rw [h]
  simp only [Nat.zero_add, poke_append_length]

theorem scan_to_end (x b : List Char) (pmax : Nat) (ee : Int) (sat tok : Nat)
    (hb : has_operator b = false) :
    scan_loop pmax (b.length + 2) ⟨x ++ NUL :: (b ++ [NUL]), x.length, ee, sat, tok⟩
      = ⟨x ++ NUL :: (b ++ [NUL]), x.length + (b.length + 2), ee, sat, tok⟩ := by
  apply scan_loop_free
  intro i hi1 hi2
  simp only [] at hi1 hi2
  obtain ⟨j, rfl⟩ : ∃ j, i = x.length + j := ⟨i - x.length, by omega⟩
  exact no_boundary_right x (NUL :: (b ++ [NUL]))
    (has_operator_nul_cons _ (has_operator_append_nul b hb))
    ⟨(by decide : NUL ≠ '&'), (by decide : NUL ≠ '|')⟩ j (by simp; omega)

theorem token_command_end (z : List Char) (pp : Nat) (ee : Int) (sat : Nat) :
    token_command ⟨z ++ [NUL], pp, ee, sat, z.length⟩
      = some (⟨z ++ [NUL], pp, ee, sat, z.length⟩, none) := by
  simp [token_command, List.drop_left, skip_spaces, peek_append_length, peek,
    show ¬ (NUL = ' ') by decide]

/-! ## One pass of the loop at a time -/

theorem parse_loop_run (os : OS) (pmax fuel : Nat) (cmd : List Char) (pp : Nat) (ee : Int)
    (sat : Nat) (run : Bool) (w : World) (lg : List (List String))
    (sc : Scan) (argv : List String) (sat1 : Nat) (run1 : Bool) (w1 : World)
    (h1 : next_command pmax cmd pp ee sat = some (sc, some argv))
    (h2 : run_command os argv sc.exit_expect run w = some (sat1, run1, w1)) :
    parse_loop os pmax (fuel + 1)
        { command := cmd, parse_next := true, parse_pos := pp, exit_expect := ee,
          exit_expect_satisfy := sat, running := run, world := w, log := lg }
      = parse_loop os pmax fuel
        { command := sc.command, parse_next := decide (pp ≠ pmax), parse_pos := sc.parse_pos,
          exit_expect := sc.exit_expect, exit_expect_satisfy := sat1, running := run1,
          world := w1, log := lg ++ [argv] } := by
  simp only [parse_loop, h1, h2]
  simp

theorem parse_loop_break (os : OS) (pmax fuel : Nat) (cmd : List Char) (pp : Nat) (ee : Int)
    (sat : Nat) (run : Bool) (w : World) (lg : List (List String)) (sc : Scan)
    (h1 : next_command pmax cmd pp ee sat = some (sc, none)) :
    parse_loop os pmax (fuel + 1)
        { command := cmd, parse_next := true, parse_pos := pp, exit_expect := ee,
          exit_expect_satisfy := sat, running := run, world := w, log := lg }
      = some
        { command := sc.command, parse_next := decide (pp ≠ pmax), parse_pos := sc.parse_pos,
          exit_expect := sc.exit_expect, exit_expect_satisfy := sc.exit_expect_satisfy,
          running := run, world := w, log := lg } := by
  simp only [parse_loop, h1]
  simp

theorem satisfy_of_and_fail (x : Int) (h : x ≠ 0) : satisfy_of 0 x = 2 := by
  simp [satisfy_of, h]

/-! ## The chain evaluator -/

/-- C1 (the code does otherwise): `false && echo hi`, with `false` exiting
non-zero, passes `echo hi` to `parse_builtin` all the same, and `hi` and a
newline are written: no operator follows `echo hi`, so the scan never reaches
the test of `exit_expect_satisfy`.  (`buildhints(".")` runs after each command;
the directory is taken to be listable.) -/
theorem andthen_last_command_runs (os : OS) (w : World) (hd : listable os)
    (h : (spawnwait os ["false", ""] w).1 ≠ 0) :
    ∃ st, shell_mainloop_line os "false && echo hi" w = some st ∧
      st.log = [["false", ""], ["echo", "hi"]] ∧ st.world.out = w.out ++ "hi\n" := by
  have h1 : next_command 17 ("false && echo hi".data ++ [NUL]) 0 (-1) 0
      = some (⟨"false\x00\x00& echo hi\x00".data, 7, 0, 0, 0⟩, some ["false", ""]) := by decide
  have h2 : next_command 17 "false\x00\x00& echo hi\x00".data 7 0 2
      = some (⟨"false\x00\x00& echo\x00hi\x00".data, 17, 0, 2, 8⟩, some ["echo", "hi"]) := by
    decide
  have h3 : next_command 17 "false\x00\x00& echo\x00hi\x00".data 17 0 0
      = some (⟨"false\x00\x00& echo\x00hi\x00".data, 17, 0, 0, 16⟩, none) := by decide
  obtain ⟨n1, hr1⟩ := run_command_listable os hd ["false", ""] 0 true w 0x1337 w rfl
  have hsat : satisfy_of 0 (run_action os ["false", ""] 0x1337 true w).1 = 2 :=
    satisfy_of_and_fail _ h
  rw [hsat] at hr1
  obtain ⟨n2, hr2⟩ := run_command_listable os hd ["echo", "hi"] 0 true
    { (run_action os ["false", ""] 0x1337 true w).2.2 with files := n1 } _ _ rfl
  refine ⟨?st, ?run, ?log, ?out⟩
  case run =>
    refine (parse_loop_run os 17 18 _ 0 (-1) 0 true w [] _ _ 2 true _ h1 hr1).trans ?_
    refine (parse_loop_run os 17 17 _ 7 0 2 true _ _ _ _ 0 true _ h2 hr2).trans ?_
    exact parse_loop_break os 17 16 _ 17 0 0 true _ _ _ h3
  case log => rfl
  case out => rfl

theorem listable_example_os : listable example_os :=
  fun _ => ⟨[], rfl, by decide⟩

/-- The run of C1 in the example world, where `false` exits with 1. -/
theorem andthen_last_command_runs_witness :
    listable example_os ∧
    (spawnwait example_os ["false", ""] example_world).1 ≠ 0 ∧
    ∃ st, shell_mainloop_line example_os "false && echo hi" example_world = some st ∧
      st.log = [["false", ""], ["echo", "hi"]] ∧ st.world.out = example_world.out ++ "hi\n" :=
  ⟨listable_example_os, by decide,
    andthen_last_command_runs example_os example_world listable_example_os (by decide)⟩

/-- C2 (the code does otherwise): `true || echo hi`, with `true` exiting 0,
passes `echo hi` to `parse_builtin` all the same, and `hi` and a newline are
written.  (`buildhints(".")` runs after each command; the directory is taken
to be listable.) -/
theorem orelse_last_command_runs (os : OS) (w : World) (hd : listable os)
    (h : (spawnwait os ["true", ""] w).1 = 0) :
    ∃ st, shell_mainloop_line os "true || echo hi" w = some st ∧
      st.log = [["true", ""], ["echo", "hi"]] ∧ st.world.out = w.out ++ "hi\n" := by
  have h1 : next_command 16 ("true || echo hi".data ++ [NUL]) 0 (-1) 0
      = some (⟨"true\x00\x00| echo hi\x00".data, 6, 1, 0, 0⟩, some ["true", ""]) := by decide
  have h2 : next_command 16 "true\x00\x00| echo hi\x00".data 6 1 3
      = some (⟨"true\x00\x00| echo\x00hi\x00".data, 16, 1, 3, 7⟩, some ["echo", "hi"]) := by
    decide
  have h3 : next_command 16 "true\x00\x00| echo\x00hi\x00".data 16 1 3
      = some (⟨"true\x00\x00| echo\x00hi\x00".data, 16, 1, 3, 15⟩, none) := by decide
  obtain ⟨n1, hr1⟩ := run_command_listable os hd ["true", ""] 1 true w 0x1337 w rfl
  have hsat : satisfy_of 1 (run_action os ["true", ""] 0x1337 true w).1 = 3 := by
    have e : (run_action os ["true", ""] 0x1337 true w).1 = 0 := h
    rw [e]; rfl
  rw [hsat] at hr1
  obtain ⟨n2, hr2⟩ := run_command_listable os hd ["echo", "hi"] 1 true
    { (run_action os ["true", ""] 0x1337 true w).2.2 with files := n1 } _ _ rfl
  refine ⟨?st, ?run, ?log, ?out⟩
  case run =>
    refine (parse_loop_run os 16 17 _ 0 (-1) 0 true w [] _ _ 3 true _ h1 hr1).trans ?_
    refine (parse_loop_run os 16 16 _ 6 1 3 true _ _ _ _ 3 true _ h2 hr2).trans ?_
    exact parse_loop_break os 16 15 _ 16 1 3 true _ _ _ h3
  case log => rfl
  case out => rfl

/-- The run of C2 in the example world, where `true` exits with 0. -/
theorem orelse_last_command_runs_witness :
    listable example_os ∧
    (spawnwait example_os ["true", ""] example_world).1 = 0 ∧
    ∃ st, shell_mainloop_line example_os "true || echo hi" example_world = some st ∧
      st.log = [["true", ""], ["echo", "hi"]] ∧ st.world.out = example_world.out ++ "hi\n" :=
  ⟨listable_example_os, by decide,
    orelse_last_command_runs example_os example_world listable_example_os (by decide)⟩

/-- C3: for every line `a;b` in which `a` and `b` are sub-commands (each has a
byte other than a space, no `NUL`, and none of `;`, `&&`, `||`; the spaces
around `;` in `A ; B` belong to `a` and `b`), every world in which `PATH` is
set and every operating system in which the directory `.` stays listable (so
that `buildhints(".")` returns after each command), `shell_mainloop` passes
exactly two argument vectors to `parse_builtin`: the one `dtmparse` yields for
`a`, then the one it yields for `b`.  The second is run in the world the first
leaves, with `exit_expect` reset, whatever the first returns. -/
theorem sequence_runs_both (os : OS) (w : World) (a b : String)
    (ha : sub_command a.data) (hb : sub_command b.data)
    (hp : getenv w.env "PATH" ≠ none) (hd : listable os) :
    ∃ argvA argvB s1 r1 w1 s2 r2 w2 st,
      subcommand_argv a.data = some argvA ∧ subcommand_argv b.data = some argvB ∧
      run_command os argvA (-1) true w = some (s1, r1, w1) ∧
      run_command os argvB (-1) r1 w1 = some (s2, r2, w2) ∧
      shell_mainloop_line os (a ++ ";" ++ b) w = some st ∧
      st.log = [argvA, argvB] ∧ st.world = w2 ∧ st.running = r2 := by
  obtain ⟨hasp, hanul, haop⟩ := ha
  obtain ⟨hbsp, hbnul, hbop⟩ := hb
  have hapos : 0 < a.data.length := by
    obtain ⟨c, hc, _⟩ := hasp
    exact List.length_pos_of_mem hc
  -- the buffer and its length
  have hline : (a ++ ";" ++ b).data ++ [NUL] = a.data ++ ';' :: (b.data ++ [NUL]) := by
    simp [String.data_append]
  have hlen : strlen (a.data ++ ';' :: (b.data ++ [NUL])) = a.data.length + 1 + b.data.length := by
    have hnn : ∀ c ∈ a.data ++ ';' :: b.data, c ≠ NUL := by
      intro c hc
      rcases List.mem_append.1 hc with h | h
      · exact hanul c h
      · rcases List.mem_cons.1 h with h | h
        · rw [h]; decide
        · exact hbnul c h
    have := strlen_append_nul (a.data ++ ';' :: b.data) [] hnn
    simp only [List.append_assoc, List.cons_append, List.length_append, List.length_cons] at this
    rw [this]; omega
  -- first pass: up to the semicolon
  obtain ⟨a2, argvA, hla, hneA, hargvA, htokA⟩ := token_command_sub
    ⟨a.data ++ NUL :: (b.data ++ [NUL]), a.data.length, -1, 0, 0⟩ [] a.data (b.data ++ [NUL])
    rfl rfl hasp hanul
  have h1 : next_command (a.data.length + 1 + b.data.length + 1)
      (a.data ++ ';' :: (b.data ++ [NUL])) 0 (-1) 0
      = some (⟨a2 ++ NUL :: (b.data ++ [NUL]), a.data.length, -1, 0, 0⟩, some argvA) := by
    have hts : token_start 0 (a.data.length + 1 + b.data.length + 1) = 0 := by
      simp [token_start]
    rw [next_command, hts, Nat.sub_zero, scan_to_semicolon _ _ _ _ haop (by omega), htokA]
    rfl
  obtain ⟨s1, r1, w1, hrun1, hp1, hs1⟩ := run_command_some os argvA (-1) true w hd hneA hp
  have hs1' : s1 = 0 := hs1 rfl
  subst hs1'
  -- second pass: up to the end of the line
  obtain ⟨b2, argvB, hlb, hneB, hargvB, htokB⟩ := token_command_sub
    ⟨a2 ++ NUL :: (b.data ++ [NUL]), a2.length + (b.data.length + 2), -1, 0, a2.length + 1⟩
    (a2 ++ [NUL]) b.data [] (by simp) (by simp) hbsp hbnul
  have h2 : next_command (a.data.length + 1 + b.data.length + 1)
      (a2 ++ NUL :: (b.data ++ [NUL])) a.data.length (-1) 0
      = some (⟨a2 ++ NUL :: (b2 ++ [NUL]), a.data.length + 1 + b.data.length + 1, -1, 0,
          a.data.length + 1⟩, some argvB) := by
    have hts : token_start a.data.length (a.data.length + 1 + b.data.length + 1)
        = a2.length + 1 := by
      have e1 : a.data.length ≠ 0 := by omega
      have e2 : ¬ a.data.length = a.data.length + 1 + b.data.length + 1 := by omega
      unfold token_start
      rw [if_pos e1, if_neg e2, hla]
      omega
    have hn : a.data.length + 1 + b.data.length + 1 - a.data.length = b.data.length + 2 := by
      omega
    rw [next_command, hts, hn, ← hla, scan_to_end _ _ _ _ _ _ hbop, htokB]
    simp only [List.append_assoc, List.singleton_append, Option.some.injEq, Prod.mk.injEq,
      and_true, Scan.mk.injEq, true_and]
    omega
  obtain ⟨s2, r2, w2, hrun2, _, hs2⟩ := run_command_some os argvB (-1) r1 w1 hd hneB hp1
  have hs2' : s2 = 0 := hs2 rfl
  subst hs2'
  -- third pass: nothing is left
  have h3 : next_command (a.data.length + 1 + b.data.length + 1)
      (a2 ++ NUL :: (b2 ++ [NUL])) (a.data.length + 1 + b.data.length + 1) (-1) 0
      = some (⟨a2 ++ NUL :: (b2 ++ [NUL]), a.data.length + 1 + b.data.length + 1, -1, 0,
          a.data.length + 1 + b.data.length⟩, none) := by
    have hts : token_start (a.data.length + 1 + b.data.length + 1)
        (a.data.length + 1 + b.data.length + 1) = (a2 ++ NUL :: b2).length := by
      have e1 : a.data.length + 1 + b.data.length + 1 ≠ 0 := by omega
      unfold token_start
      rw [if_pos e1, if_pos rfl, List.length_append, List.length_cons, hla, hlb]
      omega
    have hz : a2 ++ NUL :: (b2 ++ [NUL]) = (a2 ++ NUL :: b2) ++ [NUL] := by simp
    rw [next_command, hts, Nat.sub_self, scan_loop, hz, token_command_end]
    simp [hla, hlb]; omega
  have d1 : decide (0 ≠ a.data.length + 1 + b.data.length + 1) = true := by simp
  have d2 : decide (a.data.length ≠ a.data.length + 1 + b.data.length + 1) = true := by
    simp; omega
  refine ⟨argvA, argvB, 0, r1, w1, 0, r2, w2, ?st, hargvA, hargvB, hrun1, hrun2, ?run, ?l, ?wd,
    ?rn⟩
  case run =>
    rw [shell_mainloop_line, hline, hlen,
      parse_loop_run os _ (a.data.length + 1 + b.data.length + 2) _ 0 (-1) 0 true w [] _ _ 0 r1
        w1 h1 hrun1, d1,
      parse_loop_run os _ (a.data.length + 1 + b.data.length + 1) _ _ (-1) 0 r1 w1 _ _ _ 0 r2
        w2 h2 hrun2, d2,
      parse_loop_break os _ (a.data.length + 1 + b.data.length) _ _ (-1) 0 r2 w2 _ _ h3]
    exact rfl
  case l => rfl
  case wd => rfl
  case rn => rfl

/-- C3 at `false ; echo hi` in the example world, where `false` exits with 1:
`echo hi` runs after `false`, and `hi` and a newline are written. -/
theorem sequence_runs_both_witness :
    sub_command "false ".data ∧ sub_command " echo hi".data ∧
    getenv example_world.env "PATH" ≠ none ∧ listable example_os ∧
    "false " ++ ";" ++ " echo hi" = "false ; echo hi" ∧
    subcommand_argv "false ".data = some ["false", ""] ∧
    subcommand_argv " echo hi".data = some ["echo", "hi"] ∧
    (spawnwait example_os ["false", ""] example_world).1 = 1 ∧
    (shell_mainloop_line example_os "false ; echo hi" example_world).map
      (fun st => (st.log, st.world.out)) = some ([["false", ""], ["echo", "hi"]], "hi\n") ∧
    ∃ argvA argvB s1 r1 w1 s2 r2 w2 st,
      subcommand_argv "false ".data = some argvA ∧ subcommand_argv " echo hi".data = some argvB ∧
      run_command example_os argvA (-1) true example_world = some (s1, r1, w1) ∧
      run_command example_os argvB (-1) r1 w1 = some (s2, r2, w2) ∧
      shell_mainloop_line example_os ("false " ++ ";" ++ " echo hi") example_world = some st ∧
      st.log = [argvA, argvB] ∧ st.world = w2 ∧ st.running = r2 :=
  ⟨by decide, by decide, by decide, listable_example_os, by decide, by decide, by decide,
    by decide, by decide,
    sequence_runs_both example_os example_world "false " " echo hi" (by decide) (by decide)
      (by decide) listable_example_os⟩

/-- The line `true && echo a && echo b`, with `true` exiting 0 and the
directory listable, passes exactly three argument vectors to `parse_builtin`,
in the order of the line: `true`, `echo a` and `echo b` (the first two with the
empty argument that the space before `&&` leaves), and what is written is `a`,
a space, a newline, `b`, a newline. -/
theorem andthen_chain_example (os : OS) (w : World) (hd : listable os)
    (h : (spawnwait os ["true", ""] w).1 = 0) :
    ∃ st, shell_mainloop_line os "true && echo a && echo b" w = some st ∧
      st.log = [["true", ""], ["echo", "a", ""], ["echo", "b"]] ∧
      st.world.out = w.out ++ "a \nb\n" := by
  have h1 : next_command 25 ("true && echo a && echo b".data ++ [NUL]) 0 (-1) 0
      = some (⟨"true\x00\x00& echo a && echo b\x00".data, 6, 0, 0, 0⟩, some ["true", ""]) := by
    decide
  have h2 : next_command 25 "true\x00\x00& echo a && echo b\x00".data 6 0 0
      = some (⟨"true\x00\x00& echo\x00a\x00\x00& echo b\x00".data, 16, 0, 0, 7⟩,
          some ["echo", "a", ""]) := by
    decide
  have h3 : next_command 25 "true\x00\x00& echo\x00a\x00\x00& echo b\x00".data 16 0 0
      = some (⟨"true\x00\x00& echo\x00a\x00\x00& echo\x00b\x00".data, 25, 0, 0, 17⟩,
          some ["echo", "b"]) := by
    decide
  have h4 : next_command 25 "true\x00\x00& echo\x00a\x00\x00& echo\x00b\x00".data 25 0 0
      = some (⟨"true\x00\x00& echo\x00a\x00\x00& echo\x00b\x00".data, 25, 0, 0, 24⟩, none) := by
    decide
  obtain ⟨n1, hr1⟩ := run_command_listable os hd ["true", ""] 0 true w 0x1337 w rfl
  have hsat : satisfy_of 0 (run_action os ["true", ""] 0x1337 true w).1 = 0 := by
    have e : (run_action os ["true", ""] 0x1337 true w).1 = 0 := h
    rw [e]; rfl
  rw [hsat] at hr1
  obtain ⟨n2, hr2⟩ := run_command_listable os hd ["echo", "a", ""] 0 true
    { (run_action os ["true", ""] 0x1337 true w).2.2 with files := n1 } _ _ rfl
  obtain ⟨n3, hr3⟩ := run_command_listable os hd ["echo", "b"] 0 true
    { (run_action os ["echo", "a", ""] 0 true
        { ({ (run_action os ["true", ""] 0x1337 true w).2.2 with files := n1 } : World) with
          out := (run_action os ["true", ""] 0x1337 true w).2.2.out ++ "a \n" }).2.2
      with files := n2 } _ _ rfl
  refine ⟨?st, ?run, ?log, ?out⟩
  case run =>
    refine (parse_loop_run os 25 26 _ 0 (-1) 0 true w [] _ _ 0 true _ h1 hr1).trans ?_
    refine (parse_loop_run os 25 25 _ 6 0 0 true _ _ _ _ 0 true _ h2 hr2).trans ?_
    refine (parse_loop_run os 25 24 _ 16 0 0 true _ _ _ _ 0 true _ h3 hr3).trans ?_
    exact parse_loop_break os 25 23 _ 25 0 0 true _ _ _ h4
  case log => rfl
  case out =>
    show w.out ++ "a \n" ++ "b\n" = w.out ++ "a \nb\n"
    simp [String.append_assoc]

/-! ## The tokenizer -/

/-- C5: for every non-empty list of non-empty words without space, quote,
backslash or `NUL`, `dtmparse` applied to the words joined by single spaces
returns exactly these words, in order, and the length it reports is their
number. -/
theorem tokenize_plain_words (ws : List String) (hne : ws ≠ [])
    (hws : ∀ w ∈ ws, plain_word w.data) :
    tokenize (String.intercalate " " ws) = some ws ∧
    (dtmparse ((String.intercalate " " ws).data ++ [NUL])).map (fun r => r.2.length)
      = some ws.length := by
  cases ws with
  | nil => exact absurd rfl hne
  | cons v vs =>
    have hdata : (String.intercalate " " (v :: vs)).data ++ [NUL]
        = v.data ++ (spaced (vs.map String.data) ++ [NUL]) := by
      simp [String.intercalate, intercalate_go_data]
    have hvs : ∀ w ∈ vs.map String.data, plain_word w := by
      intro w hw
      obtain ⟨s, hs, rfl⟩ := List.mem_map.1 hw
      exact hws s (by simp [hs])
    have hmain := dtmparse_plain_words v.data (vs.map String.data) (hws v (by simp)) hvs
    have hback : (v.data :: vs.map String.data).map String.mk = v :: vs := by
      simp [Function.comp_def]
    rw [hback] at hmain
    have htok : tokenize (String.intercalate " " (v :: vs)) = some (v :: vs) := by
      rw [tokenize, hdata]; exact hmain
    refine ⟨htok, ?_⟩
    rw [tokenize] at htok
    cases hr : dtmparse ((String.intercalate " " (v :: vs)).data ++ [NUL]) with
    | none => rw [hr] at htok; simp at htok
    | some r =>
      rw [hr] at htok
      simp only [Option.map_some', Option.some.injEq] at htok ⊢
      rw [← htok]
      simp [argv_of]

/-- C5 at the words `a` and `b`: the bytes `a b` give the two arguments `a` and `b`. -/
theorem tokenize_plain_words_witness :
    ["a", "b"] ≠ [] ∧ (∀ w ∈ ["a", "b"], plain_word w.data) ∧
    String.intercalate " " ["a", "b"] = "a b" ∧
    tokenize (String.intercalate " " ["a", "b"]) = some ["a", "b"] ∧
    (dtmparse ((String.intercalate " " ["a", "b"]).data ++ [NUL])).map (fun r => r.2.length)
      = some ["a", "b"].length :=
  ⟨by decide, by decide, by decide,
    tokenize_plain_words ["a", "b"] (by decide) (by decide)⟩

/-- C6 (the code does otherwise): for the seven bytes `"a b" c` (quote, a,
space, b, quote, space, c) `dtmparse` returns the two arguments `"a` and ` c`:
its loop starts at index 1, so the quote at index 0 never opens a quoted region,
and the first space splits. -/
theorem leading_quote_not_opened :
    tokenize (String.mk [DQUOTE, 'a', ' ', 'b', DQUOTE, ' ', 'c'])
      = some [String.mk [DQUOTE, 'a'], " c"] ∧
    tokenize (String.mk [DQUOTE, 'a', ' ', 'b', DQUOTE, ' ', 'c']) ≠ some ["a b", "c"] := by
  decide

/-- C7 (the code does otherwise): for the four bytes a, backslash, space, b
`dtmparse` returns one argument, and it is the four bytes a, backslash,
backslash, b: the shifting loop copies the backslash over the space. -/
theorem escaped_space_overwritten :
    tokenize (String.mk ['a', BSLASH, ' ', 'b'])
      = some [String.mk ['a', BSLASH, BSLASH, 'b']] ∧
    tokenize (String.mk ['a', BSLASH, ' ', 'b']) ≠ some ["a b"] := by
  decide

/-- C8 as stated fails: for the empty string the length `dtmparse` reports is not 0. -/
theorem dtmparse_empty_length_not_zero :
    ¬ ((dtmparse [NUL]).map (fun r => r.2.length) = some 0) := by
  decide

/-- C8, amended: for the empty string `dtmparse` reports length 1, the one
argument being the empty string; and `shell_mainloop`, given the empty line,
leaves its loop before it calls `dtmparse`, so nothing is passed to
`parse_builtin`. -/
theorem dtmparse_empty_one_argument (os : OS) (w : World) :
    (dtmparse [NUL]).map (fun r => r.2.length) = some 1 ∧ tokenize "" = some [""] ∧
    next_command 1 [NUL] 0 (-1) 0 = some (⟨[NUL], 1, -1, 0, 0⟩, none) ∧
    (shell_mainloop_line os "" w).map (fun st => st.log) = some [] := by
  refine ⟨by decide, by decide, by decide, ?_⟩
  have h1 : next_command 1 [NUL] 0 (-1) 0 = some (⟨[NUL], 1, -1, 0, 0⟩, none) := by decide
  have h2 := parse_loop_break os 1 2 [NUL] 0 (-1) 0 true w [] _ h1
  exact congrArg (Option.map (fun st => st.log)) h2

/-! ## End to end -/

/-- C9 (the code does otherwise): for `cd /tmp ; echo ok` the first argument
vector is `cd`, `/tmp` and an empty string, which the space before `;` leaves.
With three arguments `parse_builtin` does not call `chdir`: `curdir` and the
working directory stay as they were and the message about the number of
arguments is written.  Then `echo ok` runs and writes `ok` and a newline.
(`buildhints(".")` runs after each command; the directory is taken to be
listable.) -/
theorem cd_before_semicolon_fails (os : OS) (w : World) (hd : listable os) :
    ∃ st, shell_mainloop_line os "cd /tmp ; echo ok" w = some st ∧
      st.log = [["cd", "/tmp", ""], ["echo", "ok"]] ∧
      parse_builtin os ["cd", "/tmp", ""] w = some (0xAA, w) ∧
      st.world.curdir = w.curdir ∧ st.world.cwd = w.cwd ∧
      st.world.err = w.err ++ "cd: wrong number of arguments!\n" ∧
      st.world.out = w.out ++ "ok\n" := by
  have h1 : next_command 18 ("cd /tmp ; echo ok".data ++ [NUL]) 0 (-1) 0
      = some (⟨"cd\x00/tmp\x00\x00 echo ok\x00".data, 8, -1, 0, 0⟩, some ["cd", "/tmp", ""]) := by
    decide
  have h2 : next_command 18 "cd\x00/tmp\x00\x00 echo ok\x00".data 8 (-1) 0
      = some (⟨"cd\x00/tmp\x00\x00 echo\x00ok\x00".data, 18, -1, 0, 9⟩, some ["echo", "ok"]) := by
    decide
  have h3 : next_command 18 "cd\x00/tmp\x00\x00 echo\x00ok\x00".data 18 (-1) 0
      = some (⟨"cd\x00/tmp\x00\x00 echo\x00ok\x00".data, 18, -1, 0, 17⟩, none) := by decide
  obtain ⟨n1, hr1⟩ := run_command_listable os hd ["cd", "/tmp", ""] (-1) true w 0xAA w rfl
  rw [satisfy_of_sequence] at hr1
  obtain ⟨n2, hr2⟩ := run_command_listable os hd ["echo", "ok"] (-1) true
    { (run_action os ["cd", "/tmp", ""] 0xAA true w).2.2 with files := n1 } _ _ rfl
  rw [satisfy_of_sequence] at hr2
  refine ⟨?st, ?run, ?log, ?rest⟩
  case run =>
    refine (parse_loop_run os 18 19 _ 0 (-1) 0 true w [] _ _ 0 true _ h1 hr1).trans ?_
    refine (parse_loop_run os 18 18 _ 8 (-1) 0 true _ _ _ _ 0 true _ h2 hr2).trans ?_
    exact parse_loop_break os 18 17 _ 18 (-1) 0 true _ _ _ h3
  case log => rfl
  case rest =>
    refine ⟨rfl, rfl, rfl, ?_, rfl⟩
    show w.err ++ ["cd", "/tmp", ""].headD "" ++ ": wrong number of arguments!\n"
      = w.err ++ "cd: wrong number of arguments!\n"
    simp [String.append_assoc]

/-- The run of C9 in the example world, where `/tmp` exists: `curdir` stays
`/home/emily`. -/
theorem cd_before_semicolon_fails_witness :
    listable example_os ∧ example_os.chdir "/tmp" example_world = Except.ok "/tmp" ∧
    (shell_mainloop_line example_os "cd /tmp ; echo ok" example_world).map
      (fun st => st.world.curdir) = some "/home/emily" ∧
    ∃ st, shell_mainloop_line example_os "cd /tmp ; echo ok" example_world = some st ∧
      st.log = [["cd", "/tmp", ""], ["echo", "ok"]] ∧
      parse_builtin example_os ["cd", "/tmp", ""] example_world = some (0xAA, example_world) ∧
      st.world.curdir = example_world.curdir ∧ st.world.cwd = example_world.cwd ∧
      st.world.err = example_world.err ++ "cd: wrong number of arguments!\n" ∧
      st.world.out = example_world.out ++ "ok\n" :=
  ⟨listable_example_os, rfl, by decide,
    cd_before_semicolon_fails example_os example_world listable_example_os⟩

/-- The same line without the space before `;`, in the example world: `cd`
gets the one argument `/tmp`, `curdir` becomes `/tmp`, and `ok` is written. -/
theorem cd_without_space_example :
    (shell_mainloop_line example_os "cd /tmp; echo ok" example_world).map
      (fun st => (st.log, st.world.curdir, st.world.out))
      = some ([["cd", "/tmp"], ["echo", "ok"]], "/tmp", "ok\n") := by
  decide

/-! ## The dispatcher -/

/-- C10: for `exit` and for `logout`, `parse_builtin` returns `0xDEAD` exactly
when there is no further argument, and `0xAA` when there is one or more; the
world is left as it was. -/
theorem exit_logout_outcome (os : OS) (w : World) (name : String) (rest : List String)
    (h : name = "exit" ∨ name = "logout") :
    ∃ code, parse_builtin os (name :: rest) w = some (code, w) ∧
      (code = 0xDEAD ↔ (name :: rest).length = 1) ∧
      (2 ≤ (name :: rest).length → code = 0xAA) := by
  cases rest with
  | nil => exact ⟨0xDEAD, by simp [parse_builtin, h], by simp, by simp⟩
  | cons a rest => exact ⟨0xAA, by simp [parse_builtin, h], by simp, by simp⟩

/-- C10 at `exit` alone and at `exit x`. -/
theorem exit_logout_outcome_witness :
    ("exit" = "exit" ∨ "exit" = "logout") ∧
    (∃ code, parse_builtin example_os ["exit", "x"] example_world = some (code, example_world) ∧
      (code = 0xDEAD ↔ ["exit", "x"].length = 1) ∧ (2 ≤ ["exit", "x"].length → code = 0xAA)) ∧
    parse_builtin example_os ["exit"] example_world = some (0xDEAD, example_world) ∧
    parse_builtin example_os ["exit", "x"] example_world = some (0xAA, example_world) :=
  ⟨by decide, exit_logout_outcome example_os example_world "exit" ["x"] (by decide),
    by decide, by decide⟩

/-! ## Built-ins one by one -/

theorem echo_loop_data (a : String) (as : List String) :
    (echo_loop (a :: as)).data = a.data ++ spaced (as.map String.data) := by
  induction as generalizing a with
  | nil => simp [echo_loop, spaced]
  | cons b bs ih =>
    rw [echo_loop, String.data_append, String.data_append, ih]
    simp [spaced]

theorem echo_loop_intercalate (xs : List String) : echo_loop xs = String.intercalate " " xs := by
  cases xs with
  | nil => rfl
  | cons a as =>
    apply String.ext
    rw [echo_loop_data, String.intercalate, intercalate_go_data]

/-- C11: for every argument vector `echo x1 ... xn`, `n ≥ 0`, whose first
further argument is not `-e`, `parse_builtin` appends to standard output the
arguments joined by single spaces and one newline, changes nothing else, and
returns 0. -/
theorem echo_writes_joined (os : OS) (w : World) (xs : List String)
    (h : xs.head? ≠ some "-e") :
    parse_builtin os ("echo" :: xs) w
      = some (0, { w with out := w.out ++ (String.intercalate " " xs ++ "\n") }) := by
  have hd : decide (1 < xs.length + 1 ∧ xs.headD "" = "-e") = false := by
    cases xs with
    | nil => simp
    | cons x xs =>
      have : x ≠ "-e" := fun e => h (by simp [e])
      simp [this]
  rw [parse_builtin, if_neg (by decide), if_neg (by decide), if_neg (by decide),
    if_neg (by decide), if_neg (by decide), if_neg (by decide), if_pos rfl]
  simp only [hd, Bool.false_eq_true, if_false, echo_loop_intercalate]

/-- C11 at `echo a b`: exactly `a b` and a newline are written. -/
theorem echo_writes_joined_witness :
    ["a", "b"].head? ≠ some "-e" ∧ String.intercalate " " ["a", "b"] ++ "\n" = "a b\n" ∧
    parse_builtin example_os ("echo" :: ["a", "b"]) example_world
      = some (0, { example_world with
          out := example_world.out ++ (String.intercalate " " ["a", "b"] ++ "\n") }) :=
  ⟨by decide, by decide, echo_writes_joined example_os example_world ["a", "b"] (by decide)⟩

/-- C12 (the code does otherwise): for `.`, `source`, `alias` and `unalias`
the branches of `parse_builtin` are empty and control falls through to
`return 0x1337`: the world is unchanged, but the result is the one for "no
builtin function with the specified name was found", and the `switch` of
`shell_mainloop` passes the vector to `spawnwait`. -/
theorem stub_names_run_external (os : OS) (w : World) (name : String) (rest : List String)
    (h : name = "." ∨ name = "source" ∨ name = "alias" ∨ name = "unalias") :
    parse_builtin os (name :: rest) w = some (0x1337, w) ∧
    run_action os (name :: rest) 0x1337 true w
      = ((spawnwait os (name :: rest) w).1, true, (spawnwait os (name :: rest) w).2) := by
  refine ⟨?_, rfl⟩
  rw [parse_builtin]
  rcases h with h | h | h | h <;> subst h <;>
    rw [if_neg (by decide), if_neg (by decide), if_neg (by decide), if_neg (by decide),
      if_neg (by decide), if_neg (by decide), if_neg (by decide), if_neg (by decide)]

/-- C12 at `alias ll=ls` in the example world: the vector goes to `spawnwait`,
which returns 127 there. -/
theorem stub_names_run_external_witness :
    ("alias" = "." ∨ "alias" = "source" ∨ "alias" = "alias" ∨ "alias" = "unalias") ∧
    (parse_builtin example_os ("alias" :: ["ll=ls"]) example_world = some (0x1337, example_world) ∧
    run_action example_os ("alias" :: ["ll=ls"]) 0x1337 true example_world
      = ((spawnwait example_os ("alias" :: ["ll=ls"]) example_world).1, true,
          (spawnwait example_os ("alias" :: ["ll=ls"]) example_world).2)) ∧
    (spawnwait example_os ["alias", "ll=ls"] example_world).1 = 127 :=
  ⟨by decide, stub_names_run_external example_os example_world "alias" ["ll=ls"] (by decide),
    by decide⟩

/-- C13: `builtin` followed by a non-empty vector `rest` is `parse_builtin` of
`rest`: the same value and the same world (and a value there is, while `PATH`
is set); `builtin` alone returns `0xAA` and leaves the world as it was.  The
function is defined by recursion on the vector, which gets shorter. -/
theorem builtin_redispatch (os : OS) (w : World) (rest : List String) (h : rest ≠ []) :
    parse_builtin os ("builtin" :: rest) w = parse_builtin os rest w ∧
    (getenv w.env "PATH" ≠ none →
      ∃ code w1, parse_builtin os ("builtin" :: rest) w = some (code, w1)) ∧
    parse_builtin os ["builtin"] w = some (0xAA, w) := by
  have hlen : rest.length + 1 ≥ 2 := by
    cases rest with
    | nil => exact absurd rfl h
    | cons a as => simp
  have heq : parse_builtin os ("builtin" :: rest) w = parse_builtin os rest w := by
    rw [parse_builtin, if_neg (by decide), if_neg (by decide), if_neg (by decide),
      if_neg (by decide), if_pos rfl, if_pos hlen]
  refine ⟨heq, ?_, ?_⟩
  · intro hp
    obtain ⟨code, w1, h1, _⟩ := parse_builtin_some os rest w h hp
    exact ⟨code, w1, by rw [heq, h1]⟩
  · rw [parse_builtin, if_neg (by decide), if_neg (by decide), if_neg (by decide),
      if_neg (by decide), if_pos rfl, if_neg (by decide)]

/-- C13 at `builtin echo hi` in the example world. -/
theorem builtin_redispatch_witness :
    ["echo", "hi"] ≠ [] ∧
    (parse_builtin example_os ("builtin" :: ["echo", "hi"]) example_world
        = parse_builtin example_os ["echo", "hi"] example_world ∧
      (getenv example_world.env "PATH" ≠ none →
        ∃ code w1, parse_builtin example_os ("builtin" :: ["echo", "hi"]) example_world
          = some (code, w1)) ∧
      parse_builtin example_os ["builtin"] example_world = some (0xAA, example_world)) ∧
    parse_builtin example_os ["builtin", "echo", "hi"] example_world
      = some (0, { example_world with out := "hi\n" }) :=
  ⟨by decide, builtin_redispatch example_os example_world ["echo", "hi"] (by decide), by decide⟩

theorem scan_run_append (q : Char → Bool) : ∀ (n : Nat) (s : List Char),
    (scan_run q n s).1 ++ (scan_run q n s).2 = s := by
  intro n
  induction n with
  | zero => intro s; rfl
  | succ n ih =>
    intro s
    cases s with
    | nil => rfl
    | cons c s =>
      by_cases h : q c = true
      · simp [scan_run, h, ih s]
      · simp [scan_run, h]

theorem scan_run_rest_of_all (q : Char → Bool) (n : Nat) (s : List Char)
    (h : ∀ c ∈ s, q c = true) (c : Char) (r : List Char)
    (hr : (scan_run q n s).2 = c :: r) : q c = true := by
  apply h
  rw [← scan_run_append q n s, hr]
  simp

theorem scan_run_rest_of_long (q : Char → Bool) : ∀ (n : Nat) (s : List Char),
    n < (s.takeWhile q).length → ∃ c r, (scan_run q n s).2 = c :: r ∧ q c = true := by
  intro n
  induction n with
  | zero =>
    intro s h
    cases s with
    | nil => simp at h
    | cons c s =>
      by_cases hc : q c = true
      · exact ⟨c, s, rfl, hc⟩
      · simp [List.takeWhile, hc] at h
  | succ n ih =>
    intro s h
    cases s with
    | nil => simp at h
    | cons c s =>
      by_cases hc : q c = true
      · have h2 : n < (s.takeWhile q).length := by
          simp [List.takeWhile, hc] at h; omega
        obtain ⟨d, r, h3, h4⟩ := ih s h2
        exact ⟨d, r, by simp [scan_run, hc, h3], h4⟩
      · simp [List.takeWhile, hc] at h

theorem sscanf_export_not_two (arg : List Char)
    (h : ∀ c r, (scan_run (fun c => decide (c ≠ '=')) 63 arg).2 = c :: r → c ≠ '=') :
    (sscanf_export arg).1 ≠ 2 := by
  cases arg with
  | nil => simp [sscanf_export]
  | cons a as =>
    rw [sscanf_export]
    simp only []
    split
    · decide
    · split
      · rename_i c r hr
        rw [if_neg (h c r hr)]
        show (1 : Int) ≠ 2
        decide
      · show (1 : Int) ≠ 2
        decide

/-- C14, amended: for `export` and `setenv`, `parse_builtin` returns `0xAA` and
leaves the world, and with it the environment, as it was whenever the number
of further arguments is not one, and whenever the one argument has no `=` or
has more than 63 bytes before its first `=`. -/
theorem export_malformed_arity (os : OS) (w : World) (name : String) (rest : List String)
    (hn : name = "export" ∨ name = "setenv")
    (hbad : rest.length ≠ 1 ∨ ∃ arg, rest = [arg] ∧
      ('=' ∉ arg.data ∨ 63 < (arg.data.takeWhile (fun c => decide (c ≠ '='))).length)) :
    parse_builtin os (name :: rest) w = some (0xAA, w) := by
  have h1 : ¬ (name = "exit" ∨ name = "logout") := by
    rcases hn with h | h <;> subst h <;> decide
  have h2 : ¬ (name = "cd" ∨ name = "chdir") := by
    rcases hn with h | h <;> subst h <;> decide
  rw [parse_builtin, if_neg h1, if_neg h2, if_pos hn]
  rcases hbad with hlen | ⟨arg, rfl, harg⟩
  · rw [if_neg (by omega)]
  · rw [if_pos (by rfl : [arg].length + 1 = 2)]
    have hne : (sscanf_export arg.data).1 ≠ 2 := by
      apply sscanf_export_not_two
      intro c r hr
      rcases harg with hno | hlong
      · have := scan_run_rest_of_all _ 63 arg.data
          (fun d hd => by
            have hd2 : d ≠ '=' := fun e => hno (by rw [← e]; exact hd)
            simpa using hd2) c r hr
        simpa using this
      · obtain ⟨d, r2, h3, h4⟩ := scan_run_rest_of_long _ 63 arg.data hlong
        rw [hr] at h3
        injection h3 with h5 _
        subst h5
        simpa using h4
    simp only [List.headD_cons]
    rw [if_neg hne]

/-- C14, amended, at `export novalue` and at a name of 64 bytes. -/
theorem export_malformed_arity_witness :
    ("export" = "export" ∨ "export" = "setenv") ∧
    (["novalue"].length ≠ 1 ∨ ∃ arg, ["novalue"] = [arg] ∧
      ('=' ∉ arg.data ∨ 63 < (arg.data.takeWhile (fun c => decide (c ≠ '='))).length)) ∧
    parse_builtin example_os ("export" :: ["novalue"]) example_world
      = some (0xAA, example_world) ∧
    parse_builtin example_os ["export", String.mk (List.replicate 64 'k' ++ ['=', 'v'])]
      example_world = some (0xAA, example_world) ∧
    parse_builtin example_os ["export", "k=v"] example_world
      = some (0, { example_world with env := [("PATH", "/usr/bin:/bin"), ("k", "v")] }) :=
  ⟨by decide, Or.inr ⟨"novalue", rfl, Or.inl (by decide)⟩,
    export_malformed_arity example_os example_world "export" ["novalue"] (by decide)
      (Or.inr ⟨"novalue", rfl, Or.inl (by decide)⟩),
    by decide, by decide⟩

set_option maxRecDepth 100000 in
/-- C14 as stated fails: with a value of 1024 bytes `export` returns 0, not
`0xAA`, and sets the variable to the first 1023 bytes. -/
theorem export_long_value_truncated :
    parse_builtin example_os ["export", String.mk ('k' :: '=' :: List.replicate 1024 'x')]
      example_world
      = some (0, { example_world with
          env := [("PATH", "/usr/bin:/bin"), ("k", String.mk (List.replicate 1023 'x'))] }) := by
  decide

/-! ## completion -/

theorem startswith_iff (s p : List Char) : startswith s p = true ↔ s.take p.length = p := by
  induction p generalizing s with
  | nil => simp [startswith]
  | cons d p ih =>
    cases s with
    | nil => simp [startswith]
    | cons c s =>
      simp only [startswith, Bool.and_eq_true, decide_eq_true_eq, ih, List.length_cons,
        List.take_succ_cons, List.cons.injEq]
      constructor
      · rintro ⟨h1, h2⟩; exact ⟨h1.symm, h2⟩
      · rintro ⟨h1, h2⟩; exact ⟨h1.symm, h2⟩

theorem add_completions_self (b : List Char) (names : List String) :
    add_completions b b names
      = (names.filter (fun s => decide (s.data.take b.length = b))).map
          (fun s => { size := s.data.length, text := s.data }) := by
  induction names with
  | nil => rfl
  | cons s rest ih =>
    by_cases h : s.data.take b.length = b
    · have hs : startswith s.data b = true := (startswith_iff _ _).2 h
      have hb : b ++ s.data.drop b.length = s.data := by
        have := List.take_append_drop b.length s.data
        rw [h] at this
        exact this
      have hl : b.length + s.data.length - b.length = s.data.length := by omega
      simp [add_completions, hs, h, hb, hl, ih]
    · have hs : ¬ startswith s.data b = true := fun e => h ((startswith_iff _ _).1 e)
      simp [add_completions, hs, h, ih]

theorem peek_ne_space (m : List Char) (h : ∀ c ∈ m, c ≠ ' ') (j : Nat) : peek m j ≠ ' ' := by
  by_cases hj : j < m.length
  · exact h _ (peek_mem m j hj)
  · rw [peek_ge m j (by omega)]; decide

theorem last_word_loop_no_space (m : List Char) (h : ∀ c ∈ m, c ≠ ' ') :
    ∀ (n i : Nat) (st : LastWord), last_word_loop m n i st = some st := by
  intro n
  induction n with
  | zero => intro i st; rfl
  | succ n ih =>
    intro i st
    rw [last_word_loop, if_neg (peek_ne_space m h i)]
    exact ih _ _

theorem completion_attempts_first_word (commands files : List String) (b : String)
    (hne : b.data ≠ []) (hsp : ∀ c ∈ b.data, c ≠ ' ') (hnul : ∀ c ∈ b.data, c ≠ NUL) :
    completion_attempts commands files b
      = some ((commands.filter (fun s => decide (s.data.take b.data.length = b.data))
          ++ files.filter (fun s => decide (s.data.take b.data.length = b.data))).map
            (fun s => { size := s.data.length, text := s.data })) := by
  have hm : ∀ c ∈ b.data ++ [NUL], c ≠ ' ' := by
    intro c hc
    rcases List.mem_append.1 hc with h | h
    · exact hsp c h
    · simp at h; rw [h]; decide
  have hcstr : cstr (b.data ++ [NUL]) = b.data := cstr_append_nul b.data [] hnul
  have hpeek : peek (b.data ++ [NUL]) 0 ≠ NUL := by
    cases hb : b.data with
    | nil => exact absurd hb hne
    | cons c s => exact hnul c (by rw [hb]; simp)
  simp only [completion_attempts, last_word_loop_no_space _ hm, Option.map_some', hpeek,
    if_false, List.drop_zero, hcstr, if_true, add_completions_self, List.map_append]

/-- C15 (the code does otherwise): for every non-empty buffer `b` without a
space (and without `NUL`), the two loops of `completion` find exactly the
entries of `commands` of which `b` is a beginning, in the order of the list,
and then those of `files`, and for each the text written to `tmp` is the entry
itself; but `tmp` has only as many bytes as the entry, so the terminating `NUL`
is written past its end.  `completion` therefore has a result only when no
entry starts with `b`, and then nothing is passed to `linenoiseAddCompletion`. -/
theorem completion_first_word_overflows (commands files : List String) (b : String)
    (hne : b.data ≠ []) (hsp : ∀ c ∈ b.data, c ≠ ' ') (hnul : ∀ c ∈ b.data, c ≠ NUL) :
    completion_attempts commands files b
      = some ((commands.filter (fun s => decide (s.data.take b.data.length = b.data))
          ++ files.filter (fun s => decide (s.data.take b.data.length = b.data))).map
            (fun s => { size := s.data.length, text := s.data })) ∧
    ((∃ s ∈ commands ++ files, s.data.take b.data.length = b.data) →
      completion commands files b = none) ∧
    ((∀ s ∈ commands ++ files, s.data.take b.data.length ≠ b.data) →
      completion commands files b = some []) := by
  have hatt := completion_attempts_first_word commands files b hne hsp hnul
  refine ⟨hatt, ?_, ?_⟩
  · rintro ⟨s, hs, hpre⟩
    have hmem : s ∈ commands.filter (fun s => decide (s.data.take b.data.length = b.data))
        ++ files.filter (fun s => decide (s.data.take b.data.length = b.data)) := by
      rcases List.mem_append.1 hs with h | h
      · exact List.mem_append.2 (Or.inl (List.mem_filter.2 ⟨h, by simpa using hpre⟩))
      · exact List.mem_append.2 (Or.inr (List.mem_filter.2 ⟨h, by simpa using hpre⟩))
    rw [completion, hatt, Option.some_bind, if_neg]
    intro hall
    have := hall { size := s.data.length, text := s.data }
      (List.mem_map.2 ⟨s, hmem, rfl⟩)
    simp only [] at this
    omega
  · intro hnone
    have hc : commands.filter (fun s => decide (s.data.take b.data.length = b.data)) = [] := by
      rw [List.filter_eq_nil_iff]
      intro s hs
      simpa using hnone s (List.mem_append.2 (Or.inl hs))
    have hf : files.filter (fun s => decide (s.data.take b.data.length = b.data)) = [] := by
      rw [List.filter_eq_nil_iff]
      intro s hs
      simpa using hnone s (List.mem_append.2 (Or.inr hs))
    rw [completion, hatt, hc, hf]
    rfl

/-- C15 at the buffer `l` with `ls` among the commands: `ls` is found, `tmp` is
asked to have 2 bytes, and the 3 bytes `l`, `s`, `NUL` are written to it. -/
theorem completion_first_word_overflows_witness :
    "l".data ≠ [] ∧ (∀ c ∈ "l".data, c ≠ ' ') ∧ (∀ c ∈ "l".data, c ≠ NUL) ∧
    completion_attempts ["cd", "ls"] [] "l" = some [{ size := 2, text := ['l', 's'] }] ∧
    completion ["cd", "ls"] [] "l" = none ∧
    (completion_attempts ["cd", "ls"] [] "l"
      = some ((["cd", "ls"].filter (fun s => decide (s.data.take "l".data.length = "l".data))
          ++ ([] : List String).filter
            (fun s => decide (s.data.take "l".data.length = "l".data))).map
            (fun s => { size := s.data.length, text := s.data })) ∧
    ((∃ s ∈ ["cd", "ls"] ++ [], s.data.take "l".data.length = "l".data) →
      completion ["cd", "ls"] [] "l" = none) ∧
    ((∀ s ∈ ["cd", "ls"] ++ [], s.data.take "l".data.length ≠ "l".data) →
      completion ["cd", "ls"] [] "l" = some [])) :=
  ⟨by decide, by decide, by decide, by decide, by decide,
    completion_first_word_overflows ["cd", "ls"] [] "l" (by decide) (by decide) (by decide)⟩

/-- C16 (the code does otherwise): for the buffer `a; l` no entry of `commands`
is offered, although `ls` starts with `l`: the word has fewer than two bytes, so
the loop goes on (`continue`) before it looks for the `;` in front of the
space, and `bufidx` stays 1.  Only a file name is offered, and with no file
name that fits `completion` returns without offering anything.  With a word of
two bytes (`a; ls`), with a space before the `;` (`a ; l`), and after `&&` and
`||` that stand between spaces, the commands are offered; after `&&` without a
space before it (`a&& l`) they are not.  (The texts are those that the loops
write to `tmp`.) -/
theorem completion_after_semicolon_misses :
    (completion_attempts ["ls", "lsblk"] ["lib"] "a; l").map
      (List.map (fun a => String.mk a.text)) = some ["a; lib"] ∧
    (completion_attempts ["ls", "lsblk"] ["lib"] "a; ls").map
      (List.map (fun a => String.mk a.text)) = some ["a; ls", "a; lsblk"] ∧
    (completion_attempts ["ls", "lsblk"] ["lib"] "a ; l").map
      (List.map (fun a => String.mk a.text)) = some ["a ; ls", "a ; lsblk", "a ; lib"] ∧
    (completion_attempts ["ls", "lsblk"] ["lib"] "a && l").map
      (List.map (fun a => String.mk a.text)) = some ["a && ls", "a && lsblk", "a && lib"] ∧
    (completion_attempts ["ls", "lsblk"] ["lib"] "a || ls").map
      (List.map (fun a => String.mk a.text)) = some ["a || ls", "a || lsblk"] ∧
    (completion_attempts ["ls", "lsblk"] ["lib"] "a&& l").map
      (List.map (fun a => String.mk a.text)) = some ["a&& lib"] ∧
    completion ["ls", "lsblk"] [] "a; l" = some [] ∧
    last_word_loop ("a; l".data ++ [NUL]) 4 0 ⟨0, 0⟩ = some ⟨3, 1⟩ ∧
    last_word_loop ("a; ls".data ++ [NUL]) 5 0 ⟨0, 0⟩ = some ⟨3, 0⟩ := by
  decide

/-! ## buildcommands -/

theorem read_directory_under : ∀ (es acc : List String), (acc ++ es).length ≤ 32768 →
    read_directory es acc = (acc ++ es, false) := by
  intro es
  induction es with
  | nil => intro acc _; simp [read_directory]
  | cons e es ih =>
    intro acc h
    have h1 : ¬ (acc ++ [e]).length > 32768 := by
      simp only [List.length_append, List.length_cons, List.length_nil] at h ⊢
      omega
    rw [read_directory, if_neg h1, ih (acc ++ [e]) (by simpa using h)]
    simp

theorem read_directory_over : ∀ (es acc : List String), acc.length ≤ 32768 →
    32768 < (acc ++ es).length →
    read_directory es acc = ((acc ++ es).take 32769, true) := by
  intro es
  induction es with
  | nil => intro acc h1 h2; simp at h2; omega
  | cons e es ih =>
    intro acc h1 h2
    by_cases h : (acc ++ [e]).length > 32768
    · have hlen : (acc ++ [e]).length = 32769 := by
        simp only [List.length_append, List.length_singleton] at h ⊢
        omega
      have e1 : acc ++ e :: es = (acc ++ [e]) ++ es := by simp
      have hle : (acc ++ [e]).length ≤ 32769 := by omega
      have e2 : ((acc ++ [e]) ++ es).take 32769 = acc ++ [e] := by
        rw [@List.take_append_of_le_length _ (acc ++ [e]) es 32769 (by omega),
          List.take_of_length_le hle]
      rw [read_directory, if_pos h, e1, e2]
    · have h3 : (acc ++ [e]).length ≤ 32768 := by omega
      rw [read_directory, if_neg h, ih (acc ++ [e]) h3 (by simpa using h2)]
      simp

theorem read_path_under (listdir : String → Option (List String)) :
    ∀ (ds : List String) (contents : List (List String)) (acc : List String),
      ds.map listdir = contents.map some → (acc ++ contents.flatten).length ≤ 32768 →
      read_path listdir ds acc = some (acc ++ contents.flatten, false) := by
  intro ds
  induction ds with
  | nil =>
    intro contents acc h _
    cases contents with
    | nil => simp [read_path]
    | cons c cs => simp at h
  | cons d ds ih =>
    intro contents acc h hlen
    cases contents with
    | nil => simp at h
    | cons es cs =>
      simp only [List.map_cons, List.cons.injEq] at h
      have h1 : (acc ++ es).length ≤ 32768 := by
        simp only [List.flatten_cons, List.length_append] at hlen ⊢
        omega
      rw [read_path, h.1]
      simp only [read_directory_under es acc h1, Bool.false_eq_true, if_false]
      rw [ih cs (acc ++ es) h.2 (by simpa using hlen)]
      simp

theorem read_path_over (listdir : String → Option (List String)) :
    ∀ (ds : List String) (contents : List (List String)) (acc : List String),
      ds.map listdir = contents.map some → acc.length ≤ 32768 →
      32768 < (acc ++ contents.flatten).length →
      read_path listdir ds acc = some ((acc ++ contents.flatten).take 32769, true) := by
  intro ds
  induction ds with
  | nil =>
    intro contents acc h h1 h2
    cases contents with
    | nil => simp at h2; omega
    | cons c cs => simp at h
  | cons d ds ih =>
    intro contents acc h h1 h2
    cases contents with
    | nil => simp at h
    | cons es cs =>
      simp only [List.map_cons, List.cons.injEq] at h
      rw [read_path, h.1]
      by_cases hes : 32768 < (acc ++ es).length
      · simp only [read_directory_over es acc h1 hes, if_true]
        have e1 : acc ++ (es :: cs).flatten = (acc ++ es) ++ cs.flatten := by simp
        rw [e1, @List.take_append_of_le_length _ (acc ++ es) cs.flatten 32769 (by omega)]
      · simp only [read_directory_under es acc (by omega), Bool.false_eq_true, if_false]
        rw [ih cs (acc ++ es) h.2 (by omega) (by simpa using h2)]
        simp

/-- What `buildcommands` does while the directories of `PATH` hold at most
32768 names together: the names, the fifteen built-in names, the terminator. -/
theorem buildcommands_under_cap (path : String) (listdir : String → Option (List String))
    (contents : List (List String))
    (hdirs : (dtmsplit (path.data ++ [NUL]) ':').map listdir = contents.map some)
    (hcap : contents.flatten.length ≤ 32768) :
    buildcommands (some path) listdir
      = some { names := contents.flatten ++ builtin_names, terminated := true } := by
  simp [buildcommands, read_path_under listdir _ contents [] hdirs (by simpa using hcap)]

/-- C17 (the code does otherwise): when the directories of `PATH` hold more
than 32768 names together, `buildcommands` returns from inside its loop: the
array holds the first 32769 of these names and nothing else, the built-in names
are not added and the terminator is not stored. -/
theorem buildcommands_over_cap (path : String) (listdir : String → Option (List String))
    (contents : List (List String))
    (hdirs : (dtmsplit (path.data ++ [NUL]) ':').map listdir = contents.map some)
    (hcap : 32768 < contents.flatten.length) :
    buildcommands (some path) listdir
      = some { names := contents.flatten.take 32769, terminated := false } := by
  simp [buildcommands,
    read_path_over listdir _ contents [] hdirs (by simp) (by simpa using hcap)]

theorem length_many_names : many_names.length = 32769 :=
  List.length_replicate _ _

/-- C17 at a `PATH` of one directory that holds the 32769 names of `many_names`:
the list is these names, without the built-in names and without terminator. -/
theorem buildcommands_over_cap_witness :
    (dtmsplit ("/bin".data ++ [NUL]) ':').map (fun _ => some many_names)
      = [many_names].map some ∧
    32768 < [many_names].flatten.length ∧
    buildcommands (some "/bin") (fun _ => some many_names)
      = some { names := [many_names].flatten.take 32769, terminated := false } :=
  have hsplit : dtmsplit ("/bin".data ++ [NUL]) ':' = ["/bin"] := by decide
  have hdirs : (dtmsplit ("/bin".data ++ [NUL]) ':').map (fun _ => some many_names)
      = [many_names].map some := by rw [hsplit]; rfl
  have hcap : 32768 < [many_names].flatten.length := by
    simp [length_many_names]
  ⟨hdirs, hcap,
    buildcommands_over_cap "/bin" (fun _ => some many_names) [many_names] hdirs hcap⟩

/-- The list `buildcommands` builds for a `PATH` of two small directories. -/
theorem buildcommands_example :
    buildcommands (some "/usr/bin:/bin")
        (fun d => if d = "/bin" then some ["sh", "ls"] else some ["env"])
      = some { names := ["env", "sh", "ls"] ++ builtin_names, terminated := true } := by
  decide

/-! ## A skipped sub-command -/

theorem scan_loop_andand (pmax : Nat) : ∀ (j n : Nat) (s : Scan),
    (∀ i, s.parse_pos ≤ i → i < s.parse_pos + j → ¬ is_boundary s.command i) →
    peek s.command (s.parse_pos + j) = '&' → peek s.command (s.parse_pos + j - 1) = '&' →
    s.parse_pos + j ≠ 0 → j < n → bit_one s.exit_expect_satisfy = false →
    scan_loop pmax n s
      = { s with command := poke s.command (s.parse_pos + j - 1) NUL, exit_expect := 0,
                 parse_pos := s.parse_pos + j } := by
  intro j
  induction j with
  | zero =>
    intro n s _ h1 h2 h0 hn hbit
    obtain ⟨n, rfl⟩ : ∃ m, n = m + 1 := ⟨n - 1, by omega⟩
    simp only [Nat.add_zero] at h1 h2 h0
    have hsemi : ¬ peek s.command s.parse_pos = ';' := by rw [h1]; decide
    rw [scan_loop]
    simp [scan_operator, hsemi, h0, h1, h2, hbit]
  | succ j ih =>
    intro n s h h1 h2 h0 hn hbit
    obtain ⟨n, rfl⟩ : ∃ m, n = m + 1 := ⟨n - 1, by omega⟩
    have hfree := scan_operator_none s (h s.parse_pos (Nat.le_refl _) (by omega))
    rw [scan_loop, hfree]
    simp only []
    have e : s.parse_pos + 1 + j = s.parse_pos + (j + 1) := by omega
    rw [ih n { s with parse_pos := s.parse_pos + 1 }]
    · simp only [e]
    · intro i hi1 hi2
      exact h i (by simp only [] at hi1; omega) (by simp only [] at hi2; omega)
    · simp only [e]; exact h1
    · simp only [e]; exact h2
    · simp only []; omega
    · omega
    · exact hbit

theorem scan_loop_semicolon_skip (pmax : Nat) : ∀ (j n : Nat) (s : Scan),
    (∀ i, s.parse_pos ≤ i → i < s.parse_pos + j → ¬ is_boundary s.command i) →
    peek s.command (s.parse_pos + j) = ';' → j < n → bit_one s.exit_expect_satisfy = true →
    scan_loop pmax n s
      = scan_loop pmax (n - j - 1)
          { command := poke s.command (s.parse_pos + j) NUL, exit_expect := -1,
            command_token := token_start (s.parse_pos + j) pmax, exit_expect_satisfy := 0,
            parse_pos := s.parse_pos + j + 1 } := by
  intro j
  induction j with
  | zero =>
    intro n s _ hsemi hn hbit
    obtain ⟨n, rfl⟩ : ∃ m, n = m + 1 := ⟨n - 1, by omega⟩
    have hsemi0 : peek s.command s.parse_pos = ';' := by simpa using hsemi
    rw [scan_loop]
    simp [scan_operator, hsemi0, hbit]
  | succ j ih =>
    intro n s h hsemi hn hbit
    obtain ⟨n, rfl⟩ : ∃ m, n = m + 1 := ⟨n - 1, by omega⟩
    have hfree := scan_operator_none s (h s.parse_pos (Nat.le_refl _) (by omega))
    rw [scan_loop, hfree]
    simp only []
    have e : s.parse_pos + 1 + j = s.parse_pos + (j + 1) := by omega
    rw [ih n { s with parse_pos := s.parse_pos + 1 }]
    · simp only [e]
      congr 1
      omega
    · intro i hi1 hi2
      exact h i (by simp only [] at hi1; omega) (by simp only [] at hi2; omega)
    · simp only [e]; exact hsemi
    · omega
    · exact hbit

theorem has_operator_of_free (s : List Char) (h : operator_free s) : has_operator s = false := by
  induction s with
  | nil => rfl
  | cons c s ih =>
    rw [has_operator_cons_iff]
    have hc := h c (by simp)
    exact ⟨hc.1, ih (fun d hd => h d (by simp [hd])), fun e => hc.2.1 e.1, fun e => hc.2.2 e.1⟩

theorem is_boundary_append_left (m y : List Char) (i : Nat) (hi : i < m.length) :
    is_boundary (m ++ y) i ↔ is_boundary m i := by
  unfold is_boundary
  rw [peek_append_left m y i hi, peek_append_left m y (i - 1) (by omega)]

theorem run_action_exit (os : OS) (argv : List String) (code : Int) (r1 r2 : Bool) (w : World) :
    (run_action os argv code r1 w).1 = (run_action os argv code r2 w).1 := by
  unfold run_action
  split_ifs <;> rfl

theorem run_command_fail (os : OS) (argv : List String) (run : Bool) (w : World)
    (hd : listable os) (hne : argv ≠ []) (hp : getenv w.env "PATH" ≠ none)
    (hfail : exit_code_of os argv w ≠ some 0) :
    ∃ run1 w1, run_command os argv 0 run w = some (2, run1, w1) ∧
      getenv w1.env "PATH" ≠ none := by
  obtain ⟨code, w1, h1, hp1⟩ := parse_builtin_some os argv w hne hp
  have hx : (run_action os argv code run w1).1 ≠ 0 := by
    intro e
    apply hfail
    rw [exit_code_of, h1, Option.map_some', run_action_exit os argv code true run w1, e]
  obtain ⟨names, hb⟩ := buildhints_listable os hd (run_action os argv code run w1).2.2
  refine ⟨(run_action os argv code run w1).2.1,
    { (run_action os argv code run w1).2.2 with files := names }, ?_, ?_⟩
  · simp only [run_command, h1, hb, Option.map_some', satisfy_of_and_fail _ hx]
  · show getenv (run_action os argv code run w1).2.2.env "PATH" ≠ none
    rw [run_action_env]
    exact hp1

theorem scan_skip_to_end (x c : List Char) (pp pmax tok : Nat) (hpp : pp ≤ x.length)
    (hfree : ∀ i, pp ≤ i → i < x.length → ¬ is_boundary x i)
    (hc : has_operator c = false) :
    scan_loop pmax (x.length - pp + 1 + (c.length + 1)) ⟨x ++ ';' :: (c ++ [NUL]), pp, 0, 2, tok⟩
      = ⟨x ++ NUL :: (c ++ [NUL]), x.length + 1 + (c.length + 1), -1, 0,
          token_start x.length pmax⟩ := by
  have e : pp + (x.length - pp) = x.length := by omega
  have h := scan_loop_semicolon_skip pmax (x.length - pp) (x.length - pp + 1 + (c.length + 1))
    ⟨x ++ ';' :: (c ++ [NUL]), pp, 0, 2, tok⟩
    (fun i hi1 hi2 => by
      simp only [] at hi1 hi2
      rw [is_boundary_append_left x _ i (by omega)]
      exact hfree i hi1 (by omega))
    (by simp only [e]; rw [peek_append_length]; rfl) (by omega) rfl
  rw [h]
  simp only [e, poke_append_length]
  have hn : x.length - pp + 1 + (c.length + 1) - (x.length - pp) - 1 = c.length + 1 := by omega
  rw [hn, scan_loop_free]
  intro i hi1 hi2
  simp only [] at hi1 hi2
  obtain ⟨j, rfl⟩ : ∃ j, i = x.length + j := ⟨i - x.length, by omega⟩
  exact no_boundary_right x (NUL :: (c ++ [NUL]))
    (has_operator_nul_cons _ (has_operator_append_nul c hc))
    ⟨(by decide : NUL ≠ '&'), (by decide : NUL ≠ '|')⟩ j (by simp; omega)

theorem scan_to_andand (a y : List Char) (pmax : Nat) (ha : operator_free a) (hne : a ≠ [])
    (hlt : a.length + 1 < pmax) :
    scan_loop pmax pmax ⟨a ++ '&' :: '&' :: y, 0, -1, 0, 0⟩
      = ⟨a ++ NUL :: '&' :: y, a.length + 1, 0, 0, 0⟩ := by
  have hpos : 0 < a.length := List.length_pos.2 hne
  have hlast : peek (a ++ '&' :: '&' :: y) (a.length - 1) ≠ '&' := by
    rw [peek_append_left _ _ _ (by omega)]
    exact (ha _ (peek_mem a _ (by omega))).2.1
  have hat : peek (a ++ '&' :: '&' :: y) a.length = '&' := by
    rw [peek_append_length]; rfl
  have hnext : peek (a ++ '&' :: '&' :: y) (a.length + 1) = '&' := by
    rw [peek_append_right]; rfl
  have h := scan_loop_andand pmax (a.length + 1) pmax ⟨a ++ '&' :: '&' :: y, 0, -1, 0, 0⟩
    (fun i _ hi => by
      simp only [Nat.zero_add] at hi
      by_cases hia : i < a.length
      · exact no_boundary_left a _ (has_operator_of_free a ha) i hia
      · have e : i = a.length := by omega
        subst e
        unfold is_boundary
        rw [hat]
        rintro (e | ⟨_, e | e⟩)
        · exact absurd e (by decide)
        · exact hlast e.1
        · exact absurd e.2 (by decide))
    (by simp only [Nat.zero_add]; exact hnext)
    (by simp only [Nat.zero_add, Nat.add_sub_cancel]; exact hat)
    (by omega) hlt rfl
  rw [h]
  simp only [Nat.zero_add, Nat.add_sub_cancel, poke_append_length]

/-- C18: for every line `a && b ; c` in which `a` and `c` have a byte other
than a space, none of `a`, `b`, `c` holds `NUL`, `a` and `b` hold none of `;`,
`&`, `|`, `c` holds none of `;`, `&&`, `||`, `PATH` is set, the directory `.`
stays listable (so that `buildhints(".")` returns after each command), and the
command of `a` leaves a non-zero `exit_code`, `shell_mainloop` passes exactly
two argument vectors to `parse_builtin`: the one `dtmparse` yields for `a`,
then the one it yields for `c`, run in the world that `a` leaves.  The bytes
of `b` are never handed to `dtmparse` and nothing of `b` is run. -/
theorem andthen_failure_skips (os : OS) (w : World) (a b c : String)
    (ha : sub_command a.data) (hao : operator_free a.data)
    (hbo : operator_free b.data) (hbnul : ∀ x ∈ b.data, x ≠ NUL)
    (hc : sub_command c.data)
    (hp : getenv w.env "PATH" ≠ none) (hd : listable os)
    (hfail : ∀ argv, subcommand_argv a.data = some argv → exit_code_of os argv w ≠ some 0) :
    ∃ argvA argvC r1 w1 s2 r2 w2 st,
      subcommand_argv a.data = some argvA ∧ subcommand_argv c.data = some argvC ∧
      run_command os argvA 0 true w = some (2, r1, w1) ∧
      run_command os argvC (-1) r1 w1 = some (s2, r2, w2) ∧
      shell_mainloop_line os (a ++ "&&" ++ b ++ ";" ++ c) w = some st ∧
      st.log = [argvA, argvC] ∧ st.world = w2 ∧ st.running = r2 := by
  obtain ⟨hasp, hanul, _⟩ := ha
  obtain ⟨hcsp, hcnul, hcop⟩ := hc
  have hane : a.data ≠ [] := by
    obtain ⟨x, hx, _⟩ := hasp
    exact List.ne_nil_of_mem hx
  have hapos : 0 < a.data.length := List.length_pos.2 hane
  -- the buffer and its length
  have hline : (a ++ "&&" ++ b ++ ";" ++ c).data ++ [NUL]
      = a.data ++ '&' :: '&' :: (b.data ++ ';' :: (c.data ++ [NUL])) := by
    simp [String.data_append]
  have hlen : strlen (a.data ++ '&' :: '&' :: (b.data ++ ';' :: (c.data ++ [NUL])))
      = a.data.length + b.data.length + c.data.length + 3 := by
    have hnn : ∀ x ∈ a.data ++ '&' :: '&' :: (b.data ++ ';' :: c.data), x ≠ NUL := by
      intro x hx
      simp only [List.mem_append, List.mem_cons] at hx
      rcases hx with h | h | h | h | h | h
      · exact hanul x h
      · rw [h]; decide
      · rw [h]; decide
      · exact hbnul x h
      · rw [h]; decide
      · exact hcnul x h
    have := strlen_append_nul (a.data ++ '&' :: '&' :: (b.data ++ ';' :: c.data)) [] hnn
    simp only [List.append_assoc, List.cons_append, List.length_append, List.length_cons] at this
    rw [this]; omega
  -- first pass: up to the second `&`
  obtain ⟨a2, argvA, hla, hneA, hargvA, htokA⟩ := token_command_sub
    ⟨a.data ++ NUL :: '&' :: (b.data ++ ';' :: (c.data ++ [NUL])), a.data.length + 1, 0, 0, 0⟩
    [] a.data ('&' :: (b.data ++ ';' :: (c.data ++ [NUL]))) rfl rfl hasp hanul
  have h1 : next_command (a.data.length + b.data.length + c.data.length + 4)
      (a.data ++ '&' :: '&' :: (b.data ++ ';' :: (c.data ++ [NUL]))) 0 (-1) 0
      = some (⟨(a2 ++ NUL :: '&' :: b.data) ++ ';' :: (c.data ++ [NUL]), a2.length + 1, 0, 0, 0⟩,
          some argvA) := by
    have hts : token_start 0 (a.data.length + b.data.length + c.data.length + 4) = 0 := by
      simp [token_start]
    rw [next_command, hts, Nat.sub_zero, scan_to_andand _ _ _ hao hane (by omega), htokA, hla]
    simp
  obtain ⟨r1, w1, hrun1, hp1⟩ :=
    run_command_fail os argvA true w hd hneA hp (hfail argvA hargvA)
  -- second pass: the bytes of `b` are skipped
  have hfree : ∀ i, a2.length + 1 ≤ i → i < (a2 ++ NUL :: '&' :: b.data).length →
      ¬ is_boundary (a2 ++ NUL :: '&' :: b.data) i := by
    intro i hi1 hi2
    obtain ⟨j, rfl⟩ : ∃ j, i = a2.length + j := ⟨i - a2.length, by omega⟩
    have hop : has_operator ('&' :: b.data) = false := by
      rw [has_operator_cons_iff]
      refine ⟨by decide, has_operator_of_free _ hbo, ?_, fun e => absurd e.1 (by decide)⟩
      rintro ⟨_, e⟩
      cases hbd : b.data with
      | nil => rw [hbd] at e; exact absurd e (by decide)
      | cons d m =>
        rw [hbd] at e
        exact (hbo d (by rw [hbd]; simp)).2.1 e
    exact no_boundary_right a2 (NUL :: '&' :: b.data) (has_operator_nul_cons _ hop)
      ⟨(by decide : NUL ≠ '&'), (by decide : NUL ≠ '|')⟩ j
      (by simp only [List.length_append, List.length_cons] at hi2 ⊢; omega)
  obtain ⟨c2, argvC, hlc, hneC, hargvC, htokC⟩ := token_command_sub
    ⟨(a2 ++ NUL :: '&' :: b.data) ++ NUL :: (c.data ++ [NUL]),
      a.data.length + b.data.length + c.data.length + 4, -1, 0,
      a.data.length + b.data.length + 3⟩
    ((a2 ++ NUL :: '&' :: b.data) ++ [NUL]) c.data [] (by simp)
    (by simp only [List.length_append, List.length_cons, List.length_nil, hla]; omega)
    hcsp hcnul
  have h2 : next_command (a.data.length + b.data.length + c.data.length + 4)
      ((a2 ++ NUL :: '&' :: b.data) ++ ';' :: (c.data ++ [NUL])) (a2.length + 1) 0 2
      = some (⟨((a2 ++ NUL :: '&' :: b.data) ++ [NUL]) ++ (c2 ++ [NUL]),
          a.data.length + b.data.length + c.data.length + 4, -1, 0,
          a.data.length + b.data.length + 3⟩, some argvC) := by
    have hn : a.data.length + b.data.length + c.data.length + 4 - (a2.length + 1)
        = (a2 ++ NUL :: '&' :: b.data).length - (a2.length + 1) + 1 + (c.data.length + 1) := by
      simp only [List.length_append, List.length_cons, hla]; omega
    have hxl : (a2 ++ NUL :: '&' :: b.data).length = a.data.length + b.data.length + 2 := by
      simp only [List.length_append, List.length_cons, hla]; omega
    have hts : token_start (a.data.length + b.data.length + 2)
        (a.data.length + b.data.length + c.data.length + 4)
        = a.data.length + b.data.length + 3 := by
      have e1 : a.data.length + b.data.length + 2 ≠ 0 := by omega
      have e2 : ¬ a.data.length + b.data.length + 2
          = a.data.length + b.data.length + c.data.length + 4 := by omega
      unfold token_start
      rw [if_pos e1, if_neg e2]
      omega
    rw [next_command, hn,
      scan_skip_to_end _ _ _ _ _ (by simp only [List.length_append, List.length_cons]; omega)
        hfree hcop, hxl, hts]
    have e3 : a.data.length + b.data.length + 2 + 1 + (c.data.length + 1)
        = a.data.length + b.data.length + c.data.length + 4 := by omega
    rw [e3, htokC]
  obtain ⟨s2, r2, w2, hrun2, _, hs2⟩ := run_command_some os argvC (-1) r1 w1 hd hneC hp1
  have hs2' : s2 = 0 := hs2 rfl
  subst hs2'
  -- third pass: nothing is left
  have h3 : next_command (a.data.length + b.data.length + c.data.length + 4)
      (((a2 ++ NUL :: '&' :: b.data) ++ [NUL]) ++ (c2 ++ [NUL]))
      (a.data.length + b.data.length + c.data.length + 4) (-1) 0
      = some (⟨((a2 ++ NUL :: '&' :: b.data) ++ [NUL]) ++ (c2 ++ [NUL]),
          a.data.length + b.data.length + c.data.length + 4, -1, 0,
          a.data.length + b.data.length + c.data.length + 3⟩, none) := by
    have hts : token_start (a.data.length + b.data.length + c.data.length + 4)
        (a.data.length + b.data.length + c.data.length + 4)
        = (((a2 ++ NUL :: '&' :: b.data) ++ [NUL]) ++ c2).length := by
      have e1 : a.data.length + b.data.length + c.data.length + 4 ≠ 0 := by omega
      unfold token_start
      rw [if_pos e1, if_pos rfl]
      simp only [List.length_append, List.length_cons, List.length_nil, hla, hlc]
      omega
    have hz : ((a2 ++ NUL :: '&' :: b.data) ++ [NUL]) ++ (c2 ++ [NUL])
        = (((a2 ++ NUL :: '&' :: b.data) ++ [NUL]) ++ c2) ++ [NUL] := by simp
    rw [next_command, hts, Nat.sub_self, scan_loop, hz, token_command_end]
    simp only [List.length_append, List.length_cons, List.length_nil, hla, hlc]
    have e4 : a.data.length + (b.data.length + 1 + 1) + (0 + 1) + c.data.length
        = a.data.length + b.data.length + c.data.length + 3 := by omega
    rw [e4]
  have d1 : decide (0 ≠ a.data.length + b.data.length + c.data.length + 4) = true := by simp
  have d2 : decide (a2.length + 1 ≠ a.data.length + b.data.length + c.data.length + 4)
      = true := decide_eq_true (by rw [hla]; omega)
  refine ⟨argvA, argvC, r1, w1, 0, r2, w2, ?st, hargvA, hargvC, hrun1, hrun2, ?run, ?l, ?wd,
    ?rn⟩
  case run =>
    rw [shell_mainloop_line, hline, hlen,
      parse_loop_run os _ (a.data.length + b.data.length + c.data.length + 5) _ 0 (-1) 0 true w
        [] _ _ 2 r1 w1 h1 hrun1, d1,
      parse_loop_run os _ (a.data.length + b.data.length + c.data.length + 4) _ _ 0 2 r1 w1 _ _
        _ 0 r2 w2 h2 hrun2, d2,
      parse_loop_break os _ (a.data.length + b.data.length + c.data.length + 3) _ _ (-1) 0 r2
        w2 _ _ h3]
    exact rfl
  case l => rfl
  case wd => rfl
  case rn => rfl

/-- C18 at `false && echo a ; echo b` in the example world, where `false`
exits with 1: `false` and `echo b` are run, `echo a` is not, and what is
written is `b` and a newline. -/
theorem andthen_failure_skips_witness :
    listable example_os ∧
    "false " ++ "&&" ++ " echo a " ++ ";" ++ " echo b" = "false && echo a ; echo b" ∧
    subcommand_argv "false ".data = some ["false", ""] ∧
    subcommand_argv " echo b".data = some ["echo", "b"] ∧
    exit_code_of example_os ["false", ""] example_world = some 1 ∧
    (shell_mainloop_line example_os "false && echo a ; echo b" example_world).map
      (fun st => (st.log, st.world.out)) = some ([["false", ""], ["echo", "b"]], "b\n") ∧
    ∃ argvA argvC r1 w1 s2 r2 w2 st,
      subcommand_argv "false ".data = some argvA ∧ subcommand_argv " echo b".data = some argvC ∧
      run_command example_os argvA 0 true example_world = some (2, r1, w1) ∧
      run_command example_os argvC (-1) r1 w1 = some (s2, r2, w2) ∧
      shell_mainloop_line example_os ("false " ++ "&&" ++ " echo a " ++ ";" ++ " echo b")
        example_world = some st ∧
      st.log = [argvA, argvC] ∧ st.world = w2 ∧ st.running = r2 :=
  ⟨listable_example_os, by decide, by decide, by decide, by decide, by decide,
    andthen_failure_skips example_os example_world "false " " echo a " " echo b" (by decide)
      (by decide) (by decide) (by decide) (by decide) (by decide) listable_example_os
      (fun argv h => by
        have e : some ["false", ""] = some argv :=
          (by decide : subcommand_argv "false ".data = some ["false", ""]).symm.trans h
        cases e
        decide)⟩

/-! ## Quotes and the scan for operators -/

/-- C20: for the ten bytes `echo "a;b"` the scan of `shell_mainloop` overwrites
the `;` between the quotes, and, the directory `.` being listable (so that
`buildhints(".")` returns after each command), two argument vectors are passed
to `parse_builtin`: `echo`, `a` from the slice `echo "a`, and then the one
empty string that `dtmparse` yields for the slice `b"`.  What the shell writes
is `a` and a newline.  `dtmparse` applied to the ten bytes as a whole yields
`echo` and `a;b`, and no such vector is passed. -/
theorem quoted_semicolon_splits (os : OS) (w : World) (hd : listable os) :
    tokenize (String.mk ['e', 'c', 'h', 'o', ' ', DQUOTE, 'a', ';', 'b', DQUOTE])
      = some ["echo", "a;b"] ∧
    subcommand_argv ['e', 'c', 'h', 'o', ' ', DQUOTE, 'a'] = some ["echo", "a"] ∧
    subcommand_argv ['b', DQUOTE] = some [""] ∧
    next_command 11 ['e', 'c', 'h', 'o', ' ', DQUOTE, 'a', ';', 'b', DQUOTE, NUL] 0 (-1) 0
      = some (⟨['e', 'c', 'h', 'o', NUL, DQUOTE, 'a', NUL, 'b', DQUOTE, NUL], 7, -1, 0, 0⟩,
          some ["echo", "a"]) ∧
    ∃ st, shell_mainloop_line os
        (String.mk ['e', 'c', 'h', 'o', ' ', DQUOTE, 'a', ';', 'b', DQUOTE]) w = some st ∧
      st.log = [["echo", "a"], [""]] ∧ ["echo", "a;b"] ∉ st.log ∧
      st.world.out = w.out ++ "a\n" ∧ st.running = true := by
  have h1 : next_command 11 ['e', 'c', 'h', 'o', ' ', DQUOTE, 'a', ';', 'b', DQUOTE, NUL] 0 (-1) 0
      = some (⟨['e', 'c', 'h', 'o', NUL, DQUOTE, 'a', NUL, 'b', DQUOTE, NUL], 7, -1, 0, 0⟩,
          some ["echo", "a"]) := by
    decide
  have h2 : next_command 11 ['e', 'c', 'h', 'o', NUL, DQUOTE, 'a', NUL, 'b', DQUOTE, NUL] 7 (-1) 0
      = some (⟨['e', 'c', 'h', 'o', NUL, DQUOTE, 'a', NUL, 'b', NUL, NUL], 11, -1, 0, 8⟩,
          some [""]) := by
    decide
  have h3 : next_command 11 ['e', 'c', 'h', 'o', NUL, DQUOTE, 'a', NUL, 'b', NUL, NUL] 11 (-1) 0
      = some (⟨['e', 'c', 'h', 'o', NUL, DQUOTE, 'a', NUL, 'b', NUL, NUL], 11, -1, 0, 10⟩,
          none) := by
    decide
  obtain ⟨n1, hr1⟩ := run_command_listable os hd ["echo", "a"] (-1) true w _ _ rfl
  rw [satisfy_of_sequence] at hr1
  obtain ⟨n2, hr2⟩ := run_command_listable os hd [""] (-1) true
    { (run_action os ["echo", "a"] 0 true { w with out := w.out ++ "a\n" }).2.2
        with files := n1 } _ _ rfl
  rw [satisfy_of_sequence] at hr2
  refine ⟨by decide, by decide, by decide, h1, ?st, ?run, ?log, ?nolog, ?wd, ?rn⟩
  case run =>
    refine (parse_loop_run os 11 12 _ 0 (-1) 0 true w [] _ _ 0 true _ h1 hr1).trans ?_
    refine (parse_loop_run os 11 11 _ 7 (-1) 0 true _ _ _ _ 0 true _ h2 hr2).trans ?_
    exact parse_loop_break os 11 10 _ 11 (-1) 0 true _ _ _ h3
  case log => rfl
  case nolog =>
    show ["echo", "a;b"] ∉ [["echo", "a"], [""]]
    decide
  case wd => rfl
  case rn => rfl

/-- C20 in the example world: `echo "a;b"` runs `echo a` and then the empty
name, and `a` and a newline are written. -/
theorem quoted_semicolon_splits_witness :
    listable example_os ∧
    (shell_mainloop_line example_os
        (String.mk ['e', 'c', 'h', 'o', ' ', DQUOTE, 'a', ';', 'b', DQUOTE]) example_world).map
      (fun st => (st.log, st.world.out)) = some ([["echo", "a"], [""]], "a\n") ∧
    tokenize (String.mk ['e', 'c', 'h', 'o', ' ', DQUOTE, 'a', ';', 'b', DQUOTE])
      = some ["echo", "a;b"] ∧
    subcommand_argv ['e', 'c', 'h', 'o', ' ', DQUOTE, 'a'] = some ["echo", "a"] ∧
    subcommand_argv ['b', DQUOTE] = some [""] ∧
    next_command 11 ['e', 'c', 'h', 'o', ' ', DQUOTE, 'a', ';', 'b', DQUOTE, NUL] 0 (-1) 0
      = some (⟨['e', 'c', 'h', 'o', NUL, DQUOTE, 'a', NUL, 'b', DQUOTE, NUL], 7, -1, 0, 0⟩,
          some ["echo", "a"]) ∧
    ∃ st, shell_mainloop_line example_os
        (String.mk ['e', 'c', 'h', 'o', ' ', DQUOTE, 'a', ';', 'b', DQUOTE]) example_world
          = some st ∧
      st.log = [["echo", "a"], [""]] ∧ ["echo", "a;b"] ∉ st.log ∧
      st.world.out = example_world.out ++ "a\n" ∧ st.running = true :=
  ⟨listable_example_os, by decide,
    quoted_semicolon_splits example_os example_world listable_example_os⟩

theorem dtmparse_step_quoted (k : Nat) (p : Parse) (hq : p.in_quotes = 1)
    (hc : peek p.str k ≠ DQUOTE) (hb : peek p.str (k - 1) ≠ BSLASH) :
    dtmparse_step k p = some p := by
  simp [dtmparse_step, hq, hc, hb]

theorem dtmparse_loop_quoted (u : List Char) (hu : ∀ c ∈ u, c ≠ DQUOTE ∧ c ≠ BSLASH) :
    ∀ (pre : List Char) (b0 : Char) (tail : List Char) (n : Nat) (d : List Nat) (c : Nat),
      b0 ≠ BSLASH →
      dtmparse_loop (u.length + n) (pre.length + 1) ⟨pre ++ b0 :: (u ++ tail), d, c, 1⟩
        = dtmparse_loop n (pre.length + 1 + u.length) ⟨pre ++ b0 :: (u ++ tail), d, c, 1⟩ := by
  induction u with
  | nil => intro pre b0 tail n d c _; simp
  | cons y u ih =>
    intro pre b0 tail n d c hb0
    have hy := hu y (by simp)
    have hk : peek (pre ++ b0 :: (y :: u ++ tail)) (pre.length + 1) = y := by
      rw [peek_append_right]; rfl
    have hk1 : peek (pre ++ b0 :: (y :: u ++ tail)) (pre.length + 1 - 1) = b0 := by
      rw [Nat.add_sub_cancel, peek_append_length]; rfl
    have hstep : dtmparse_step (pre.length + 1) ⟨pre ++ b0 :: (y :: u ++ tail), d, c, 1⟩
        = some ⟨pre ++ b0 :: (y :: u ++ tail), d, c, 1⟩ :=
      dtmparse_step_quoted _ _ rfl (by rw [hk]; exact hy.1) (by rw [hk1]; exact hb0)
    have hlen : (y :: u).length + n = (u.length + n) + 1 := by simp; omega
    rw [hlen, dtmparse_loop, hstep, Option.some_bind]
    have := ih (fun c hc => hu c (by simp [hc])) (pre ++ [b0]) y tail n d c hy.2
    simp only [List.append_assoc, List.singleton_append, List.length_append,
      List.length_singleton] at this
    simp only [List.cons_append, List.length_cons]
    rw [this]
    congr 1
    omega

theorem dtmparse_loop_quoted_tail (pre x : List Char) (d : List Nat) (c : Nat)
    (hpos : 0 < pre.length) (hlast : plain_char (peek pre (pre.length - 1)))
    (hx : ∀ y ∈ x, y ≠ DQUOTE ∧ y ≠ BSLASH) :
    dtmparse_loop (x.length + 3) pre.length
        ⟨pre ++ ' ' :: DQUOTE :: (x ++ [DQUOTE, NUL]), d, c, 0⟩
      = some ⟨pre ++ NUL :: DQUOTE :: (x ++ [DQUOTE, NUL]), d ++ [c], pre.length + 2, 0⟩ := by
  -- the space after the word
  have hA : dtmparse_step pre.length ⟨pre ++ ' ' :: DQUOTE :: (x ++ [DQUOTE, NUL]), d, c, 0⟩
      = some ⟨pre ++ NUL :: DQUOTE :: (x ++ [DQUOTE, NUL]), d ++ [c], pre.length + 1, 0⟩ := by
    have hprev : peek (pre ++ ' ' :: DQUOTE :: (x ++ [DQUOTE, NUL])) (pre.length - 1)
        = peek pre (pre.length - 1) := peek_append_left _ _ _ (by omega)
    rw [dtmparse_step_split _ _ (by show peek _ pre.length = ' '; rw [peek_append_length]; rfl)
      (by
        show peek _ (pre.length - 1) ≠ BSLASH ∧ peek _ (pre.length - 1) ≠ DQUOTE ∧
          peek _ (pre.length - 1) ≠ SQUOTE
        rw [hprev]
        exact ⟨hlast.2.2.2.1, hlast.2.1, hlast.2.2.1⟩) rfl]
    simp only [poke_append_length]
  -- the opening quote
  have hB : dtmparse_step (pre.length + 1)
      ⟨pre ++ NUL :: DQUOTE :: (x ++ [DQUOTE, NUL]), d ++ [c], pre.length + 1, 0⟩
      = some ⟨pre ++ NUL :: DQUOTE :: (x ++ [DQUOTE, NUL]), d ++ [c], pre.length + 2, 1⟩ := by
    have hk : peek (pre ++ NUL :: DQUOTE :: (x ++ [DQUOTE, NUL])) (pre.length + 1) = DQUOTE := by
      rw [peek_append_right]; rfl
    have hk1 : peek (pre ++ NUL :: DQUOTE :: (x ++ [DQUOTE, NUL])) pre.length = NUL := by
      rw [peek_append_length]; rfl
    simp [dtmparse_step, hk, hk1, (by decide : DQUOTE ≠ ' '), (by decide : NUL ≠ BSLASH)]
  -- the bytes between the quotes
  have hC := dtmparse_loop_quoted x hx (pre ++ [NUL]) DQUOTE [DQUOTE, NUL] 1 (d ++ [c])
    (pre.length + 2) (by decide)
  simp only [List.append_assoc, List.singleton_append, List.length_append,
    List.length_singleton] at hC
  -- the closing quote
  have hD : dtmparse_step (pre.length + 1 + 1 + x.length)
      ⟨pre ++ NUL :: DQUOTE :: (x ++ [DQUOTE, NUL]), d ++ [c], pre.length + 2, 1⟩
      = some ⟨pre ++ NUL :: DQUOTE :: (x ++ [DQUOTE, NUL]), d ++ [c], pre.length + 2, 0⟩ := by
    have e : pre ++ NUL :: DQUOTE :: (x ++ [DQUOTE, NUL])
        = (pre ++ [NUL]) ++ ((DQUOTE :: x) ++ [DQUOTE, NUL]) := by simp
    have hk : peek (pre ++ NUL :: DQUOTE :: (x ++ [DQUOTE, NUL])) (pre.length + 1 + 1 + x.length)
        = DQUOTE := by
      have i1 : pre.length + 1 + 1 + x.length = (pre ++ [NUL]).length + (DQUOTE :: x).length := by
        simp only [List.length_append, List.length_cons, List.length_nil]; omega
      rw [e, i1, peek_append_right, peek_append_length]; rfl
    have hk1 : peek (pre ++ NUL :: DQUOTE :: (x ++ [DQUOTE, NUL]))
        (pre.length + 1 + x.length) ≠ BSLASH := by
      have i1 : pre.length + 1 + x.length = (pre ++ [NUL]).length + x.length := by
        simp only [List.length_append, List.length_cons, List.length_nil]
      rw [e, i1, peek_append_right, peek_append_left _ _ _ (by simp)]
      have hm := peek_mem (DQUOTE :: x) x.length (by simp)
      rcases List.mem_cons.1 hm with h | h
      · rw [h]; decide
      · exact (hx _ h).2
    simp [dtmparse_step, hk, hk1, (by decide : DQUOTE ≠ ' ')]
  have e3 : x.length + 3 = (x.length + 1) + 1 + 1 := by omega
  rw [e3, dtmparse_loop, hA, Option.some_bind, dtmparse_loop, hB, Option.some_bind, hC,
    dtmparse_loop, hD, Option.some_bind, dtmparse_loop]

theorem dtmparse_quoted (v x : List Char) (hv : plain_word v)
    (hx : ∀ y ∈ x, y ≠ DQUOTE ∧ y ≠ BSLASH ∧ y ≠ NUL) :
    dtmparse (v ++ ' ' :: DQUOTE :: (x ++ [DQUOTE, NUL]))
      = some (v ++ NUL :: DQUOTE :: (x ++ [NUL, NUL]), [0, v.length + 2]) := by
  have hpos : 0 < v.length := List.length_pos.2 hv.1
  have hnn : ∀ y ∈ v ++ ' ' :: DQUOTE :: (x ++ [DQUOTE]), y ≠ NUL := by
    intro y hy
    simp only [List.mem_append, List.mem_cons, List.mem_singleton, List.not_mem_nil,
      or_false] at hy
    rcases hy with h | h | h | h | h
    · exact (hv.2 y h).2.2.2.2
    · rw [h]; decide
    · rw [h]; decide
    · exact (hx y h).2.2
    · rw [h]; decide
  have hlen : strlen (v ++ ' ' :: DQUOTE :: (x ++ [DQUOTE, NUL])) = v.length + x.length + 3 := by
    have := strlen_append_nul (v ++ ' ' :: DQUOTE :: (x ++ [DQUOTE])) [] hnn
    simp only [List.append_assoc, List.cons_append, List.length_append, List.length_cons,
      List.length_nil, List.nil_append] at this
    rw [this]; omega
  have hlast : plain_char (peek v (v.length - 1)) := hv.2 _ (peek_mem v _ (by omega))
  have h2 := dtmparse_loop_quoted_tail v x [] 0 hpos hlast (fun y hy => ⟨(hx y hy).1, (hx y hy).2.1⟩)
  have hloop : dtmparse_loop (strlen (v ++ ' ' :: DQUOTE :: (x ++ [DQUOTE, NUL])) - 1) 1
      ⟨v ++ ' ' :: DQUOTE :: (x ++ [DQUOTE, NUL]), [], 0, 0⟩
      = some ⟨v ++ NUL :: DQUOTE :: (x ++ [DQUOTE, NUL]), [0], v.length + 2, 0⟩ := by
    obtain ⟨x0, u, rfl⟩ : ∃ x0 u, v = x0 :: u := by
      cases v with
      | nil => exact absurd rfl hv.1
      | cons x0 u => exact ⟨x0, u, rfl⟩
    have hu : ∀ c ∈ u, plain_char c := fun c hc => hv.2 c (by simp [hc])
    have h1 := dtmparse_loop_word u hu [x0] (' ' :: DQUOTE :: (x ++ [DQUOTE, NUL])) 1
      (x.length + 3) [] 0 0 rfl
    have e1 : [x0] ++ (u ++ ' ' :: DQUOTE :: (x ++ [DQUOTE, NUL]))
        = (x0 :: u) ++ ' ' :: DQUOTE :: (x ++ [DQUOTE, NUL]) := rfl
    have e2 : 1 + u.length = (x0 :: u).length := by
      simp only [List.length_cons]; omega
    have e3 : strlen ((x0 :: u) ++ ' ' :: DQUOTE :: (x ++ [DQUOTE, NUL])) - 1
        = u.length + (x.length + 3) := by
      rw [hlen]; simp only [List.length_cons]; omega
    rw [e1, e2] at h1
    rw [e3, h1, h2]
    rfl
  have hk : (if 1 < strlen (v ++ ' ' :: DQUOTE :: (x ++ [DQUOTE, NUL]))
      then strlen (v ++ ' ' :: DQUOTE :: (x ++ [DQUOTE, NUL])) else 1) - 1
      = (v ++ NUL :: DQUOTE :: x).length := by
    rw [hlen, if_pos (by omega)]
    simp only [List.length_append, List.length_cons]; omega
  have ez : v ++ NUL :: DQUOTE :: (x ++ [DQUOTE, NUL])
      = (v ++ NUL :: DQUOTE :: x) ++ DQUOTE :: [NUL] := by simp
  have hq : peek (v ++ NUL :: DQUOTE :: (x ++ [DQUOTE, NUL])) (v ++ NUL :: DQUOTE :: x).length
      = DQUOTE := by
    rw [ez, peek_append_length]; rfl
  simp only [dtmparse, hloop, Option.map_some', hk]
  rw [if_pos (Or.inl hq), ez, poke_append_length]
  simp

/-- C19: for every non-empty word `w` without space, quote, backslash or `NUL`
and every string `x` without double quote, backslash or `NUL` (spaces and
single quotes are allowed, and `x` may be empty), `dtmparse` applied to `w`, a
space, a double quote, `x`, a double quote returns exactly the two arguments
`w` and `x`, and the length it reports is 2. -/
theorem tokenize_quoted_argument (w x : String) (hw : plain_word w.data)
    (hx : ∀ c ∈ x.data, c ≠ DQUOTE ∧ c ≠ BSLASH ∧ c ≠ NUL) :
    tokenize (w ++ " " ++ String.mk [DQUOTE] ++ x ++ String.mk [DQUOTE]) = some [w, x] ∧
    (dtmparse ((w ++ " " ++ String.mk [DQUOTE] ++ x ++ String.mk [DQUOTE]).data ++ [NUL])).map
      (fun r => r.2.length) = some 2 := by
  have hdata : (w ++ " " ++ String.mk [DQUOTE] ++ x ++ String.mk [DQUOTE]).data ++ [NUL]
      = w.data ++ ' ' :: DQUOTE :: (x.data ++ [DQUOTE, NUL]) := by
    simp [String.data_append]
  have hmain := dtmparse_quoted w.data x.data hw hx
  have hfirst : strAt (w.data ++ NUL :: DQUOTE :: (x.data ++ [NUL, NUL])) 0 = w := by
    rw [strAt, List.drop_zero, cstr_append_nul _ _ (fun c hc => (hw.2 c hc).2.2.2.2)]
  have hsecond : strAt (w.data ++ NUL :: DQUOTE :: (x.data ++ [NUL, NUL])) (w.data.length + 2)
      = x := by
    have e : w.data ++ NUL :: DQUOTE :: (x.data ++ [NUL, NUL])
        = (w.data ++ [NUL, DQUOTE]) ++ (x.data ++ NUL :: [NUL]) := by simp
    have el : w.data.length + 2 = (w.data ++ [NUL, DQUOTE]).length := by
      simp only [List.length_append, List.length_cons, List.length_nil]
    rw [strAt, e, el, List.drop_left, cstr_append_nul _ _ (fun c hc => (hx c hc).2.2)]
  refine ⟨?_, ?_⟩
  · rw [tokenize, hdata, hmain, Option.map_some', argv_of]
    simp only [List.map_cons, List.map_nil, hfirst, hsecond]
  · rw [hdata, hmain]
    rfl

/-- C19 at the word `echo` and the string `a b`: the bytes `echo "a b"` give
the two arguments `echo` and `a b`. -/
theorem tokenize_quoted_argument_witness :
    plain_word "echo".data ∧ (∀ c ∈ "a b".data, c ≠ DQUOTE ∧ c ≠ BSLASH ∧ c ≠ NUL) ∧
    "echo" ++ " " ++ String.mk [DQUOTE] ++ "a b" ++ String.mk [DQUOTE]
      = String.mk ['e', 'c', 'h', 'o', ' ', DQUOTE, 'a', ' ', 'b', DQUOTE] ∧
    tokenize ("echo" ++ " " ++ String.mk [DQUOTE] ++ "a b" ++ String.mk [DQUOTE])
      = some ["echo", "a b"] ∧
    (dtmparse (("echo" ++ " " ++ String.mk [DQUOTE] ++ "a b" ++ String.mk [DQUOTE]).data
      ++ [NUL])).map (fun r => r.2.length) = some 2 :=
  ⟨by decide, by decide, by decide,
    tokenize_quoted_argument "echo" "a b" (by decide) (by decide)⟩

/-! ## The values parse_builtin returns -/

theorem known_of_eq (c code : Int) (w w1 : World)
    (hc : c = 0x0 ∨ c = 0x1 ∨ c = 0xAA ∨ c = 0xDEAD ∨ c = 0x1337)
    (h : some (c, w) = some (code, w1)) :
    code = 0x0 ∨ code = 0x1 ∨ code = 0xAA ∨ code = 0xDEAD ∨ code = 0x1337 := by
  cases h
  exact hc

theorem parse_builtin_codes (os : OS) : ∀ (argv : List String) (w : World) (code : Int)
    (w1 : World), parse_builtin os argv w = some (code, w1) →
    code = 0x0 ∨ code = 0x1 ∨ code = 0xAA ∨ code = 0xDEAD ∨ code = 0x1337 := by
  intro argv
  induction argv with
  | nil => intro w code w1 h; simp [parse_builtin] at h
  | cons a0 rest ih =>
    intro w code w1
    rw [parse_builtin]
    by_cases h1 : a0 = "exit" ∨ a0 = "logout"
    · rw [if_pos h1]
      by_cases h : rest.length + 1 = 1
      · rw [if_pos h]; exact known_of_eq _ _ _ _ (by decide)
      · rw [if_neg h]; exact known_of_eq _ _ _ _ (by decide)
    rw [if_neg h1]
    by_cases h2 : a0 = "cd" ∨ a0 = "chdir"
    · rw [if_pos h2]
      by_cases h : rest.length + 1 = 1
      · rw [if_pos h]; exact known_of_eq _ _ _ _ (by decide)
      rw [if_neg h]
      by_cases h' : rest.length + 1 = 2
      · rw [if_pos h']
        cases os.chdir (rest.headD "") w with
        | error msg => exact known_of_eq _ _ _ _ (by decide)
        | ok d => exact known_of_eq _ _ _ _ (by decide)
      · rw [if_neg h']; exact known_of_eq _ _ _ _ (by decide)
    rw [if_neg h2]
    by_cases h3 : a0 = "export" ∨ a0 = "setenv"
    · rw [if_pos h3]
      by_cases h : rest.length + 1 = 2
      · rw [if_pos h]
        by_cases h' : (sscanf_export (rest.headD "").data).1 = 2
        · rw [if_pos h']; exact known_of_eq _ _ _ _ (by decide)
        · rw [if_neg h']; exact known_of_eq _ _ _ _ (by decide)
      · rw [if_neg h]; exact known_of_eq _ _ _ _ (by decide)
    rw [if_neg h3]
    by_cases h4 : a0 = "getenv"
    · rw [if_pos h4]
      by_cases h : rest.length + 1 = 2
      · rw [if_pos h]
        cases getenv w.env (rest.headD "") with
        | none => exact known_of_eq _ _ _ _ (by decide)
        | some envvar => exact known_of_eq _ _ _ _ (by decide)
      · rw [if_neg h]; exact known_of_eq _ _ _ _ (by decide)
    rw [if_neg h4]
    by_cases h5 : a0 = "builtin"
    · rw [if_pos h5]
      by_cases h : rest.length + 1 ≥ 2
      · rw [if_pos h]; exact ih w code w1
      · rw [if_neg h]; exact known_of_eq _ _ _ _ (by decide)
    rw [if_neg h5]
    by_cases h6 : a0 = "command"
    · rw [if_pos h6]
      by_cases h : rest.length + 1 = 1
      · rw [if_pos h]; exact known_of_eq _ _ _ _ (by decide)
      rw [if_neg h]
      rcases os.getopt (a0 :: rest) w with ⟨g, argv1, oi⟩
      cases g with
      | p =>
        cases hpth : getenv w.env "PATH" with
        | none => intro h; simp at h
        | some pathold => exact known_of_eq _ _ _ _ (by decide)
      | finished => exact known_of_eq _ _ _ _ (by decide)
      | v => exact known_of_eq _ _ _ _ (by decide)
      | V => exact known_of_eq _ _ _ _ (by decide)
      | unknown => exact known_of_eq _ _ _ _ (by decide)
    rw [if_neg h6]
    by_cases h7 : a0 = "echo"
    · rw [if_pos h7]; exact known_of_eq _ _ _ _ (by decide)
    rw [if_neg h7]
    by_cases h8 : a0 = ":"
    · rw [if_pos h8]; exact known_of_eq _ _ _ _ (by decide)
    rw [if_neg h8]
    exact known_of_eq _ _ _ _ (by decide)

/-- C21: for every argument vector of length at least 1, every value that
`parse_builtin` returns is one of `0x0`, `0x1`, `0xAA`, `0xDEAD`, `0x1337`, so
the `switch` of `shell_mainloop` on that value does what its five `case` labels
say and never reaches `default`; and when `PATH` is set `parse_builtin` does
return. -/
theorem parse_builtin_known_action (os : OS) (argv : List String) (w : World) (run : Bool)
    (hne : argv ≠ []) :
    (∀ code w1, parse_builtin os argv w = some (code, w1) →
      (code = 0x0 ∨ code = 0x1 ∨ code = 0xAA ∨ code = 0xDEAD ∨ code = 0x1337) ∧
      run_action os argv code run w1 =
        (if code = 0x1337 then ((spawnwait os argv w1).1, run, (spawnwait os argv w1).2)
         else if code = 0xDEAD then (code, false, w1)
         else if code = 0x1 ∨ code = 0x0 then (code, run, w1)
         else (code, run,
           { w1 with err := w1.err ++ argv.headD "" ++ ": wrong number of arguments!\n" }))) ∧
    (getenv w.env "PATH" ≠ none → ∃ code w1, parse_builtin os argv w = some (code, w1)) := by
  refine ⟨?_, ?_⟩
  · intro code w1 h
    have hc := parse_builtin_codes os argv w code w1 h
    refine ⟨hc, ?_⟩
    rcases hc with e | e | e | e | e <;> subst e <;> rfl
  · intro hp
    obtain ⟨code, w1, h, _⟩ := parse_builtin_some os argv w hne hp
    exact ⟨code, w1, h⟩

/-- C21 at the vector `frobnicate` in the example world: `parse_builtin`
returns `0x1337`, and the `switch` calls `spawnwait`. -/
theorem parse_builtin_known_action_witness :
    ["frobnicate"] ≠ [] ∧
    parse_builtin example_os ["frobnicate"] example_world = some (0x1337, example_world) ∧
    (∀ code w1, parse_builtin example_os ["frobnicate"] example_world = some (code, w1) →
      (code = 0x0 ∨ code = 0x1 ∨ code = 0xAA ∨ code = 0xDEAD ∨ code = 0x1337) ∧
      run_action example_os ["frobnicate"] code true w1 =
        (if code = 0x1337 then
          ((spawnwait example_os ["frobnicate"] w1).1, true,
            (spawnwait example_os ["frobnicate"] w1).2)
         else if code = 0xDEAD then (code, false, w1)
         else if code = 0x1 ∨ code = 0x0 then (code, true, w1)
         else (code, true,
           { w1 with err := w1.err ++ ["frobnicate"].headD "" ++
               ": wrong number of arguments!\n" }))) ∧
    (getenv example_world.env "PATH" ≠ none →
      ∃ code w1, parse_builtin example_os ["frobnicate"] example_world = some (code, w1)) :=
  ⟨by decide, by decide,
    parse_builtin_known_action example_os ["frobnicate"] example_world true (by decide)⟩

/-! ## An empty sub-command -/

theorem peek_drop (m : List Char) : ∀ (k i : Nat), peek (m.drop k) i = peek m (k + i) := by
  induction m with
  | nil => intro k i; simp [peek]
  | cons c m ih =>
    intro k i
    cases k with
    | zero => simp
    | succ k =>
      have e : k + 1 + i = (k + i) + 1 := by omega
      rw [List.drop_succ_cons, ih, e]
      rfl

theorem skip_spaces_eq : ∀ (n : Nat) (m : List Char), (∀ i, i < n → peek m i = ' ') →
    peek m n ≠ ' ' → skip_spaces m = n := by
  intro n
  induction n with
  | zero =>
    intro m _ h0
    cases m with
    | nil => rfl
    | cons c m =>
      have hc : c ≠ ' ' := h0
      simp [skip_spaces, hc]
  | succ n ih =>
    intro m h hn
    cases m with
    | nil => exact absurd (h 0 (by omega)) (by decide)
    | cons c m =>
      have hc : c = ' ' := h 0 (by omega)
      have := ih m (fun i hi => h (i + 1) (by omega)) hn
      simp [skip_spaces, hc, this]

theorem token_command_blank (sc : Scan) (n : Nat)
    (hsp : ∀ i, i < n → peek sc.command (sc.command_token + i) = ' ')
    (hnul : peek sc.command (sc.command_token + n) = NUL) :
    token_command sc = some (sc, none) := by
  have hk : skip_spaces (sc.command.drop sc.command_token) = n :=
    skip_spaces_eq n _ (fun i hi => by rw [peek_drop]; exact hsp i hi)
      (by rw [peek_drop, hnul]; decide)
  unfold token_command
  simp only [hk]
  rw [if_pos hnul]

theorem token_command_blank_at (x s y : List Char) (pp : Nat) (ee : Int) (sat : Nat)
    (hs : blank s) :
    token_command ⟨x ++ (s ++ NUL :: y), pp, ee, sat, x.length⟩
      = some (⟨x ++ (s ++ NUL :: y), pp, ee, sat, x.length⟩, none) := by
  apply token_command_blank _ s.length
  · intro i hi
    show peek (x ++ (s ++ NUL :: y)) (x.length + i) = ' '
    rw [peek_append_right, peek_append_left _ _ _ hi]
    exact hs _ (peek_mem s i hi)
  · show peek (x ++ (s ++ NUL :: y)) (x.length + s.length) = NUL
    rw [peek_append_right, peek_append_length]
    rfl

theorem operator_free_of_blank (s : List Char) (hs : blank s) : operator_free s := by
  intro c hc
  rw [hs c hc]
  decide

theorem scan_to_semicolon_from (x t y : List Char) (pmax n tok : Nat) (ee : Int)
    (ht : has_operator t = false) (h0 : peek t 0 ≠ '&' ∧ peek t 0 ≠ '|')
    (hlt : t.length < n) :
    scan_loop pmax n ⟨x ++ (t ++ ';' :: y), x.length, ee, 0, tok⟩
      = ⟨x ++ (t ++ NUL :: y), x.length + t.length, -1, 0, tok⟩ := by
  have e : x ++ (t ++ ';' :: y) = (x ++ t) ++ ';' :: y := by simp
  have h := scan_loop_semicolon pmax t.length n ⟨x ++ (t ++ ';' :: y), x.length, ee, 0, tok⟩
    (fun i hi1 hi2 => by
      simp only [] at hi1 hi2
      obtain ⟨j, rfl⟩ : ∃ j, i = x.length + j := ⟨i - x.length, by omega⟩
      show ¬ is_boundary (x ++ (t ++ ';' :: y)) (x.length + j)
      rw [e, is_boundary_append_left _ _ _ (by simp only [List.length_append]; omega)]
      exact no_boundary_right x t ht h0 j (by omega))
    (by
      show peek (x ++ (t ++ ';' :: y)) (x.length + t.length) = ';'
      rw [peek_append_right, peek_append_length]; rfl)
    hlt rfl
  rw [h]
  have el : x.length + t.length = (x ++ t).length := by simp only [List.length_append]
  simp only [Scan.mk.injEq, and_true, true_and]
  rw [e, el, poke_append_length]
  simp

theorem parse_loop_blank (os : OS) (pmax fuel : Nat) (cmd : List Char) (pp : Nat) (ee : Int)
    (sat : Nat) (run : Bool) (w : World) (lg : List (List String)) (n : Nat)
    (hsp : ∀ i, i < n →
      peek (scan_loop pmax (pmax - pp) ⟨cmd, pp, ee, sat, token_start pp pmax⟩).command
        ((scan_loop pmax (pmax - pp) ⟨cmd, pp, ee, sat, token_start pp pmax⟩).command_token + i)
        = ' ')
    (hnul : peek (scan_loop pmax (pmax - pp) ⟨cmd, pp, ee, sat, token_start pp pmax⟩).command
        ((scan_loop pmax (pmax - pp) ⟨cmd, pp, ee, sat, token_start pp pmax⟩).command_token + n)
        = NUL) :
    ∃ st, parse_loop os pmax (fuel + 1)
        { command := cmd, parse_next := true, parse_pos := pp, exit_expect := ee,
          exit_expect_satisfy := sat, running := run, world := w, log := lg } = some st ∧
      st.log = lg ∧ st.world = w ∧ st.running = run := by
  have h1 : next_command pmax cmd pp ee sat
      = some (scan_loop pmax (pmax - pp) ⟨cmd, pp, ee, sat, token_start pp pmax⟩, none) := by
    rw [next_command]
    exact token_command_blank _ n hsp hnul
  exact ⟨_, parse_loop_break os pmax fuel cmd pp ee sat run w lg _ h1, rfl, rfl, rfl⟩

theorem blank_first_runs_nothing (os : OS) (w : World) (s y : String) (hs : blank s.data)
    (hy : ∀ c ∈ y.data, c ≠ NUL) :
    ∃ st, shell_mainloop_line os (s ++ ";" ++ y) w = some st ∧
      st.log = [] ∧ st.world = w ∧ st.running = true := by
  have hline : (s ++ ";" ++ y).data ++ [NUL] = s.data ++ ';' :: (y.data ++ [NUL]) := by
    simp [String.data_append]
  have hlen : strlen (s.data ++ ';' :: (y.data ++ [NUL])) = s.data.length + 1 + y.data.length := by
    have hnn : ∀ c ∈ s.data ++ ';' :: y.data, c ≠ NUL := by
      intro c hc
      rcases List.mem_append.1 hc with h | h
      · rw [hs c h]; decide
      · rcases List.mem_cons.1 h with h | h
        · rw [h]; decide
        · exact hy c h
    have := strlen_append_nul (s.data ++ ';' :: y.data) [] hnn
    simp only [List.append_assoc, List.cons_append, List.length_append, List.length_cons] at this
    rw [this]; omega
  have h1 : next_command (s.data.length + 1 + y.data.length + 1)
      (s.data ++ ';' :: (y.data ++ [NUL])) 0 (-1) 0
      = some (⟨s.data ++ NUL :: (y.data ++ [NUL]), s.data.length, -1, 0, 0⟩, none) := by
    have hts : token_start 0 (s.data.length + 1 + y.data.length + 1) = 0 := by
      simp [token_start]
    rw [next_command, hts, Nat.sub_zero,
      scan_to_semicolon _ _ _ _ (has_operator_of_free _ (operator_free_of_blank _ hs))
        (by omega)]
    exact token_command_blank_at [] s.data (y.data ++ [NUL]) s.data.length (-1) 0 hs
  refine ⟨?st, ?run, ?l, ?wd, ?rn⟩
  case run =>
    rw [shell_mainloop_line, hline, hlen,
      parse_loop_break os _ (s.data.length + 1 + y.data.length + 2) _ 0 (-1) 0 true w [] _ h1]
    exact rfl
  case l => rfl
  case wd => rfl
  case rn => rfl

theorem blank_second_drops_rest (os : OS) (w : World) (a s y : String)
    (ha : sub_command a.data) (hs : blank s.data) (hy : ∀ c ∈ y.data, c ≠ NUL)
    (hp : getenv w.env "PATH" ≠ none) (hd : listable os) :
    ∃ argvA r1 w1 st,
      subcommand_argv a.data = some argvA ∧
      run_command os argvA (-1) true w = some (0, r1, w1) ∧
      shell_mainloop_line os (a ++ ";" ++ s ++ ";" ++ y) w = some st ∧
      st.log = [argvA] ∧ st.world = w1 ∧ st.running = r1 := by
  obtain ⟨hasp, hanul, haop⟩ := ha
  have hapos : 0 < a.data.length := by
    obtain ⟨c, hc, _⟩ := hasp
    exact List.length_pos_of_mem hc
  have hline : (a ++ ";" ++ s ++ ";" ++ y).data ++ [NUL]
      = a.data ++ ';' :: (s.data ++ ';' :: (y.data ++ [NUL])) := by
    simp [String.data_append]
  have hlen : strlen (a.data ++ ';' :: (s.data ++ ';' :: (y.data ++ [NUL])))
      = a.data.length + s.data.length + y.data.length + 2 := by
    have hnn : ∀ c ∈ a.data ++ ';' :: (s.data ++ ';' :: y.data), c ≠ NUL := by
      intro c hc
      simp only [List.mem_append, List.mem_cons] at hc
      rcases hc with h | h | h | h | h
      · exact hanul c h
      · rw [h]; decide
      · rw [hs c h]; decide
      · rw [h]; decide
      · exact hy c h
    have := strlen_append_nul (a.data ++ ';' :: (s.data ++ ';' :: y.data)) [] hnn
    simp only [List.append_assoc, List.cons_append, List.length_append, List.length_cons] at this
    rw [this]; omega
  -- first pass: up to the first semicolon
  obtain ⟨a2, argvA, hla, hneA, hargvA, htokA⟩ := token_command_sub
    ⟨a.data ++ NUL :: (s.data ++ ';' :: (y.data ++ [NUL])), a.data.length, -1, 0, 0⟩ [] a.data
    (s.data ++ ';' :: (y.data ++ [NUL])) rfl rfl hasp hanul
  have h1 : next_command (a.data.length + s.data.length + y.data.length + 3)
      (a.data ++ ';' :: (s.data ++ ';' :: (y.data ++ [NUL]))) 0 (-1) 0
      = some (⟨a2 ++ NUL :: (s.data ++ ';' :: (y.data ++ [NUL])), a2.length, -1, 0, 0⟩,
          some argvA) := by
    have hts : token_start 0 (a.data.length + s.data.length + y.data.length + 3) = 0 := by
      simp [token_start]
    rw [next_command, hts, Nat.sub_zero, scan_to_semicolon _ _ _ _ haop (by omega), htokA, hla]
    rfl
  obtain ⟨s1, r1, w1, hrun1, _, hs1⟩ := run_command_some os argvA (-1) true w hd hneA hp
  have hs1' : s1 = 0 := hs1 rfl
  subst hs1'
  -- second pass: the slice between the semicolons is blank
  have h2 : next_command (a.data.length + s.data.length + y.data.length + 3)
      (a2 ++ NUL :: (s.data ++ ';' :: (y.data ++ [NUL]))) a2.length (-1) 0
      = some (⟨(a2 ++ [NUL]) ++ (s.data ++ NUL :: (y.data ++ [NUL])),
          a2.length + (s.data.length + 1), -1, 0, (a2 ++ [NUL]).length⟩, none) := by
    have hts : token_start a2.length (a.data.length + s.data.length + y.data.length + 3)
        = (a2 ++ [NUL]).length := by
      have e1 : a2.length ≠ 0 := by omega
      have e2 : ¬ a2.length = a.data.length + s.data.length + y.data.length + 3 := by omega
      unfold token_start
      rw [if_pos e1, if_neg e2, List.length_append, List.length_singleton]
      omega
    have hop : has_operator (NUL :: s.data) = false :=
      has_operator_nul_cons _ (has_operator_of_free _ (operator_free_of_blank _ hs))
    have hscan := scan_to_semicolon_from a2 (NUL :: s.data) (y.data ++ [NUL])
      (a.data.length + s.data.length + y.data.length + 3)
      (a.data.length + s.data.length + y.data.length + 3 - a2.length) (a2 ++ [NUL]).length (-1)
      hop ⟨(by decide : NUL ≠ '&'), (by decide : NUL ≠ '|')⟩
      (by simp only [List.length_cons]; omega)
    have e3 : a2 ++ (NUL :: s.data ++ NUL :: (y.data ++ [NUL]))
        = (a2 ++ [NUL]) ++ (s.data ++ NUL :: (y.data ++ [NUL])) := by simp
    rw [e3] at hscan
    rw [next_command, hts]
    refine Eq.trans (congrArg token_command hscan) ?_
    exact token_command_blank_at (a2 ++ [NUL]) s.data (y.data ++ [NUL]) _ (-1) 0 hs
  have d1 : decide (0 ≠ a.data.length + s.data.length + y.data.length + 3) = true := by simp
  refine ⟨argvA, r1, w1, ?st, hargvA, hrun1, ?run, ?l, ?wd, ?rn⟩
  case run =>
    rw [shell_mainloop_line, hline, hlen,
      parse_loop_run os _ (a.data.length + s.data.length + y.data.length + 4) _ 0 (-1) 0 true w
        [] _ _ 0 r1 w1 h1 hrun1, d1,
      parse_loop_break os _ (a.data.length + s.data.length + y.data.length + 3) _ _ (-1) 0 r1
        w1 _ _ h2]
    exact rfl
  case l => rfl
  case wd => rfl
  case rn => rfl

/-- C22: an empty sub-command ends the evaluation of the line.  In every pass
of `while (parse_next)`, from every state: when the bytes at `command_token`
after the scan are `n` spaces and then `NUL` (`n` may be 0), the loop is left
in that pass, nothing is passed to `parse_builtin` and the world is as it was.
So for every line that starts with spaces (or nothing), then `;`, then any
bytes `y`, nothing is run.  And when the directory `.` stays listable (so that
`buildhints(".")` returns after a command): for every line `a ; s ; y` with `a`
a sub-command, `s` spaces (or nothing) and `PATH` set, only `a` is run,
whatever `y` holds; and for `echo a ;; echo b` the only vector passed is
`echo`, `a` and the empty string that the space before `;` leaves, and what is
written is `a`, a space and a newline. -/
theorem empty_subcommand_ends_line (os : OS) (w : World) :
    (∀ (pmax fuel : Nat) (cmd : List Char) (pp : Nat) (ee : Int) (sat : Nat) (run : Bool)
        (lg : List (List String)) (n : Nat),
      (∀ i, i < n →
        peek (scan_loop pmax (pmax - pp) ⟨cmd, pp, ee, sat, token_start pp pmax⟩).command
          ((scan_loop pmax (pmax - pp) ⟨cmd, pp, ee, sat, token_start pp pmax⟩).command_token
            + i) = ' ') →
      peek (scan_loop pmax (pmax - pp) ⟨cmd, pp, ee, sat, token_start pp pmax⟩).command
          ((scan_loop pmax (pmax - pp) ⟨cmd, pp, ee, sat, token_start pp pmax⟩).command_token
            + n) = NUL →
      ∃ st, parse_loop os pmax (fuel + 1)
          { command := cmd, parse_next := true, parse_pos := pp, exit_expect := ee,
            exit_expect_satisfy := sat, running := run, world := w, log := lg } = some st ∧
        st.log = lg ∧ st.world = w ∧ st.running = run) ∧
    (∀ s y : String, blank s.data → (∀ c ∈ y.data, c ≠ NUL) →
      ∃ st, shell_mainloop_line os (s ++ ";" ++ y) w = some st ∧
        st.log = [] ∧ st.world = w ∧ st.running = true) ∧
    (∀ a s y : String, sub_command a.data → blank s.data → (∀ c ∈ y.data, c ≠ NUL) →
      getenv w.env "PATH" ≠ none → listable os →
      ∃ argvA r1 w1 st,
        subcommand_argv a.data = some argvA ∧
        run_command os argvA (-1) true w = some (0, r1, w1) ∧
        shell_mainloop_line os (a ++ ";" ++ s ++ ";" ++ y) w = some st ∧
        st.log = [argvA] ∧ st.world = w1 ∧ st.running = r1) ∧
    (listable os →
      ∃ st, shell_mainloop_line os "echo a ;; echo b" w = some st ∧
        st.log = [["echo", "a", ""]] ∧ st.world.out = w.out ++ "a \n") := by
  refine ⟨?_, ?_, ?_, ?_⟩
  · intro pmax fuel cmd pp ee sat run lg n hsp hnul
    exact parse_loop_blank os pmax fuel cmd pp ee sat run w lg n hsp hnul
  · intro s y hs hy
    exact blank_first_runs_nothing os w s y hs hy
  · intro a s y ha hs hy hp hd
    exact blank_second_drops_rest os w a s y ha hs hy hp hd
  · intro hd
    have h1 : next_command 17 ("echo a ;; echo b".data ++ [NUL]) 0 (-1) 0
        = some (⟨"echo\x00a\x00\x00; echo b\x00".data, 7, -1, 0, 0⟩, some ["echo", "a", ""]) := by
      decide
    have h2 : next_command 17 "echo\x00a\x00\x00; echo b\x00".data 7 (-1) 0
        = some (⟨"echo\x00a\x00\x00\x00 echo b\x00".data, 8, -1, 0, 8⟩, none) := by
      decide
    obtain ⟨n1, hr1⟩ := run_command_listable os hd ["echo", "a", ""] (-1) true w _ _ rfl
    rw [satisfy_of_sequence] at hr1
    refine ⟨?st, ?run, ?log, ?out⟩
    case run =>
      refine (parse_loop_run os 17 18 _ 0 (-1) 0 true w [] _ _ 0 true _ h1 hr1).trans ?_
      exact parse_loop_break os 17 17 _ 7 (-1) 0 true _ _ _ h2
    case log => rfl
    case out => rfl

/-- C22 in the example world: of `echo a ;; echo b` only `echo a` is run, and
of `; echo a` nothing is run. -/
theorem empty_subcommand_ends_line_witness :
    listable example_os ∧ sub_command "echo a ".data ∧ blank "".data ∧
    "echo a " ++ ";" ++ "" ++ ";" ++ " echo b" = "echo a ;; echo b" ∧
    "" ++ ";" ++ " echo a" = "; echo a" ∧
    (shell_mainloop_line example_os "echo a ;; echo b" example_world).map
      (fun st => (st.log, st.world.out)) = some ([["echo", "a", ""]], "a \n") ∧
    (shell_mainloop_line example_os "; echo a" example_world).map
      (fun st => (st.log, st.world.out)) = some ([], "") ∧
    (∃ argvA r1 w1 st,
      subcommand_argv "echo a ".data = some argvA ∧
      run_command example_os argvA (-1) true example_world = some (0, r1, w1) ∧
      shell_mainloop_line example_os ("echo a " ++ ";" ++ "" ++ ";" ++ " echo b") example_world
        = some st ∧
      st.log = [argvA] ∧ st.world = w1 ∧ st.running = r1) ∧
    (∃ st, shell_mainloop_line example_os ("" ++ ";" ++ " echo a") example_world = some st ∧
      st.log = [] ∧ st.world = example_world ∧ st.running = true) :=
  ⟨listable_example_os, by decide, by decide, by decide, by decide, by decide, by decide,
    (empty_subcommand_ends_line example_os example_world).2.2.1 "echo a " "" " echo b"
      (by decide) (by decide) (by decide) (by decide) listable_example_os,
    (empty_subcommand_ends_line example_os example_world).2.1 "" " echo a" (by decide)
      (by decide)⟩

/-! ## A chain of `&&` whose sub-commands all succeed -/

theorem has_operator_append_amp (a : List Char) (ha : operator_free a) :
    has_operator (a ++ ['&']) = false := by
  induction a with
  | nil => decide
  | cons c s ih =>
    have hc := ha c (by simp)
    rw [List.cons_append, has_operator_cons_iff]
    exact ⟨hc.1, ih (fun d hd => ha d (by simp [hd])), fun e => hc.2.1 e.1, fun e => hc.2.2 e.1⟩

theorem has_operator_amp_cons (t : List Char) (ht : has_operator t = false)
    (h0 : peek t 0 ≠ '&') : has_operator ('&' :: t) = false := by
  rw [has_operator_cons_iff]
  exact ⟨by decide, ht, fun e => h0 e.2, fun e => absurd e.1 (by decide)⟩

theorem peek_zero_free (a t : List Char) (ha : operator_free a) (hne : a ≠ []) :
    peek (a ++ t) 0 ≠ '&' := by
  have hpos : 0 < a.length := List.length_pos.2 hne
  rw [peek_append_left _ _ _ hpos]
  exact (ha _ (peek_mem a 0 hpos)).2.1

theorem scan_chain_next (d a y : List Char) (pmax n tok : Nat) (ee : Int)
    (ha : operator_free a) (hne : a ≠ []) (hn : a.length + 2 < n) :
    scan_loop pmax n ⟨d ++ NUL :: '&' :: (a ++ '&' :: '&' :: y), d.length + 1, ee, 0, tok⟩
      = ⟨(d ++ NUL :: '&' :: a) ++ NUL :: '&' :: y, d.length + 1 + (a.length + 2), 0, 0, tok⟩ := by
  have e : d ++ NUL :: '&' :: (a ++ '&' :: '&' :: y)
      = (d ++ NUL :: '&' :: (a ++ ['&'])) ++ '&' :: y := by simp
  have e2 : d ++ NUL :: '&' :: (a ++ '&' :: '&' :: y)
      = (d ++ NUL :: '&' :: a) ++ '&' :: '&' :: y := by simp
  have hop : has_operator (NUL :: '&' :: (a ++ ['&'])) = false :=
    has_operator_nul_cons _ (has_operator_amp_cons _ (has_operator_append_amp a ha)
      (peek_zero_free a _ ha hne))
  have i1 : d.length + 1 + (a.length + 2) = (d ++ NUL :: '&' :: (a ++ ['&'])).length := by
    simp only [List.length_append, List.length_cons, List.length_nil]; omega
  have i2 : d.length + 1 + (a.length + 2) - 1 = (d ++ NUL :: '&' :: a).length := by
    simp only [List.length_append, List.length_cons]; omega
  have h := scan_loop_andand pmax (a.length + 2) n
    ⟨d ++ NUL :: '&' :: (a ++ '&' :: '&' :: y), d.length + 1, ee, 0, tok⟩
    (fun i hi1 hi2 => by
      simp only [] at hi1 hi2
      obtain ⟨j, rfl⟩ : ∃ j, i = d.length + j := ⟨i - d.length, by omega⟩
      show ¬ is_boundary (d ++ NUL :: '&' :: (a ++ '&' :: '&' :: y)) (d.length + j)
      rw [e, is_boundary_append_left _ _ _
        (by simp only [List.length_append, List.length_cons, List.length_nil]; omega)]
      exact no_boundary_right d _ hop ⟨(by decide : NUL ≠ '&'), (by decide : NUL ≠ '|')⟩ j
        (by simp only [List.length_append, List.length_cons, List.length_nil]; omega))
    (by
      show peek (d ++ NUL :: '&' :: (a ++ '&' :: '&' :: y)) (d.length + 1 + (a.length + 2)) = '&'
      rw [i1, e, peek_append_length]; rfl)
    (by
      show peek (d ++ NUL :: '&' :: (a ++ '&' :: '&' :: y))
        (d.length + 1 + (a.length + 2) - 1) = '&'
      rw [i2, e2, peek_append_length]; rfl)
    (by simp only []; omega) hn rfl
  rw [h]
  simp only [Scan.mk.injEq, and_true, true_and]
  rw [i2, e2, poke_append_length]

theorem scan_chain_last (d a : List Char) (pmax tok : Nat) (ee : Int) (sat : Nat)
    (ha : operator_free a) (hne : a ≠ []) :
    scan_loop pmax (a.length + 2) ⟨d ++ NUL :: '&' :: (a ++ [NUL]), d.length + 1, ee, sat, tok⟩
      = ⟨d ++ NUL :: '&' :: (a ++ [NUL]), d.length + 1 + (a.length + 2), ee, sat, tok⟩ := by
  apply scan_loop_free
  intro i hi1 hi2
  simp only [] at hi1 hi2
  obtain ⟨j, rfl⟩ : ∃ j, i = d.length + j := ⟨i - d.length, by omega⟩
  have hop : has_operator (NUL :: '&' :: (a ++ [NUL])) = false :=
    has_operator_nul_cons _ (has_operator_amp_cons _
      (has_operator_append_nul a (has_operator_of_free a ha)) (peek_zero_free a _ ha hne))
  exact no_boundary_right d _ hop ⟨(by decide : NUL ≠ '&'), (by decide : NUL ≠ '|')⟩ j
    (by simp only [List.length_append, List.length_cons, List.length_nil]; omega)

theorem run_chain_cons (os : OS) (argv : List String) (rest : List (List String)) (run : Bool)
    (w : World) (r1 : Bool) (w1 : World)
    (h : run_chain os (argv :: rest) run w = some (r1, w1)) :
    ∃ run2 w2, run_command os argv 0 run w = some (0, run2, w2) ∧
      run_chain os rest run2 w2 = some (r1, w1) := by
  rw [run_chain] at h
  cases hpb : parse_builtin os argv w with
  | none => rw [hpb] at h; simp at h
  | some r =>
    obtain ⟨code, w0⟩ := r
    rw [hpb] at h
    simp only [] at h
    by_cases hz : (run_action os argv code run w0).1 = 0
    · rw [if_pos hz] at h
      cases hb : buildhints os (run_action os argv code run w0).2.2 with
      | none => rw [hb] at h; simp at h
      | some w2 =>
        rw [hb, Option.some_bind] at h
        refine ⟨(run_action os argv code run w0).2.1, w2, ?_, h⟩
        simp only [run_command, hpb, hb, Option.map_some', hz]
        rfl
    · rw [if_neg hz] at h; simp at h

theorem chain_tail (os : OS) : ∀ (rest : List (List Char)) (d a : List Char) (run : Bool)
    (w : World) (lg : List (List String)) (fuel : Nat) (r1 : Bool) (w1 : World),
    plain_command a → (∀ r ∈ rest, plain_command r) → rest.length + 2 ≤ fuel →
    run_chain os ((a :: rest).filterMap subcommand_argv) run w = some (r1, w1) →
    ∃ st, parse_loop os (d.length + 2 + a.length + (anded rest).length + 1) fuel
        { command := d ++ NUL :: '&' :: (a ++ (anded rest ++ [NUL])), parse_next := true,
          parse_pos := d.length + 1, exit_expect := 0, exit_expect_satisfy := 0,
          running := run, world := w, log := lg } = some st ∧
      st.log = lg ++ (a :: rest).filterMap subcommand_argv ∧ st.world = w1 ∧
      st.running = r1 := by
  intro rest
  induction rest with
  | nil =>
    intro d a run w lg fuel r1 w1 ha _ hfuel hrun
    obtain ⟨⟨hasp, hanul, _⟩, hao⟩ := ha
    have hane : a ≠ [] := by
      obtain ⟨x, hx, _⟩ := hasp
      exact List.ne_nil_of_mem hx
    obtain ⟨f, rfl⟩ : ∃ f, fuel = f + 2 := ⟨fuel - 2, by simp only [List.length_nil] at hfuel; omega⟩
    obtain ⟨a2, argvA, hla, hneA, hargvA, htokA⟩ := token_command_sub
      ⟨d ++ NUL :: '&' :: (a ++ [NUL]), d.length + 1 + (a.length + 2), 0, 0, d.length + 2⟩
      (d ++ [NUL, '&']) a [] (by simp) (by simp) hasp hanul
    have hfm : [a].filterMap subcommand_argv = [argvA] := by
      rw [List.filterMap_cons_some hargvA]; rfl
    rw [hfm] at hrun ⊢
    obtain ⟨run2, w2, hrc, hrest⟩ := run_chain_cons os argvA [] run w r1 w1 hrun
    simp only [run_chain, Option.some.injEq, Prod.mk.injEq] at hrest
    obtain ⟨rfl, rfl⟩ := hrest
    simp only [anded, List.length_nil, Nat.add_zero, List.nil_append]
    have h1 : next_command (d.length + 2 + a.length + 1) (d ++ NUL :: '&' :: (a ++ [NUL]))
        (d.length + 1) 0 0
        = some (⟨(d ++ [NUL, '&']) ++ (a2 ++ [NUL]), d.length + 2 + a.length + 1, 0, 0,
            d.length + 2⟩, some argvA) := by
      have hts : token_start (d.length + 1) (d.length + 2 + a.length + 1) = d.length + 2 := by
        have e1 : d.length + 1 ≠ 0 := by omega
        have e2 : ¬ d.length + 1 = d.length + 2 + a.length + 1 := by omega
        unfold token_start
        rw [if_pos e1, if_neg e2]
        omega
      have hn : d.length + 2 + a.length + 1 - (d.length + 1) = a.length + 2 := by omega
      have e3 : d.length + 1 + (a.length + 2) = d.length + 2 + a.length + 1 := by omega
      rw [next_command, hts, hn, scan_chain_last _ _ _ _ _ _ hao hane, htokA]
      simp only [e3]
    have h2 : next_command (d.length + 2 + a.length + 1) ((d ++ [NUL, '&']) ++ (a2 ++ [NUL]))
        (d.length + 2 + a.length + 1) 0 0
        = some (⟨(d ++ [NUL, '&']) ++ (a2 ++ [NUL]), d.length + 2 + a.length + 1, 0, 0,
            d.length + 2 + a.length⟩, none) := by
      have hts : token_start (d.length + 2 + a.length + 1) (d.length + 2 + a.length + 1)
          = ((d ++ [NUL, '&']) ++ a2).length := by
        have e1 : d.length + 2 + a.length + 1 ≠ 0 := by omega
        unfold token_start
        rw [if_pos e1, if_pos rfl]
        simp only [List.length_append, List.length_cons, List.length_nil, hla]
        omega
      have hz : (d ++ [NUL, '&']) ++ (a2 ++ [NUL]) = ((d ++ [NUL, '&']) ++ a2) ++ [NUL] := by
        simp
      rw [next_command, hts, Nat.sub_self, scan_loop, hz, token_command_end]
      simp only [List.length_append, List.length_cons, List.length_nil, hla]
    have d1 : decide (d.length + 1 ≠ d.length + 2 + a.length + 1) = true :=
      decide_eq_true (by omega)
    refine ⟨?st, ?run, ?l, ?wd, ?rn⟩
    case run =>
      rw [parse_loop_run os _ (f + 1) _ _ 0 0 run w lg _ _ 0 run2 w2 h1 hrc, d1,
        parse_loop_break os _ f _ _ 0 0 run2 w2 _ _ h2]
      exact rfl
    case l => rfl
    case wd => rfl
    case rn => rfl
  | cons b rest ih =>
    intro d a run w lg fuel r1 w1 ha hrest hfuel hrun
    obtain ⟨⟨hasp, hanul, _⟩, hao⟩ := ha
    have hane : a ≠ [] := by
      obtain ⟨x, hx, _⟩ := hasp
      exact List.ne_nil_of_mem hx
    obtain ⟨f, rfl⟩ : ∃ f, fuel = f + 1 := ⟨fuel - 1, by omega⟩
    obtain ⟨a2, argvA, hla, hneA, hargvA, htokA⟩ := token_command_sub
      ⟨(d ++ NUL :: '&' :: a) ++ NUL :: '&' :: (b ++ (anded rest ++ [NUL])),
        d.length + 1 + (a.length + 2), 0, 0, d.length + 2⟩
      (d ++ [NUL, '&']) a ('&' :: (b ++ (anded rest ++ [NUL]))) (by simp) (by simp) hasp hanul
    have hfm : (a :: b :: rest).filterMap subcommand_argv
        = argvA :: (b :: rest).filterMap subcommand_argv := List.filterMap_cons_some hargvA
    rw [hfm] at hrun ⊢
    obtain ⟨run2, w2, hrc, hrest2⟩ := run_chain_cons os argvA _ run w r1 w1 hrun
    obtain ⟨st, hst, hlog, hw, hr⟩ := ih (d ++ [NUL, '&'] ++ a2) b run2 w2 (lg ++ [argvA]) f r1 w1
      (hrest b (by simp)) (fun r hr => hrest r (by simp [hr]))
      (by simp only [List.length_cons] at hfuel; omega) hrest2
    have hpm : d.length + 2 + a.length + (anded (b :: rest)).length + 1
        = (d ++ [NUL, '&'] ++ a2).length + 2 + b.length + (anded rest).length + 1 := by
      simp only [anded, List.length_append, List.length_cons, List.length_nil, hla]
      omega
    have hcmd0 : d ++ NUL :: '&' :: (a ++ (anded (b :: rest) ++ [NUL]))
        = d ++ NUL :: '&' :: (a ++ '&' :: '&' :: (b ++ (anded rest ++ [NUL]))) := by
      simp [anded]
    have h1 : next_command ((d ++ [NUL, '&'] ++ a2).length + 2 + b.length + (anded rest).length + 1)
        (d ++ NUL :: '&' :: (a ++ '&' :: '&' :: (b ++ (anded rest ++ [NUL])))) (d.length + 1) 0 0
        = some (⟨(d ++ [NUL, '&'] ++ a2) ++ NUL :: '&' :: (b ++ (anded rest ++ [NUL])),
            (d ++ [NUL, '&'] ++ a2).length + 1, 0, 0, d.length + 2⟩, some argvA) := by
      have hts : token_start (d.length + 1)
          ((d ++ [NUL, '&'] ++ a2).length + 2 + b.length + (anded rest).length + 1)
          = d.length + 2 := by
        have e1 : d.length + 1 ≠ 0 := by omega
        have e2 : ¬ d.length + 1
            = (d ++ [NUL, '&'] ++ a2).length + 2 + b.length + (anded rest).length + 1 := by
          simp only [List.length_append, List.length_cons, List.length_nil]; omega
        unfold token_start
        rw [if_pos e1, if_neg e2]
        omega
      have hn : a.length + 2 < (d ++ [NUL, '&'] ++ a2).length + 2 + b.length
          + (anded rest).length + 1 - (d.length + 1) := by
        simp only [List.length_append, List.length_cons, List.length_nil, hla]; omega
      rw [next_command, hts, scan_chain_next _ _ _ _ _ _ _ hao hane hn, htokA]
      simp only [List.length_append, List.length_cons, List.length_nil, hla, List.append_assoc,
        List.cons_append, List.nil_append, Option.some.injEq, Prod.mk.injEq, and_true,
        Scan.mk.injEq, true_and]
      omega
    have d1 : decide (d.length + 1
        ≠ (d ++ [NUL, '&'] ++ a2).length + 2 + b.length + (anded rest).length + 1) = true :=
      decide_eq_true (by simp only [List.length_append, List.length_cons, List.length_nil]; omega)
    refine ⟨st, ?_, ?_, hw, hr⟩
    · rw [hpm, hcmd0, parse_loop_run os _ f _ _ 0 0 run w lg _ _ 0 run2 w2 h1 hrc, d1]
      exact hst
    · rw [hlog]; simp

theorem intercalate_go_anded (ws : List String) :
    ∀ acc : String, (String.intercalate.go acc "&&" ws).data
      = acc.data ++ anded (ws.map String.data) := by
  induction ws with
  | nil => intro acc; simp [String.intercalate.go, anded]
  | cons w ws ih =>
    intro acc
    rw [String.intercalate.go, ih]
    simp [anded]

theorem length_anded_ge (rest : List (List Char)) : rest.length ≤ (anded rest).length := by
  induction rest with
  | nil => simp [anded]
  | cons a rest ih =>
    simp only [anded, List.length_cons, List.length_append]
    omega

theorem anded_no_nul (rest : List (List Char)) (h : ∀ r ∈ rest, ∀ c ∈ r, c ≠ NUL) :
    ∀ c ∈ anded rest, c ≠ NUL := by
  induction rest with
  | nil => intro c hc; simp [anded] at hc
  | cons a rest ih =>
    intro c hc
    simp only [anded, List.mem_cons, List.mem_append] at hc
    rcases hc with e | e | e | e
    · rw [e]; decide
    · rw [e]; decide
    · exact h a (by simp) c e
    · exact ih (fun r hr => h r (by simp [hr])) c e

theorem subcommand_argv_some (s : List Char) (hs : sub_command s) :
    ∃ argv, subcommand_argv s = some argv := by
  obtain ⟨_, argv, _, _, h, _⟩ := token_command_sub ⟨[] ++ (s ++ NUL :: []), 0, 0, 0, 0⟩ [] s []
    rfl rfl hs.1 hs.2.1
  exact ⟨argv, h⟩

theorem length_filterMap_argv (l : List (List Char)) (h : ∀ s ∈ l, sub_command s) :
    (l.filterMap subcommand_argv).length = l.length := by
  induction l with
  | nil => rfl
  | cons s l ih =>
    obtain ⟨argv, hargv⟩ := subcommand_argv_some s (h s (by simp))
    rw [List.filterMap_cons_some hargv, List.length_cons, List.length_cons,
      ih (fun r hr => h r (by simp [hr]))]

/-- C4: for every chain `c₁ && c₂ && … && cₙ` of two or more sub-commands, each
with a byte other than a space and without `NUL`, `;`, `&`, `|` (the spaces
around `&&` belong to the sub-commands), in which every sub-command leaves
`exit_code` 0 when it is run in the world its predecessor leaves (`run_chain`
has a result), `shell_mainloop` passes to `parse_builtin` exactly the argument
vectors that `dtmparse` yields for `c₁`, …, `cₙ`, one for each sub-command, in
the order of the line, each in the world the one before leaves. -/
theorem andthen_chain_runs_all (os : OS) (w : World) (cmds : List String) (r1 : Bool)
    (w1 : World) (hlen : 2 ≤ cmds.length) (hplain : ∀ c ∈ cmds, plain_command c.data)
    (hrun : run_chain os ((cmds.map String.data).filterMap subcommand_argv) true w
      = some (r1, w1)) :
    ((cmds.map String.data).filterMap subcommand_argv).length = cmds.length ∧
    ∃ st, shell_mainloop_line os (String.intercalate "&&" cmds) w = some st ∧
      st.log = (cmds.map String.data).filterMap subcommand_argv ∧
      st.world = w1 ∧ st.running = r1 := by
  obtain ⟨c0, c1, cs, rfl⟩ : ∃ c0 c1 cs, cmds = c0 :: c1 :: cs := by
    match cmds, hlen with
    | c0 :: c1 :: cs, _ => exact ⟨c0, c1, cs, rfl⟩
  have hp0 := hplain c0 (by simp)
  have hp1 := hplain c1 (by simp)
  have hpcs : ∀ r ∈ cs.map String.data, plain_command r := by
    intro r hr
    obtain ⟨c, hc, rfl⟩ := List.mem_map.1 hr
    exact hplain c (by simp [hc])
  refine ⟨?_, ?_⟩
  · rw [length_filterMap_argv _ (fun s hs => by
      obtain ⟨c, hc, rfl⟩ := List.mem_map.1 hs
      exact (hplain c hc).1), List.length_map]
  obtain ⟨⟨hasp, hanul, _⟩, hao⟩ := hp0
  have hane : c0.data ≠ [] := by
    obtain ⟨x, hx, _⟩ := hasp
    exact List.ne_nil_of_mem hx
  -- the buffer and its length
  have hline : (String.intercalate "&&" (c0 :: c1 :: cs)).data ++ [NUL]
      = c0.data ++ '&' :: '&' :: (c1.data ++ (anded (cs.map String.data) ++ [NUL])) := by
    simp [String.intercalate, intercalate_go_anded, anded]
  have hlenl : strlen (c0.data ++ '&' :: '&' :: (c1.data ++ (anded (cs.map String.data) ++ [NUL])))
      = c0.data.length + 2 + c1.data.length + (anded (cs.map String.data)).length := by
    have hnn : ∀ x ∈ c0.data ++ '&' :: '&' :: (c1.data ++ anded (cs.map String.data)),
        x ≠ NUL := by
      intro x hx
      simp only [List.mem_append, List.mem_cons] at hx
      rcases hx with h | h | h | h | h
      · exact hanul x h
      · rw [h]; decide
      · rw [h]; decide
      · exact hp1.1.2.1 x h
      · exact anded_no_nul _ (fun r hr => (hpcs r hr).1.2.1) x h
    have := strlen_append_nul (c0.data ++ '&' :: '&' :: (c1.data ++ anded (cs.map String.data)))
      [] hnn
    simp only [List.append_assoc, List.cons_append, List.length_append, List.length_cons] at this
    rw [this]; omega
  -- first pass: up to the second `&`
  obtain ⟨a2, argv0, hla, hne0, hargv0, htok0⟩ := token_command_sub
    ⟨c0.data ++ NUL :: '&' :: (c1.data ++ (anded (cs.map String.data) ++ [NUL])),
      c0.data.length + 1, 0, 0, 0⟩
    [] c0.data ('&' :: (c1.data ++ (anded (cs.map String.data) ++ [NUL]))) rfl rfl hasp hanul
  have hfm : ((c0 :: c1 :: cs).map String.data).filterMap subcommand_argv
      = argv0 :: ((c1 :: cs).map String.data).filterMap subcommand_argv := by
    rw [List.map_cons, List.filterMap_cons_some hargv0]
  rw [hfm] at hrun ⊢
  obtain ⟨run2, w2, hrc, hrest⟩ := run_chain_cons os argv0 _ true w r1 w1 hrun
  have h1 : next_command (a2.length + 2 + c1.data.length + (anded (cs.map String.data)).length + 1)
      (c0.data ++ '&' :: '&' :: (c1.data ++ (anded (cs.map String.data) ++ [NUL]))) 0 (-1) 0
      = some (⟨a2 ++ NUL :: '&' :: (c1.data ++ (anded (cs.map String.data) ++ [NUL])),
          a2.length + 1, 0, 0, 0⟩, some argv0) := by
    have hts : token_start 0
        (a2.length + 2 + c1.data.length + (anded (cs.map String.data)).length + 1) = 0 := by
      simp [token_start]
    rw [next_command, hts, Nat.sub_zero, scan_to_andand _ _ _ hao hane (by omega), htok0, hla]
    rfl
  rw [List.map_cons] at hrest ⊢
  obtain ⟨st, hst, hlog, hw, hr⟩ := chain_tail os (cs.map String.data) a2 c1.data run2 w2
    [argv0] (c0.data.length + 2 + c1.data.length + (anded (cs.map String.data)).length + 2)
    r1 w1 hp1 hpcs
    (by have := length_anded_ge (cs.map String.data); omega) hrest
  have d1 : decide (0 ≠ a2.length + 2 + c1.data.length + (anded (cs.map String.data)).length + 1)
      = true := decide_eq_true (by omega)
  have hpm : c0.data.length + 2 + c1.data.length + (anded (cs.map String.data)).length + 1
      = a2.length + 2 + c1.data.length + (anded (cs.map String.data)).length + 1 := by
    rw [hla]
  refine ⟨st, ?_, by simpa using hlog, hw, hr⟩
  rw [shell_mainloop_line, hline, hlenl, hpm,
    parse_loop_run os _ (c0.data.length + 2 + c1.data.length
      + (anded (cs.map String.data)).length + 2) _ 0 (-1) 0 true w [] _ _ 0 run2 w2 h1 hrc, d1]
  exact hst

/-- C4 at `true && echo a && echo b` in the example world, where `true` exits
with 0: the three sub-commands are run in the order of the line, and what is
written is `a`, a space, a newline, `b`, a newline. -/
theorem andthen_chain_runs_all_witness :
    2 ≤ ["true ", " echo a ", " echo b"].length ∧
    (∀ c ∈ ["true ", " echo a ", " echo b"], plain_command c.data) ∧
    String.intercalate "&&" ["true ", " echo a ", " echo b"] = "true && echo a && echo b" ∧
    (["true ", " echo a ", " echo b"].map String.data).filterMap subcommand_argv
      = [["true", ""], ["echo", "a", ""], ["echo", "b"]] ∧
    run_chain example_os
      ((["true ", " echo a ", " echo b"].map String.data).filterMap subcommand_argv) true
      example_world = some (true, { example_world with out := "a \nb\n" }) ∧
    (shell_mainloop_line example_os "true && echo a && echo b" example_world).map
      (fun st => (st.log, st.world.out))
      = some ([["true", ""], ["echo", "a", ""], ["echo", "b"]], "a \nb\n") ∧
    ((["true ", " echo a ", " echo b"].map String.data).filterMap subcommand_argv).length
      = ["true ", " echo a ", " echo b"].length ∧
    ∃ st, shell_mainloop_line example_os
        (String.intercalate "&&" ["true ", " echo a ", " echo b"]) example_world = some st ∧
      st.log = (["true ", " echo a ", " echo b"].map String.data).filterMap subcommand_argv ∧
      st.world = { example_world with out := "a \nb\n" } ∧ st.running = true :=
  ⟨by decide, by decide, by decide, by decide, by decide, by decide,
    andthen_chain_runs_all example_os example_world ["true ", " echo a ", " echo b"] true
      { example_world with out := "a \nb\n" } (by decide) (by decide) (by decide)⟩

end Cbsh
